import Mathlib

/-!
# Block Pitman-Yor feature reassignment (`src/algorithm8.cc`)

A shallow embedding of `loom::Algorithm8::BlockPitmanYorSampler` and of
`loom::Algorithm8::infer_assignments`, followed by theorems about them.

Conventions of the embedding

* `float` values are exact rationals (`ℚ`); `VectorFloat` is `List ℚ`.
  The functions that compute the prior and the posterior are embedded a second
  time, with a `_rounded` suffix, with every `float` operation followed by a
  rounding function; `round_binary32` is the rounding of IEEE 754 binary32.
* `uint32_t` arithmetic is reduced modulo `2 ^ 32`, `size_t` arithmetic modulo
  `2 ^ 64`.
* A call returns `Except Fault`: `Fault.abort` is the `abort()` of a failed
  `LOOM_ASSERT`, `Fault.out_of_range` is an unchecked `operator[]` (or raw
  pointer) access past the end of a vector.
* `LOOM_DEBUG_LEVEL` is a compile-time constant of the build; it is the first
  argument of every function whose behaviour depends on it.
* `rng_t`, `sample_from_likelihoods`, `score_feature` and
  `scores_to_likelihoods` belong to the `distributions` library; they are
  arguments of the functions that call them.
-/

namespace loom

/-- Abnormal ends of a call. -/
inductive Fault
  | abort
  | out_of_range
  deriving DecidableEq

/-- Conversion of a non-negative value to `uint32_t`. -/
def to_uint32 (n : Nat) : Nat := n % 2 ^ 32

/-- Conversion of a non-negative value to `size_t`. -/
def to_size_t (n : Nat) : Nat := n % 2 ^ 64

/-- Unchecked read `xs[i]`. -/
def vec_at {α : Type} (xs : List α) (i : Nat) : Except Fault α :=
  match xs[i]? with
  | some x => .ok x
  | none => .error .out_of_range

/-- Unchecked write `xs[i] = x`. -/
def vec_set {α : Type} (xs : List α) (i : Nat) (x : α) : Except Fault (List α) :=
  if i < xs.length then .ok (xs.set i x) else .error .out_of_range

/-- The loop `for (size_t i = 0; i < n; ++i) body(i)` over a state. -/
def for_loop {σ : Type} : Nat → (Nat → σ → Except Fault σ) → σ → Except Fault σ
  | 0, _, s => .ok s
  | n + 1, body, s => for_loop n body s >>= body n

/-- The loop `for (auto x : xs) body(x)` over a state. -/
def for_each {α σ : Type} : List α → (α → σ → Except Fault σ) → σ → Except Fault σ
  | [], _, s => .ok s
  | x :: xs, body, s => body x s >>= for_each xs body

/-- The macro `LOOM_ASSERT(cond, message)`: abort unless the condition holds.
The comparisons `LOOM_ASSERT_LT`, `LOOM_ASSERT_LE` and `LOOM_ASSERT_EQ` are
`LOOM_ASSERT` of the comparison. -/
def LOOM_ASSERT (cond : Bool) : Except Fault Unit :=
  if cond then .ok () else .error .abort

/-- The macro `LOOM_ASSERT1(cond, message)`: the level-1 member of the
`LOOM_ASSERT` family, compiled in when `LOOM_DEBUG_LEVEL ≥ 1` and absent from
a production build (`LOOM_DEBUG_LEVEL = 0`), in the way `run` compiles in
`validate()` when `LOOM_DEBUG_LEVEL >= 3`. -/
def LOOM_ASSERT1 (LOOM_DEBUG_LEVEL : Nat) (cond : Bool) : Except Fault Unit :=
  if LOOM_DEBUG_LEVEL ≥ 1 then LOOM_ASSERT cond else .ok ()

/-- The macro `LOOM_ASSERT_CLOSE(x, y)`, that is
`LOOM_ASSERT_LT(fabs(x - y) / (x + y + 1e-20), 1e-4)`.  A zero denominator
makes the quotient infinite or NaN, which is not below `1e-4`. -/
def LOOM_ASSERT_CLOSE (x y : ℚ) : Except Fault Unit :=
  LOOM_ASSERT (decide (x + y + 1 / 10 ^ 20 ≠ 0 ∧
    |x - y| / (x + y + 1 / 10 ^ 20) < 1 / 10 ^ 4))

/-- The call `std::unordered_set<uint32_t>::insert`, which converts its argument
to `uint32_t`. The set is a duplicate-free list; its order stands for the
unspecified iteration order. -/
def IdSet.insert (s : List Nat) (k : Nat) : List Nat :=
  if to_uint32 k ∈ s then s else s ++ [to_uint32 k]

/-- The call `std::unordered_set<uint32_t>::erase`. -/
def IdSet.erase (s : List Nat) (k : Nat) : List Nat :=
  s.erase (to_uint32 k)

/-- The test `empty_kinds_.find(k) != empty_kinds_.end()`. -/
def IdSet.contains (s : List Nat) (k : Nat) : Bool :=
  decide (to_uint32 k ∈ s)

/-- The clustering descriptor `distributions::Clustering<int>::PitmanYor`. -/
structure PitmanYor where
  alpha : ℚ
  d : ℚ
  deriving DecidableEq

/-- The data members of `Algorithm8::BlockPitmanYorSampler`. -/
structure BlockPitmanYorSampler where
  alpha_ : ℚ
  d_ : ℚ
  feature_count_ : Nat
  kind_count_ : Nat
  likelihoods_ : List (List ℚ)
  assignments_ : List Nat
  counts_ : List Nat
  empty_kinds_ : List Nat
  empty_kind_count_ : Nat
  prior_ : List ℚ
  posterior_ : List ℚ
  deriving DecidableEq

namespace BlockPitmanYorSampler

/-- Lines 115-125. -/
def get_counts_from_assignments (LOOM_DEBUG_LEVEL : Nat)
    (self : BlockPitmanYorSampler) : Except Fault (List Nat) :=
  for_loop self.feature_count_ (fun f counts => do
    let k ← vec_at self.assignments_ f
    LOOM_ASSERT1 LOOM_DEBUG_LEVEL (decide (k < self.kind_count_))
    let c ← vec_at counts k
    vec_set counts k (to_uint32 (c + 1)))
    (List.replicate self.kind_count_ 0)

/-- Lines 127-137. -/
def get_empty_kinds_from_counts (self : BlockPitmanYorSampler) :
    Except Fault (List Nat) :=
  for_loop self.kind_count_ (fun k empty_kinds => do
    let c ← vec_at self.counts_ k
    if c == 0 then
      pure (IdSet.insert empty_kinds k)
    else
      pure empty_kinds)
    []

/-- Lines 174-182. -/
def get_likelihood_empty (self : BlockPitmanYorSampler) : ℚ :=
  if self.empty_kind_count_ ≠ 0 then
    let nonempty_kind_count : ℚ :=
      (to_size_t (self.kind_count_ + 2 ^ 64 - self.empty_kind_count_) : Nat)
    (self.alpha_ + self.d_ * nonempty_kind_count) / self.empty_kind_count_
  else
    0

/-- Lines 139-152. -/
def get_prior_from_counts (self : BlockPitmanYorSampler) :
    Except Fault (List ℚ) :=
  let likelihood_empty := self.get_likelihood_empty
  for_loop self.kind_count_ (fun k prior => do
    let count ← vec_at self.counts_ k
    if count ≠ 0 then
      vec_set prior k ((count : ℚ) - self.d_)
    else
      vec_set prior k likelihood_empty)
    (List.replicate self.kind_count_ 0)

/-- Lines 154-172. -/
def validate (LOOM_DEBUG_LEVEL : Nat) (self : BlockPitmanYorSampler) :
    Except Fault Unit := do
  let expected_counts ← self.get_counts_from_assignments LOOM_DEBUG_LEVEL
  for_loop self.kind_count_ (fun k _ => do
    let c ← vec_at self.counts_ k
    let e ← vec_at expected_counts k
    LOOM_ASSERT (c == e)) ()
  LOOM_ASSERT (self.empty_kind_count_ == self.empty_kinds_.length)
  for_loop self.kind_count_ (fun k _ => do
    let in_empty_kinds := IdSet.contains self.empty_kinds_ k
    let c ← vec_at self.counts_ k
    let has_zero_count := (c == 0)
    LOOM_ASSERT (in_empty_kinds == has_zero_count)) ()
  let expected_prior ← self.get_prior_from_counts
  for_loop self.kind_count_ (fun k _ => do
    let p ← vec_at self.prior_ k
    let e ← vec_at expected_prior k
    LOOM_ASSERT_CLOSE p e) ()

/-- Lines 184-202: returns `total` and the written `posterior_out`. -/
def compute_posterior (prior_in likelihood_in posterior_out : List ℚ) :
    Except Fault (ℚ × List ℚ) :=
  let size := prior_in.length
  for_loop size (fun i (acc : ℚ × List ℚ) => do
    let p ← vec_at prior_in i
    let l ← vec_at likelihood_in i
    let posterior ← vec_set acc.2 i (p * l)
    pure (acc.1 + p * l, posterior))
    (0, posterior_out)

/-- Lines 220-243: the body of `if (new_k != old_k)` in `run`. -/
def reassign (self : BlockPitmanYorSampler) (f old_k new_k : Nat) :
    Except Fault BlockPitmanYorSampler := do
  let assignments ← vec_set self.assignments_ f (to_uint32 new_k)
  let self := { self with assignments_ := assignments }
  let old_empty_kind_count := self.empty_kind_count_
  let old_likelihood_empty := self.get_likelihood_empty
  let c ← vec_at self.counts_ old_k
  let counts ← vec_set self.counts_ old_k (to_uint32 (c + 2 ^ 32 - 1))
  let self := { self with counts_ := counts }
  let self ←
    if to_uint32 (c + 2 ^ 32 - 1) == 0 then do
      let prior ← vec_set self.prior_ old_k old_likelihood_empty
      pure { self with
        prior_ := prior
        empty_kinds_ := IdSet.insert self.empty_kinds_ old_k
        empty_kind_count_ := to_size_t (self.empty_kind_count_ + 1) }
    else do
      let prior ← vec_set self.prior_ old_k
        ((to_uint32 (c + 2 ^ 32 - 1) : ℚ) - self.d_)
      pure { self with prior_ := prior }
  let c ← vec_at self.counts_ new_k
  let counts ← vec_set self.counts_ new_k (to_uint32 (c + 1))
  let self := { self with counts_ := counts }
  let self :=
    if c == 0 then
      { self with
        empty_kinds_ := IdSet.erase self.empty_kinds_ new_k
        empty_kind_count_ := to_size_t (self.empty_kind_count_ + 2 ^ 64 - 1) }
    else self
  let prior ← vec_set self.prior_ new_k ((to_uint32 (c + 1) : ℚ) - self.d_)
  let self := { self with prior_ := prior }
  let new_empty_kind_count := self.empty_kind_count_
  if new_empty_kind_count ≠ old_empty_kind_count then do
    let likelihood_empty := self.get_likelihood_empty
    let prior ← for_each self.empty_kinds_
      (fun k prior => vec_set prior k likelihood_empty) self.prior_
    pure { self with prior_ := prior }
  else
    pure self

/-- Lines 215-248: the body of the inner loop of `run`, for feature `f`. -/
def run_step {Rng : Type} (LOOM_DEBUG_LEVEL : Nat)
    (sample_from_likelihoods : Rng → List ℚ → ℚ → Nat × Rng) (f : Nat)
    (state : BlockPitmanYorSampler × Rng) :
    Except Fault (BlockPitmanYorSampler × Rng) := do
  let (self, rng) := state
  let likelihood ← vec_at self.likelihoods_ f
  let (total, posterior) ←
    compute_posterior self.prior_ likelihood self.posterior_
  let self := { self with posterior_ := posterior }
  let (new_k, rng) := sample_from_likelihoods rng self.posterior_ total
  let old_k ← vec_at self.assignments_ f
  let self ← if new_k ≠ old_k then self.reassign f old_k new_k else pure self
  if LOOM_DEBUG_LEVEL ≥ 3 then
    self.validate LOOM_DEBUG_LEVEL
  pure (self, rng)

/-- Lines 206-251. -/
def run {Rng : Type} (LOOM_DEBUG_LEVEL : Nat)
    (sample_from_likelihoods : Rng → List ℚ → ℚ → Nat × Rng)
    (self : BlockPitmanYorSampler) (iterations : Nat) (rng : Rng) :
    Except Fault (BlockPitmanYorSampler × Rng) := do
  LOOM_ASSERT (decide (0 < iterations))
  for_loop iterations (fun _ state =>
    for_loop state.1.feature_count_
      (run_step LOOM_DEBUG_LEVEL sample_from_likelihoods) state)
    (self, rng)

end BlockPitmanYorSampler

set_option linter.dupNamespace false in
/-- Lines 88-113: the member initialisers in declaration order, then the
assertions of the constructor body. -/
def BlockPitmanYorSampler.BlockPitmanYorSampler (LOOM_DEBUG_LEVEL : Nat) (clustering : PitmanYor)
    (likelihoods : List (List ℚ)) (assignments : List Nat) :
    Except Fault loom.BlockPitmanYorSampler := do
  let row0 ← vec_at likelihoods 0
  let self : loom.BlockPitmanYorSampler :=
    { alpha_ := clustering.alpha
      d_ := clustering.d
      feature_count_ := likelihoods.length
      kind_count_ := row0.length
      likelihoods_ := likelihoods
      assignments_ := assignments
      counts_ := []
      empty_kinds_ := []
      empty_kind_count_ := 0
      prior_ := []
      posterior_ := [] }
  let counts ← self.get_counts_from_assignments LOOM_DEBUG_LEVEL
  let self := { self with counts_ := counts }
  let empty_kinds ← self.get_empty_kinds_from_counts
  let self := { self with empty_kinds_ := empty_kinds }
  let self := { self with empty_kind_count_ := self.empty_kinds_.length }
  let prior ← self.get_prior_from_counts
  let self := { self with prior_ := prior }
  let self := { self with posterior_ := List.replicate self.kind_count_ 0 }
  LOOM_ASSERT (decide (0 < self.alpha_))
  LOOM_ASSERT (decide (0 ≤ self.d_))
  LOOM_ASSERT (decide (self.d_ < 1))
  LOOM_ASSERT (decide (0 < likelihoods.length))
  LOOM_ASSERT (likelihoods.length == assignments.length)
  for_each likelihoods (fun likelihood _ =>
    LOOM_ASSERT (likelihood.length == self.kind_count_)) ()
  pure self

/-- The collaborators from the `distributions` library and the mixture layer,
over a type `Rng` of generator states and a type `Kind` of kind states. -/
structure External (Rng Kind : Type) where
  /-- The call `rng()`: one draw, and the advanced generator. -/
  rng_draw : Rng → Nat × Rng
  /-- The construction `rng_t rng(seed)`: a generator seeded with `seed`. -/
  rng_seeded : Nat → Rng
  /-- The call `kind.mixture.score_feature(model, featureid, rng)`. -/
  score_feature : Kind → Nat → Rng → ℚ × Rng
  /-- The call `distributions::scores_to_likelihoods(scores)`, as a function. -/
  scores_to_likelihoods : List ℚ → List ℚ
  /-- The call `distributions::sample_from_likelihoods(rng, likelihoods, total)`. -/
  sample_from_likelihoods : Rng → List ℚ → ℚ → Nat × Rng

/-- The members of `Algorithm8` that `infer_assignments` reads:
`model.clustering` and `kinds`. -/
structure Algorithm8 (Kind : Type) where
  clustering : PitmanYor
  kinds : List Kind

namespace Algorithm8

/-- Lines 260-277 of `infer_assignments`: the seed drawn from the caller's rng,
and the likelihood matrix. The iterations of the `omp parallel for` write
disjoint rows; they are taken in ascending order of `featureid`. -/
def infer_assignments_likelihoods {Rng Kind : Type} (ext : External Rng Kind)
    (self : Algorithm8 Kind) (featureid_to_kindid : List Nat) (rng : Rng) :
    Except Fault (List (List ℚ) × Rng) := do
  let (seed, rng) := ext.rng_draw rng
  let feature_count := featureid_to_kindid.length
  let kind_count := self.kinds.length
  let likelihoods : List (List ℚ) :=
    List.replicate feature_count (List.replicate kind_count 0)
  let likelihoods ← for_loop feature_count (fun featureid likelihoods => do
    let rng := ext.rng_seeded (seed + featureid)
    let scores ← vec_at likelihoods featureid
    let (scores, _) ← for_loop feature_count
      (fun kindid (state : List ℚ × Rng) => do
        let kind ← vec_at self.kinds kindid
        let (score, rng) := ext.score_feature kind featureid state.2
        let scores ← vec_set state.1 kindid score
        pure (scores, rng))
      (scores, rng)
    vec_set likelihoods featureid (ext.scores_to_likelihoods scores)) likelihoods
  pure (likelihoods, rng)

/-- Lines 253-285: returns the assignment vector as `run` left it, and the
caller's rng. -/
def infer_assignments {Rng Kind : Type} (LOOM_DEBUG_LEVEL : Nat)
    (ext : External Rng Kind) (self : Algorithm8 Kind)
    (featureid_to_kindid : List Nat) (iterations : Nat) (rng : Rng) :
    Except Fault (List Nat × Rng) := do
  LOOM_ASSERT (decide (0 < iterations))
  let (likelihoods, rng) ←
    infer_assignments_likelihoods ext self featureid_to_kindid rng
  let sampler ← BlockPitmanYorSampler.BlockPitmanYorSampler LOOM_DEBUG_LEVEL
    self.clustering likelihoods featureid_to_kindid
  let (sampler, rng) ← BlockPitmanYorSampler.run LOOM_DEBUG_LEVEL
    ext.sample_from_likelihoods sampler iterations rng
  pure (sampler.assignments_, rng)

end Algorithm8

open BlockPitmanYorSampler

/-! ## Notions used by the theorems -/

/-- The value computed by `get_likelihood_empty`, as a function of the four
members it reads. -/
def likelihood_empty (alpha d : ℚ) (K E : Nat) : ℚ :=
  if E ≠ 0 then (alpha + d * ((to_size_t (K + 2 ^ 64 - E) : Nat) : ℚ)) / E else 0

/-- The prior weight the code gives a kind whose count is `c`. -/
def prior_of_count (s : BlockPitmanYorSampler) (c : Nat) : ℚ :=
  if c ≠ 0 then (c : ℚ) - s.d_ else s.get_likelihood_empty

/-- The consistency of a sampler state: sizes, hyperparameters, and the
derived members `counts_`, `empty_kinds_`, `empty_kind_count_`, `prior_` in
agreement with `assignments_`. -/
structure Inv (s : BlockPitmanYorSampler) : Prop where
  alpha_pos : 0 < s.alpha_
  d_nonneg : 0 ≤ s.d_
  d_lt_one : s.d_ < 1
  feature_count_pos : 0 < s.feature_count_
  feature_count_lt : s.feature_count_ < 2 ^ 32
  kind_count_le : s.kind_count_ ≤ 2 ^ 32
  likelihoods_length : s.likelihoods_.length = s.feature_count_
  row_length : ∀ row ∈ s.likelihoods_, row.length = s.kind_count_
  assignments_length : s.assignments_.length = s.feature_count_
  assignments_lt : ∀ a ∈ s.assignments_, a < s.kind_count_
  counts_length : s.counts_.length = s.kind_count_
  counts_eq : ∀ k, k < s.kind_count_ → s.counts_[k]? = some (s.assignments_.count k)
  empty_nodup : s.empty_kinds_.Nodup
  mem_empty : ∀ k, k ∈ s.empty_kinds_ ↔ k < s.kind_count_ ∧ s.assignments_.count k = 0
  empty_kind_count_eq : s.empty_kind_count_ = s.empty_kinds_.length
  prior_length : s.prior_.length = s.kind_count_
  posterior_length : s.posterior_.length = s.kind_count_
  prior_eq : ∀ k, k < s.kind_count_ →
    s.prior_[k]? = some (prior_of_count s (s.assignments_.count k))

/-- The sampling oracle returns an index into the weight vector it is given. -/
def OracleInRange {Rng : Type} (sample_from_likelihoods : Rng → List ℚ → ℚ → Nat × Rng) :
    Prop :=
  ∀ rng weights total, 0 < weights.length →
    (sample_from_likelihoods rng weights total).1 < weights.length

/-- The fields that no step of `run` writes. -/
def SameProblem (s t : BlockPitmanYorSampler) : Prop :=
  t.alpha_ = s.alpha_ ∧ t.d_ = s.d_ ∧ t.feature_count_ = s.feature_count_ ∧
    t.kind_count_ = s.kind_count_ ∧ t.likelihoods_ = s.likelihoods_

/-- The states `run` passes through: `Reachable lvl sample st0 st` when `st`
is obtained from `st0` by per-feature steps, each for some feature `f < F`. -/
inductive Reachable {Rng : Type} (lvl : Nat) (sample : Rng → List ℚ → ℚ → Nat × Rng) :
    BlockPitmanYorSampler × Rng → BlockPitmanYorSampler × Rng → Prop
  | refl (st : BlockPitmanYorSampler × Rng) : Reachable lvl sample st st
  | step {st0 st st' : BlockPitmanYorSampler × Rng} (f : Nat) :
      Reachable lvl sample st0 st → f < st.1.feature_count_ →
      run_step lvl sample f st = .ok st' → Reachable lvl sample st0 st'

/-- Invariant 2 of the specification: `C[k]` is the number of features `f`
with `A[f] = k`, for every kind `k`. -/
def CountsConsistent (s : BlockPitmanYorSampler) : Prop :=
  s.counts_.length = s.kind_count_ ∧
    ∀ k, k < s.kind_count_ → s.counts_[k]? = some (s.assignments_.count k)

/-- Invariant 3 of the specification: a kind is in `E` exactly when its count
is zero, and the cached `empty_kind_count_` is the cardinality of `E`. -/
def EmptyKindsExact (s : BlockPitmanYorSampler) : Prop :=
  s.empty_kinds_.Nodup ∧ (∀ k, k ∈ s.empty_kinds_ → k < s.kind_count_) ∧
    (∀ k, k < s.kind_count_ → (k ∈ s.empty_kinds_ ↔ s.counts_[k]? = some 0)) ∧
    s.empty_kind_count_ = s.empty_kinds_.toFinset.card

/-- Invariant 5 of the specification: every kind with a zero count has the
prior weight `(alpha + d * (K - |E|)) / |E|`. -/
def EmptyPriorCurrent (s : BlockPitmanYorSampler) : Prop :=
  ∀ k, k < s.kind_count_ → s.counts_[k]? = some 0 →
    s.prior_[k]? = some
      ((s.alpha_ + s.d_ * ((s.kind_count_ : ℚ) - (s.empty_kinds_.toFinset.card : ℚ))) /
        (s.empty_kinds_.toFinset.card : ℚ))

/-- Invariant 4 of the specification: every kind with a positive count `c` has
the prior weight `c - d`. -/
def OccupiedPriorCurrent (s : BlockPitmanYorSampler) : Prop :=
  ∀ k, k < s.kind_count_ → ∀ c, s.counts_[k]? = some c → 0 < c →
    s.prior_[k]? = some ((c : ℚ) - s.d_)

/-- The range invariant of the assignment vector: length `F`, entries below
`K`. -/
def AssignmentsInRange (s : BlockPitmanYorSampler) : Prop :=
  s.assignments_.length = s.feature_count_ ∧ ∀ a ∈ s.assignments_, a < s.kind_count_

/-! ## A worked example

Two features, three kinds, `alpha = 1`, `d = 1/2`; feature 0 moves from kind 0
(which it leaves empty) to the empty kind 2. -/

/-- A sampling oracle for the examples: the rng is a counter, and the index
drawn is the counter modulo the number of weights. -/
def example_oracle (rng : Nat) (weights : List ℚ) (_total : ℚ) : Nat × Nat :=
  (rng % weights.length, rng + 1)

/-- The likelihood matrix of the example. -/
def example_likelihoods : List (List ℚ) := [[1, 1, 1], [1, 1, 1]]

/-- The sampler constructed from `example_likelihoods` and `[0, 1]`. -/
def example_initial : BlockPitmanYorSampler :=
  ⟨1, 1 / 2, 2, 3, example_likelihoods, [0, 1], [1, 1, 0], [2], 1, [1 / 2, 1 / 2, 2],
    [0, 0, 0]⟩

/-- The state after the step for feature 0 drew kind 2. -/
def example_moved : BlockPitmanYorSampler :=
  ⟨1, 1 / 2, 2, 3, example_likelihoods, [2, 1], [0, 1, 1], [0], 1, [2, 1 / 2, 1 / 2],
    [1 / 2, 1 / 2, 2]⟩

/-! ## Feature types (`src/models.hpp`) -/

/-- The five feature-type tags `DD16`, `DD256`, `DPD`, `GP`, `NICH`; a tag
stands for the typed null pointer `T::null()` that selects the overload of the
callback. -/
inductive FeatureType
  | DD16
  | DD256
  | DPD
  | GP
  | NICH
  deriving DecidableEq

/-- Lines 96-104 of `models.hpp`. The callback is passed by reference; `σ` is
its state, and each call returns the state it leaves. -/
def for_each_feature_type {σ : Type} (fn : FeatureType → σ → σ) (s : σ) : σ :=
  let s := fn .DD16 s
  let s := fn .DD256 s
  let s := fn .DPD s
  let s := fn .GP s
  fn .NICH s

/-- Lines 106-114 of `models.hpp`; `or` evaluates its right operand only when
the left one is false. -/
def for_some_feature_type {σ : Type} (fn : FeatureType → σ → Bool × σ) (s : σ) :
    Bool × σ :=
  let r := fn .DD16 s
  if r.1 then (true, r.2) else
  let r := fn .DD256 r.2
  if r.1 then (true, r.2) else
  let r := fn .DPD r.2
  if r.1 then (true, r.2) else
  let r := fn .GP r.2
  if r.1 then (true, r.2) else
  fn .NICH r.2

/-- The fixed order of the feature-type registry. -/
def feature_type_order : List FeatureType := [.DD16, .DD256, .DPD, .GP, .NICH]

/-- Ordered iteration over a list of tags, in the words of the specification:
the callback is invoked once per tag, in the order of the list. -/
def visit_each {σ : Type} (tags : List FeatureType) (fn : FeatureType → σ → σ) (s : σ) : σ :=
  tags.foldl (fun s t => fn t s) s

/-- Short-circuit search over a list of tags, in the words of the
specification: the tags are tried in order until the callback returns true, and
no tag after that one is tried. -/
def search_some {σ : Type} : List FeatureType → (FeatureType → σ → Bool × σ) → σ → Bool × σ
  | [], _, s => (false, s)
  | t :: ts, fn, s => if (fn t s).1 then (true, (fn t s).2) else search_some ts fn (fn t s).2

/-! ## A state with a zero posterior total -/

/-- A consistent sampler whose only likelihood row is zero: one feature, two
kinds, `alpha = 1`, `d = 1/2`, feature 0 in kind 0. -/
def example_zero_row : BlockPitmanYorSampler :=
  ⟨1, 1 / 2, 1, 2, [[0, 0]], [0], [1, 0], [1], 1, [1 / 2, 3 / 2], [0, 0]⟩

/-- The state after the step for feature 0 of `example_zero_row` drew kind 1
on the total `0`. -/
def example_zero_row_moved : BlockPitmanYorSampler :=
  ⟨1, 1 / 2, 1, 2, [[0, 0]], [1], [0, 1], [0], 1, [3 / 2, 1 / 2], [0, 0]⟩

/-- The positivity of the prior, with the bounds of the two cases: every kind
has a positive prior weight, at least `1 - d` when the kind is occupied and at
least `alpha / |E|` when it is empty. -/
def PriorPositive (s : BlockPitmanYorSampler) : Prop :=
  ∀ k, k < s.kind_count_ → ∃ c p, s.counts_[k]? = some c ∧ s.prior_[k]? = some p ∧ 0 < p ∧
    (0 < c → 1 - s.d_ ≤ p ∧ 0 < 1 - s.d_) ∧
    (c = 0 → 0 < s.empty_kinds_.toFinset.card ∧
      s.alpha_ / (s.empty_kinds_.toFinset.card : ℚ) ≤ p ∧
      0 < s.alpha_ / (s.empty_kinds_.toFinset.card : ℚ))

/-- The posterior total is positive for every likelihood row of length `K`
with non-negative entries, one of them positive. -/
def TotalPositive (s : BlockPitmanYorSampler) : Prop :=
  ∀ row : List ℚ, row.length = s.kind_count_ → (∀ x ∈ row, 0 ≤ x) → (∃ x ∈ row, 0 < x) →
    ∃ total post, BlockPitmanYorSampler.compute_posterior s.prior_ row s.posterior_ =
      .ok (total, post) ∧ 0 < total

/-- The counters are safe for a move of feature `f` out of its kind `old`: the
count of `old` is at least 1 (its decrement does not pass below zero); for
every other kind `new` the count plus one is below `2 ^ 32` (its increment
does not wrap), and if that count is zero then `empty_kind_count_` is at
least 1 (its decrement does not pass below zero); and the number of empty
kinds, which `empty_kind_count_` caches, is at most `K - 1`. -/
def CountersSafe (s : BlockPitmanYorSampler) (f : Nat) : Prop :=
  (∃ old c, s.assignments_[f]? = some old ∧ s.counts_[old]? = some c ∧ 1 ≤ c ∧
    to_uint32 (c + 2 ^ 32 - 1) = c - 1 ∧
    ∀ new, new < s.kind_count_ → new ≠ old →
      ∃ c', s.counts_[new]? = some c' ∧ c' + 1 < 2 ^ 32 ∧
        (c' = 0 → 1 ≤ s.empty_kind_count_)) ∧
  s.empty_kind_count_ = s.empty_kinds_.toFinset.card ∧
  s.empty_kinds_.toFinset.card + 1 ≤ s.kind_count_

/-- The frame of a move of feature `f` from kind `old` to kind `new` between
the states `s` and `t`: the other assignments, the other counts, and the prior
weights of the other occupied kinds are unchanged; the count of `old` has
decreased by exactly 1 and the count of `new` has increased by exactly 1. -/
def MoveFrame (s t : BlockPitmanYorSampler) (f old new : Nat) : Prop :=
  (∀ g, g ≠ f → t.assignments_[g]? = s.assignments_[g]?) ∧
  (∃ c, s.counts_[old]? = some c ∧ 1 ≤ c ∧ t.counts_[old]? = some (c - 1)) ∧
  (∃ c, s.counts_[new]? = some c ∧ t.counts_[new]? = some (c + 1)) ∧
  (∀ k, k ≠ old → k ≠ new → t.counts_[k]? = s.counts_[k]?) ∧
  ∀ k, k ≠ old → k ≠ new → ∀ c, s.counts_[k]? = some c → 0 < c →
    t.prior_[k]? = s.prior_[k]?

/-- The prior as the constructor derives it from the counts: `C[k] - d` for an
occupied kind and `likelihood_empty` for an empty one, where `likelihood_empty`
is `(alpha + d * (K - |E|)) / |E|` if `|E| > 0` and `0` if `|E| = 0`; and this
is the value `get_likelihood_empty` returns. -/
def PriorFromCounts (s : BlockPitmanYorSampler) : Prop :=
  s.get_likelihood_empty =
    (if 0 < s.empty_kinds_.toFinset.card then
      (s.alpha_ + s.d_ * ((s.kind_count_ : ℚ) - (s.empty_kinds_.toFinset.card : ℚ))) /
        (s.empty_kinds_.toFinset.card : ℚ)
    else 0) ∧
  ∀ k, k < s.kind_count_ → ∀ c, s.counts_[k]? = some c →
    s.prior_[k]? = some (if 0 < c then (c : ℚ) - s.d_ else s.get_likelihood_empty)

/-! ## Scenario S4 of the specification -/

/-- A likelihood matrix for scenario S4: three features, three kinds. -/
def scenario_s4_likelihoods : List (List ℚ) := [[1, 1, 1], [1, 1, 1], [1, 1, 1]]

/-- The sampler constructed for scenario S4 from `A = [0, 1, 2]`, `alpha = 1`,
`d = 0`. -/
def scenario_s4_initial : BlockPitmanYorSampler :=
  ⟨1, 0, 3, 3, scenario_s4_likelihoods, [0, 1, 2], [1, 1, 1], [], 0, [1, 1, 1], [0, 0, 0]⟩

/-- The state of scenario S4 after the first step moved feature 0 from kind 0
to kind 1. -/
def scenario_s4_moved : BlockPitmanYorSampler :=
  ⟨1, 0, 3, 3, scenario_s4_likelihoods, [1, 1, 2], [0, 2, 1], [0], 1, [1, 2, 1], [1, 1, 1]⟩

/-- The visiting order of `iterations` sweeps over `F` features, in the words
of the specification: each sweep visits the features `0, 1, ..., F - 1` once,
in ascending order. -/
def sweep_schedule : Nat → Nat → List Nat
  | 0, _ => []
  | iterations + 1, F => sweep_schedule iterations F ++ List.range F

/-! ## Rounding to binary32

The functions that compute `float` values, once more, with the result of
every `float` operation rounded. -/

/-- Round a rational to the nearest integer, a tie to the even one. -/
def round_half_even (q : ℚ) : ℤ :=
  if q - ⌊q⌋ < 1 / 2 then ⌊q⌋
  else if 1 / 2 < q - ⌊q⌋ then ⌊q⌋ + 1
  else if ⌊q⌋ % 2 = 0 then ⌊q⌋
  else ⌊q⌋ + 1

/-- The spacing of the binary32 values around `x`: `2 ^ (e - 23)` when
`2 ^ e ≤ |x| < 2 ^ (e + 1)`, and `2 ^ (-149)` in the subnormal range
`|x| < 2 ^ (-126)`. -/
def binary32_spacing (x : ℚ) : ℚ :=
  if |x| < 2 ^ (-126 : ℤ) then 2 ^ (-149 : ℤ) else 2 ^ (Int.log 2 |x| - 23)

/-- The binary32 value nearest to `x`, a tie going to the even significand
(the default rounding of IEEE 754). Finite results only: a result of magnitude
`2 ^ 128` or more, which the hardware turns into an infinity, is not
represented. -/
def round_binary32 (x : ℚ) : ℚ :=
  round_half_even (x / binary32_spacing x) * binary32_spacing x

/-- Lines 174-182, every `float` operation rounded by `fl`: the conversions of
the two `size_t` values to `float`, the product, the sum and the quotient. -/
def BlockPitmanYorSampler.get_likelihood_empty_rounded (fl : ℚ → ℚ)
    (self : loom.BlockPitmanYorSampler) : ℚ :=
  if self.empty_kind_count_ ≠ 0 then
    let nonempty_kind_count : ℚ :=
      fl (to_size_t (self.kind_count_ + 2 ^ 64 - self.empty_kind_count_) : Nat)
    fl (fl (self.alpha_ + fl (self.d_ * nonempty_kind_count)) / fl self.empty_kind_count_)
  else
    0

/-- Lines 139-152, every `float` operation rounded by `fl`: the conversion of
the count to `float` and the difference. -/
def BlockPitmanYorSampler.get_prior_from_counts_rounded (fl : ℚ → ℚ)
    (self : loom.BlockPitmanYorSampler) : Except Fault (List ℚ) :=
  let likelihood_empty := self.get_likelihood_empty_rounded fl
  for_loop self.kind_count_ (fun k prior => do
    let count ← vec_at self.counts_ k
    if count ≠ 0 then
      vec_set prior k (fl (fl (count : ℚ) - self.d_))
    else
      vec_set prior k likelihood_empty)
    (List.replicate self.kind_count_ 0)

/-- Lines 184-202, every `float` operation rounded by `fl`: the product stored
in `posterior[i]` and the accumulation into `total`. -/
def BlockPitmanYorSampler.compute_posterior_rounded (fl : ℚ → ℚ)
    (prior_in likelihood_in posterior_out : List ℚ) : Except Fault (ℚ × List ℚ) :=
  let size := prior_in.length
  for_loop size (fun i (acc : ℚ × List ℚ) => do
    let p ← vec_at prior_in i
    let l ← vec_at likelihood_in i
    let posterior ← vec_set acc.2 i (fl (p * l))
    pure (fl (acc.1 + fl (p * l)), posterior))
    (0, posterior_out)

/-- Lines 88-113, the `float` members rounded by `fl`: the initialisers of
`alpha_` and `d_` convert to `float`, and `prior_` is computed by the rounded
`get_prior_from_counts`. -/
def BlockPitmanYorSampler.BlockPitmanYorSampler_rounded (fl : ℚ → ℚ) (LOOM_DEBUG_LEVEL : Nat)
    (clustering : PitmanYor) (likelihoods : List (List ℚ)) (assignments : List Nat) :
    Except Fault loom.BlockPitmanYorSampler := do
  let row0 ← vec_at likelihoods 0
  let self : loom.BlockPitmanYorSampler :=
    { alpha_ := fl clustering.alpha
      d_ := fl clustering.d
      feature_count_ := likelihoods.length
      kind_count_ := row0.length
      likelihoods_ := likelihoods
      assignments_ := assignments
      counts_ := []
      empty_kinds_ := []
      empty_kind_count_ := 0
      prior_ := []
      posterior_ := [] }
  let counts ← self.get_counts_from_assignments LOOM_DEBUG_LEVEL
  let self := { self with counts_ := counts }
  let empty_kinds ← self.get_empty_kinds_from_counts
  let self := { self with empty_kinds_ := empty_kinds }
  let self := { self with empty_kind_count_ := self.empty_kinds_.length }
  let prior ← self.get_prior_from_counts_rounded fl
  let self := { self with prior_ := prior }
  let self := { self with posterior_ := List.replicate self.kind_count_ 0 }
  LOOM_ASSERT (decide (0 < self.alpha_))
  LOOM_ASSERT (decide (0 ≤ self.d_))
  LOOM_ASSERT (decide (self.d_ < 1))
  LOOM_ASSERT (decide (0 < likelihoods.length))
  LOOM_ASSERT (likelihoods.length == assignments.length)
  for_each likelihoods (fun likelihood _ =>
    LOOM_ASSERT (likelihood.length == self.kind_count_)) ()
  pure self

/-- The least positive binary32 value, `2 ^ (-149)`. -/
def binary32_least : ℚ := 2 ^ (-149 : ℤ)

/-- The binary32 sampler constructed from `alpha = 2 ^ (-149)`, `d = 0`, one
feature in kind 0 of three kinds: the two empty kinds have prior weight 0. -/
def example_underflow : BlockPitmanYorSampler :=
  ⟨binary32_least, 0, 1, 3, [[1, 1, 1]], [0], [1, 0, 0], [1, 2], 2, [1, 0, 0], [0, 0, 0]⟩

/-- The binary32 sampler constructed from `alpha = 1`, `d = 1/2`, one feature
and one kind; the likelihood row of the feature is `[2 ^ (-149)]`. -/
def example_tiny_row : BlockPitmanYorSampler :=
  ⟨1, 1 / 2, 1, 1, [[binary32_least]], [0], [1], [], 0, [1 / 2], [0]⟩

/-! ## Basic facts about the access helpers and the loops -/

theorem vec_at_eq_ok {α : Type} {xs : List α} {i : Nat} {x : α} :
    vec_at xs i = .ok x ↔ xs[i]? = some x := by
  unfold vec_at
  cases h : xs[i]? <;> simp

theorem vec_at_of_getElem? {α : Type} {xs : List α} {i : Nat} {x : α}
    (h : xs[i]? = some x) : vec_at xs i = .ok x := vec_at_eq_ok.2 h

theorem vec_at_eq_error {α : Type} {xs : List α} {i : Nat} (h : xs.length ≤ i) :
    vec_at xs i = .error .out_of_range := by
  unfold vec_at
  rw [List.getElem?_eq_none h]

theorem vec_set_of_lt {α : Type} {xs : List α} {i : Nat} (x : α)
    (h : i < xs.length) : vec_set xs i x = .ok (xs.set i x) := by
  simp [vec_set, h]

theorem vec_set_eq_ok {α : Type} {xs ys : List α} {i : Nat} {x : α} :
    vec_set xs i x = .ok ys ↔ i < xs.length ∧ ys = xs.set i x := by
  unfold vec_set
  by_cases h : i < xs.length <;> simp [h, eq_comm]

theorem bind_eq_ok {α β : Type} {x : Except Fault α} {g : α → Except Fault β}
    {b : β} : (x >>= g) = .ok b ↔ ∃ a, x = .ok a ∧ g a = .ok b := by
  cases x <;> simp [bind, Except.bind]

theorem LOOM_ASSERT_eq_ok {c : Bool} : LOOM_ASSERT c = .ok () ↔ c = true := by
  cases c <;> simp [LOOM_ASSERT]

theorem LOOM_ASSERT_false : LOOM_ASSERT false = .error .abort := rfl

theorem LOOM_ASSERT_true : LOOM_ASSERT true = .ok () := rfl

/-- Invariant rule for `for_loop`: every iteration returns and re-establishes
the invariant, so the loop returns in a state satisfying it. -/
theorem for_loop_inv {σ : Type} (P : Nat → σ → Prop) (n : Nat)
    (body : Nat → σ → Except Fault σ) (init : σ) (h0 : P 0 init)
    (hstep : ∀ i, i < n → ∀ s, P i s → ∃ t, body i s = .ok t ∧ P (i + 1) t) :
    ∃ t, for_loop n body init = .ok t ∧ P n t := by
  induction n with
  | zero => exact ⟨init, rfl, h0⟩
  | succ n ih =>
    obtain ⟨t, ht, hP⟩ := ih (fun i hi s hs => hstep i (Nat.lt_succ_of_lt hi) s hs)
    obtain ⟨u, hu, hQ⟩ := hstep n (Nat.lt_succ_self n) t hP
    exact ⟨u, by simp [for_loop, ht, bind, Except.bind, hu], hQ⟩

/-- Partial-correctness rule for `for_loop`: whatever the loop returns
satisfies an invariant kept by every returning iteration. -/
theorem for_loop_ok {σ : Type} (P : Nat → σ → Prop) (n : Nat)
    (body : Nat → σ → Except Fault σ) (init : σ) (h0 : P 0 init)
    (hstep : ∀ i, i < n → ∀ s t, P i s → body i s = .ok t → P (i + 1) t)
    {t : σ} (h : for_loop n body init = .ok t) : P n t := by
  induction n generalizing t with
  | zero =>
    simp [for_loop] at h
    exact h ▸ h0
  | succ n ih =>
    rw [for_loop, bind_eq_ok] at h
    obtain ⟨u, hu, hb⟩ := h
    exact hstep n (Nat.lt_succ_self n) u t
      (ih (fun i hi s t' hs => hstep i (Nat.lt_succ_of_lt hi) s t' hs) hu) hb

/-- A loop that meets a failing iteration fails. -/
theorem for_loop_error {σ : Type} (P : Nat → σ → Prop) (n : Nat)
    (body : Nat → σ → Except Fault σ) (init : σ) (h0 : P 0 init)
    (hstep : ∀ i, i < n → ∀ s t, P i s → body i s = .ok t → P (i + 1) t)
    (j : Nat) (hj : j < n) (hfail : ∀ s t, P j s → body j s ≠ .ok t) (t : σ) :
    for_loop n body init ≠ .ok t := by
  induction n generalizing t with
  | zero => omega
  | succ n ih =>
    intro h
    rw [for_loop, bind_eq_ok] at h
    obtain ⟨u, hu, hb⟩ := h
    by_cases hjn : j < n
    · exact ih (fun i hi s t' hs => hstep i (Nat.lt_succ_of_lt hi) s t' hs) hjn u hu
    · have : j = n := by omega
      subst this
      exact hfail u t
        (for_loop_ok P j body init h0
          (fun i hi s t' hs => hstep i (Nat.lt_succ_of_lt hi) s t' hs) hu) hb

theorem for_each_inv {α σ : Type} (P : σ → Prop) (xs : List α)
    (body : α → σ → Except Fault σ) (init : σ) (h0 : P init)
    (hstep : ∀ x ∈ xs, ∀ s, P s → ∃ t, body x s = .ok t ∧ P t) :
    ∃ t, for_each xs body init = .ok t ∧ P t := by
  induction xs generalizing init with
  | nil => exact ⟨init, rfl, h0⟩
  | cons x xs ih =>
    obtain ⟨u, hu, hP⟩ := hstep x (List.mem_cons_self x xs) init h0
    obtain ⟨t, ht, hQ⟩ := ih u hP (fun y hy s hs => hstep y (List.mem_cons_of_mem x hy) s hs)
    exact ⟨t, by simp [for_each, hu, bind, Except.bind, ht], hQ⟩

/-! ## `get_counts_from_assignments` -/

theorem to_uint32_of_lt {n : Nat} (h : n < 2 ^ 32) : to_uint32 n = n :=
  Nat.mod_eq_of_lt h

theorem to_size_t_of_lt {n : Nat} (h : n < 2 ^ 64) : to_size_t n = n :=
  Nat.mod_eq_of_lt h

theorem to_uint32_succ (n : Nat) : to_uint32 (to_uint32 n + 1) = to_uint32 (n + 1) := by
  unfold to_uint32
  omega

theorem take_succ_of_getElem? {α : Type} {xs : List α} {i : Nat} {a : α}
    (h : xs[i]? = some a) : xs.take (i + 1) = xs.take i ++ [a] := by
  rw [List.take_succ, h]
  rfl

/-- With every scanned entry in range, the counting loop returns the occupancy
counts of the scanned prefix, reduced modulo `2 ^ 32`. -/
theorem get_counts_from_assignments_valid (lvl : Nat) (s : BlockPitmanYorSampler)
    (hF : s.feature_count_ ≤ s.assignments_.length)
    (hA : ∀ f, f < s.feature_count_ → ∀ a, s.assignments_[f]? = some a → a < s.kind_count_) :
    ∃ cs : List Nat, s.get_counts_from_assignments lvl = .ok cs ∧ cs.length = s.kind_count_ ∧
      ∀ k, k < s.kind_count_ →
        cs[k]? = some (to_uint32 ((s.assignments_.take s.feature_count_).count k)) := by
  unfold get_counts_from_assignments
  refine for_loop_inv (fun i (cs : List Nat) => cs.length = s.kind_count_ ∧
      ∀ k, k < s.kind_count_ → cs[k]? = some (to_uint32 ((s.assignments_.take i).count k)))
    _ _ _ ?_ ?_
  · refine ⟨by simp, fun k hk => ?_⟩
    simp [hk, to_uint32]
  · rintro i hi c ⟨hlen, hc⟩
    have hi' : i < s.assignments_.length := by omega
    have ha : s.assignments_[i]? = some s.assignments_[i] := List.getElem?_eq_getElem hi'
    have hak := hA i hi _ ha
    refine ⟨c.set s.assignments_[i] (to_uint32 (to_uint32 ((s.assignments_.take i).count s.assignments_[i]) + 1)), ?_, ?_, ?_⟩
    · simp [vec_at_of_getElem? ha, LOOM_ASSERT1, LOOM_ASSERT, hak,
        vec_at_of_getElem? (hc _ hak), vec_set, hlen, bind, Except.bind]
    · simpa using hlen
    · intro k hk
      rw [take_succ_of_getElem? ha, List.count_append, List.getElem?_set, to_uint32_succ]
      by_cases hka : s.assignments_[i] = k
      · subst hka
        simp [hlen, hak]
      · simp [hka, hc k hk, List.count_singleton]

/-- Whatever the counting loop returns, every scanned entry existed and was in
range (an entry `≥ K` makes `++counts[k]` an out-of-range access). -/
theorem get_counts_from_assignments_ok (lvl : Nat) (s : BlockPitmanYorSampler)
    {c : List Nat} (h : s.get_counts_from_assignments lvl = .ok c) :
    ∀ f, f < s.feature_count_ → ∃ a, s.assignments_[f]? = some a ∧ a < s.kind_count_ := by
  unfold get_counts_from_assignments at h
  have := for_loop_ok (fun i (c : List Nat) => c.length = s.kind_count_ ∧
      ∀ f, f < i → ∃ a, s.assignments_[f]? = some a ∧ a < s.kind_count_)
    _ _ _ (by simp) ?_ h
  · exact this.2
  · rintro i _ c t ⟨hlen, hP⟩ hb
    simp only [bind_eq_ok, bind, Except.bind] at hb
    cases ha : vec_at s.assignments_ i with
    | error e => simp [ha] at hb
    | ok a =>
      simp only [ha] at hb
      cases hl : LOOM_ASSERT1 lvl (decide (a < s.kind_count_)) with
      | error e => simp [hl] at hb
      | ok u =>
        simp only [hl] at hb
        cases hc : vec_at c a with
        | error e => simp [hc] at hb
        | ok x =>
          simp only [hc] at hb
          rw [vec_set_eq_ok] at hb
          refine ⟨by rw [hb.2]; simpa using hlen, fun f hf => ?_⟩
          by_cases hfi : f < i
          · exact hP f hfi
          · have : f = i := by omega
            subst this
            exact ⟨a, vec_at_eq_ok.1 ha, by rw [← hlen]; exact hb.1⟩

/-! ## The other derived members -/

theorem IdSet.insert_nodup {E : List Nat} (h : E.Nodup) (k : Nat) :
    (IdSet.insert E k).Nodup := by
  unfold IdSet.insert
  split_ifs with hk
  · exact h
  · exact List.Nodup.append h (List.nodup_singleton _) (by simpa using hk)

theorem IdSet.mem_insert {E : List Nat} {k j : Nat} :
    j ∈ IdSet.insert E k ↔ j ∈ E ∨ j = to_uint32 k := by
  unfold IdSet.insert
  split_ifs with hk
  · constructor
    · exact Or.inl
    · rintro (h | h)
      · exact h
      · exact h ▸ hk
  · simp

/-- The scan for empty kinds returns whenever the counts vector is long enough;
the set it returns is exactly the set of kinds with a zero count when kind ids
fit in `uint32_t`. -/
theorem get_empty_kinds_from_counts_spec (s : BlockPitmanYorSampler)
    (hlen : s.kind_count_ ≤ s.counts_.length) :
    ∃ E : List Nat, s.get_empty_kinds_from_counts = .ok E ∧ E.Nodup ∧
      (s.kind_count_ ≤ 2 ^ 32 →
        ∀ k, k ∈ E ↔ k < s.kind_count_ ∧ s.counts_[k]? = some 0) := by
  unfold get_empty_kinds_from_counts
  refine for_loop_inv (fun i (E : List Nat) => E.Nodup ∧
      (s.kind_count_ ≤ 2 ^ 32 → ∀ k, k ∈ E ↔ k < i ∧ s.counts_[k]? = some 0))
    _ _ _ ?_ ?_
  · simp
  · rintro i hi E ⟨hnd, hE⟩
    have hi' : i < s.counts_.length := by omega
    have hc : s.counts_[i]? = some s.counts_[i] := List.getElem?_eq_getElem hi'
    by_cases h0 : s.counts_[i] = 0
    · refine ⟨IdSet.insert E i, ?_, IdSet.insert_nodup hnd i, fun hK k => ?_⟩
      · simp [vec_at_of_getElem? hc, h0, bind, Except.bind, pure, Except.pure]
      · have hik : to_uint32 i = i := to_uint32_of_lt (by omega)
        rw [IdSet.mem_insert, hE hK k, hik]
        constructor
        · rintro (⟨h1, h2⟩ | rfl)
          · exact ⟨by omega, h2⟩
          · exact ⟨by omega, by rw [hc, h0]⟩
        · rintro ⟨h1, h2⟩
          by_cases hki : k = i
          · exact Or.inr hki
          · exact Or.inl ⟨by omega, h2⟩
    · refine ⟨E, ?_, hnd, fun hK k => ?_⟩
      · simp [vec_at_of_getElem? hc, h0, bind, Except.bind, pure, Except.pure]
      · rw [hE hK k]
        constructor
        · rintro ⟨h1, h2⟩
          exact ⟨by omega, h2⟩
        · rintro ⟨h1, h2⟩
          refine ⟨?_, h2⟩
          by_contra hki
          have : k = i := by omega
          subst this
          rw [hc] at h2
          exact h0 (by simpa using h2)

theorem get_prior_from_counts_spec (s : BlockPitmanYorSampler)
    (hlen : s.kind_count_ ≤ s.counts_.length) :
    ∃ p : List ℚ, s.get_prior_from_counts = .ok p ∧ p.length = s.kind_count_ ∧
      ∀ k, k < s.kind_count_ → ∀ c, s.counts_[k]? = some c →
        p[k]? = some (prior_of_count s c) := by
  unfold get_prior_from_counts
  refine for_loop_inv (fun i (p : List ℚ) => p.length = s.kind_count_ ∧
      ∀ k, k < i → ∀ c, s.counts_[k]? = some c → p[k]? = some (prior_of_count s c))
    _ _ _ ?_ ?_
  · simp
  · rintro i hi p ⟨hpl, hp⟩
    have hi' : i < s.counts_.length := by omega
    have hc : s.counts_[i]? = some s.counts_[i] := List.getElem?_eq_getElem hi'
    refine ⟨p.set i (prior_of_count s s.counts_[i]), ?_, by simpa using hpl, ?_⟩
    · by_cases h0 : s.counts_[i] = 0 <;>
        simp [vec_at_of_getElem? hc, h0, bind, Except.bind, vec_set, hpl, hi, prior_of_count]
    · intro k hk c hkc
      rw [List.getElem?_set]
      by_cases hki : i = k
      · subst hki
        rw [hc] at hkc
        simp only [Option.some.injEq] at hkc
        simp [hpl, hi, hkc]
      · simp only [hki, if_false]
        exact hp k (by omega) c hkc

theorem for_each_assert {α : Type} (xs : List α) (p : α → Bool) :
    for_each xs (fun x _ => LOOM_ASSERT (p x)) () = .ok () ↔ ∀ x ∈ xs, p x = true := by
  induction xs with
  | nil => simp [for_each]
  | cons x xs ih =>
    rw [for_each, bind_eq_ok]
    constructor
    · rintro ⟨u, hu, h⟩
      rw [LOOM_ASSERT_eq_ok] at hu
      simpa [hu] using ih.1 h
    · intro h
      exact ⟨(), LOOM_ASSERT_eq_ok.2 (h x (List.mem_cons_self x xs)),
        ih.2 (fun y hy => h y (List.mem_cons_of_mem x hy))⟩

/-- What a returning constructor has checked and computed. -/
theorem constructor_ok {lvl : Nat} {cl : PitmanYor} {L : List (List ℚ)} {A : List Nat}
    {s : BlockPitmanYorSampler}
    (h : BlockPitmanYorSampler.BlockPitmanYorSampler lvl cl L A = .ok s) :
    ∃ row0, L[0]? = some row0 ∧
      (s.alpha_ = cl.alpha ∧ s.d_ = cl.d ∧ s.feature_count_ = L.length ∧
        s.kind_count_ = row0.length ∧ s.likelihoods_ = L ∧ s.assignments_ = A ∧
        s.posterior_ = List.replicate row0.length 0 ∧
        s.empty_kind_count_ = s.empty_kinds_.length) ∧
      (0 < cl.alpha ∧ 0 ≤ cl.d ∧ cl.d < 1 ∧ 0 < L.length ∧ L.length = A.length ∧
        ∀ row ∈ L, row.length = row0.length) ∧
      s.get_counts_from_assignments lvl = .ok s.counts_ ∧
      s.get_empty_kinds_from_counts = .ok s.empty_kinds_ ∧
      s.get_prior_from_counts = .ok s.prior_ := by
  unfold BlockPitmanYorSampler.BlockPitmanYorSampler at h
  simp only [bind_eq_ok, pure, Except.pure, Except.ok.injEq, Unique.exists_iff, default,
    LOOM_ASSERT_eq_ok, decide_eq_true_eq, beq_iff_eq] at h
  obtain ⟨row0, hr, counts, hcounts, E, hE, prior, hprior, h1, h2, h3, h4, h5, h6, rfl⟩ := h
  refine ⟨row0, vec_at_eq_ok.1 hr, ⟨rfl, rfl, rfl, rfl, rfl, rfl, rfl, rfl⟩,
    ⟨h1, h2, h3, h4, h5, ?_⟩, hcounts, hE, hprior⟩
  have := (for_each_assert L (fun l => l.length == row0.length)).1 h6
  simpa using this

/-- Valid arguments make the constructor return. -/
theorem constructor_valid (lvl : Nat) (cl : PitmanYor) (L : List (List ℚ)) (A : List Nat)
    (row0 : List ℚ) (hrow0 : L[0]? = some row0)
    (halpha : 0 < cl.alpha) (hd0 : 0 ≤ cl.d) (hd1 : cl.d < 1)
    (hlen : L.length = A.length) (hrows : ∀ row ∈ L, row.length = row0.length)
    (hA : ∀ a ∈ A, a < row0.length) :
    ∃ s, BlockPitmanYorSampler.BlockPitmanYorSampler lvl cl L A = .ok s := by
  have hL : 0 < L.length := by
    rcases L with _ | ⟨r, L⟩
    · simp at hrow0
    · simp
  obtain ⟨counts, hcounts, hcl, -⟩ := get_counts_from_assignments_valid lvl
    { alpha_ := cl.alpha, d_ := cl.d, feature_count_ := L.length, kind_count_ := row0.length,
      likelihoods_ := L, assignments_ := A, counts_ := [], empty_kinds_ := [],
      empty_kind_count_ := 0, prior_ := [], posterior_ := [] }
    (by simp [hlen]) (fun f _ a ha => hA a (List.getElem?_mem ha))
  obtain ⟨E, hE, -⟩ := get_empty_kinds_from_counts_spec
    { alpha_ := cl.alpha, d_ := cl.d, feature_count_ := L.length, kind_count_ := row0.length,
      likelihoods_ := L, assignments_ := A, counts_ := counts, empty_kinds_ := [],
      empty_kind_count_ := 0, prior_ := [], posterior_ := [] }
    (by simp [hcl])
  obtain ⟨prior, hprior, -⟩ := get_prior_from_counts_spec
    { alpha_ := cl.alpha, d_ := cl.d, feature_count_ := L.length, kind_count_ := row0.length,
      likelihoods_ := L, assignments_ := A, counts_ := counts, empty_kinds_ := E,
      empty_kind_count_ := E.length, prior_ := [], posterior_ := [] }
    (by simp [hcl])
  refine ⟨
    { alpha_ := cl.alpha, d_ := cl.d, feature_count_ := L.length, kind_count_ := row0.length,
      likelihoods_ := L, assignments_ := A, counts_ := counts, empty_kinds_ := E,
      empty_kind_count_ := E.length, prior_ := prior,
      posterior_ := List.replicate row0.length 0 }, ?_⟩
  unfold BlockPitmanYorSampler.BlockPitmanYorSampler
  simp only [bind_eq_ok, pure, Except.pure, Except.ok.injEq, Unique.exists_iff, default,
    LOOM_ASSERT_eq_ok, decide_eq_true_eq, beq_iff_eq]
  refine ⟨row0, vec_at_of_getElem? hrow0, counts, hcounts, E, hE, prior, hprior,
    halpha, hd0, hd1, hL, hlen, ?_, rfl⟩
  exact (for_each_assert L (fun l => l.length == row0.length)).2
    (fun row hrow => by simpa using hrows row hrow)

theorem count_lt_of_length_lt {A : List Nat} {n : Nat} (h : A.length < n) (k : Nat) :
    A.count k < n := lt_of_le_of_lt (List.count_le_length k A) h

/-- A returning constructor leaves a consistent state, when the numbers of
features and kinds fit the counters. -/
theorem constructor_inv {lvl : Nat} {cl : PitmanYor} {L : List (List ℚ)} {A : List Nat}
    {s : BlockPitmanYorSampler}
    (h : BlockPitmanYorSampler.BlockPitmanYorSampler lvl cl L A = .ok s)
    (hF : s.feature_count_ < 2 ^ 32) (hK : s.kind_count_ ≤ 2 ^ 32) : Inv s := by
  obtain ⟨row0, hrow0, ⟨e1, e2, e3, e4, e5, e6, e7, e8⟩, ⟨h1, h2, h3, h4, h5, h6⟩,
    hcounts, hE, hprior⟩ := constructor_ok h
  have hAF : s.assignments_.length = s.feature_count_ := by rw [e6, e3, h5]
  have hrange := get_counts_from_assignments_ok lvl s hcounts
  have hA : ∀ a ∈ s.assignments_, a < s.kind_count_ := by
    intro a ha
    obtain ⟨f, hf, hfa⟩ := List.getElem_of_mem ha
    obtain ⟨b, hb, hbK⟩ := hrange f (by omega)
    rw [List.getElem?_eq_getElem hf, hfa] at hb
    simp only [Option.some.injEq] at hb
    exact hb ▸ hbK
  obtain ⟨c, hc, hcl, hcv⟩ := get_counts_from_assignments_valid lvl s (by omega)
    (fun f hf a ha => hA a (List.getElem?_mem ha))
  rw [hcounts] at hc
  simp only [Except.ok.injEq] at hc
  subst hc
  have hcounts_eq : ∀ k, k < s.kind_count_ → s.counts_[k]? = some (s.assignments_.count k) := by
    intro k hk
    rw [hcv k hk, ← hAF, List.take_length,
      to_uint32_of_lt (count_lt_of_length_lt (by omega) k)]
  obtain ⟨E, hE', hnd, hmem⟩ := get_empty_kinds_from_counts_spec s (by omega)
  rw [hE] at hE'
  simp only [Except.ok.injEq] at hE'
  subst hE'
  obtain ⟨p, hp, hpl, hpv⟩ := get_prior_from_counts_spec s (by omega)
  rw [hprior] at hp
  simp only [Except.ok.injEq] at hp
  subst hp
  exact
    { alpha_pos := e1 ▸ h1
      d_nonneg := e2 ▸ h2
      d_lt_one := e2 ▸ h3
      feature_count_pos := e3 ▸ h4
      feature_count_lt := hF
      kind_count_le := hK
      likelihoods_length := by rw [e5, e3]
      row_length := by
        intro row hrow
        rw [e5] at hrow
        rw [e4]
        exact h6 row hrow
      assignments_length := hAF
      assignments_lt := hA
      counts_length := hcl
      counts_eq := hcounts_eq
      empty_nodup := hnd
      mem_empty := by
        intro k
        rw [hmem hK k]
        constructor
        · rintro ⟨hk, h0⟩
          rw [hcounts_eq k hk] at h0
          exact ⟨hk, by simpa using h0⟩
        · rintro ⟨hk, h0⟩
          exact ⟨hk, by rw [hcounts_eq k hk, h0]⟩
      empty_kind_count_eq := e8
      prior_length := hpl
      posterior_length := by rw [e7, e4]; simp
      prior_eq := fun k hk => hpv k hk _ (hcounts_eq k hk) }

/-! ## One reassignment -/

theorem get_likelihood_empty_eq (s : BlockPitmanYorSampler) :
    s.get_likelihood_empty =
      likelihood_empty s.alpha_ s.d_ s.kind_count_ s.empty_kind_count_ := rfl


/-- Moving position `f` from `old` to a different `new` shifts one unit of
count. -/
theorem count_set_move {A : List Nat} {f old new : Nat} (hf : A[f]? = some old)
    (hne : new ≠ old) (k : Nat) :
    (A.set f new).count k =
      if k = new then A.count k + 1 else if k = old then A.count k - 1 else A.count k := by
  have hlt : f < A.length := by
    by_contra h
    rw [List.getElem?_eq_none (by omega)] at hf
    exact Option.noConfusion hf
  have hfo : A[f] = old := by
    rw [List.getElem?_eq_getElem hlt] at hf
    simpa using hf
  rw [List.count_set _ _ _ _ hlt, hfo]
  have hpos : 0 < A.count old := List.count_pos_iff.2 (hfo ▸ List.getElem_mem hlt)
  by_cases h1 : k = new
  · subst h1
    have : ¬ old = k := fun h => hne h.symm
    simp [this]
  · by_cases h2 : k = old
    · subst h2
      simp [h1, Ne.symm h1]
    · simp [h1, h2, Ne.symm h1, Ne.symm h2]

theorem Inv.empty_length_le {s : BlockPitmanYorSampler} (h : Inv s) :
    s.empty_kinds_.length ≤ s.kind_count_ := by
  rw [← List.toFinset_card_of_nodup h.empty_nodup]
  calc s.empty_kinds_.toFinset.card ≤ (Finset.range s.kind_count_).card :=
        Finset.card_le_card (fun k hk => by
          rw [List.mem_toFinset] at hk
          exact Finset.mem_range.2 ((h.mem_empty k).1 hk).1)
    _ = s.kind_count_ := Finset.card_range _

theorem for_each_vec_set {α : Type} (E : List Nat) (v : α) (p : List α)
    (h : ∀ k ∈ E, k < p.length) :
    ∃ q : List α, for_each E (fun k prior => vec_set prior k v) p = .ok q ∧
      q.length = p.length ∧
      ∀ j, q[j]? = if j ∈ E then some v else p[j]? := by
  induction E generalizing p with
  | nil => exact ⟨p, rfl, rfl, by simp⟩
  | cons k E ih =>
    have hk : k < p.length := h k (List.mem_cons_self k E)
    obtain ⟨q, hq, hql, hqv⟩ := ih (p.set k v) (fun j hj => by
      simpa using h j (List.mem_cons_of_mem k hj))
    refine ⟨q, ?_, by simpa using hql, fun j => ?_⟩
    · show (vec_set p k v >>= for_each E _) = _
      rw [vec_set_of_lt v hk]
      exact hq
    · rw [hqv j, List.getElem?_set]
      by_cases hjE : j ∈ E
      · simp [hjE]
      · by_cases hkj : k = j
        · subst hkj
          simp [hjE, hk]
        · simp [hjE, hkj, Ne.symm hkj]

/-- The invariant after a move, from what the move did to the set of empty
kinds and to the prior. -/
theorem inv_move {s : BlockPitmanYorSampler} (hs : Inv s) {f old new : Nat}
    (hf : s.assignments_[f]? = some old) (hnew : new < s.kind_count_) (hne : new ≠ old)
    (co cn e : Nat) (E : List Nat) (p : List ℚ)
    (hco : co = s.assignments_.count old - 1) (hcn : cn = s.assignments_.count new + 1)
    (he : e = E.length) (hnd : E.Nodup)
    (hmem : ∀ k, k ∈ E ↔ k < s.kind_count_ ∧ (s.assignments_.set f new).count k = 0)
    (hpl : p.length = s.kind_count_)
    (hp : ∀ k, k < s.kind_count_ → p[k]? = some
      (if (s.assignments_.set f new).count k ≠ 0
        then (((s.assignments_.set f new).count k : Nat) : ℚ) - s.d_
        else likelihood_empty s.alpha_ s.d_ s.kind_count_ e)) :
    Inv { alpha_ := s.alpha_, d_ := s.d_, feature_count_ := s.feature_count_,
          kind_count_ := s.kind_count_, likelihoods_ := s.likelihoods_,
          assignments_ := s.assignments_.set f new,
          counts_ := (s.counts_.set old co).set new cn,
          empty_kinds_ := E, empty_kind_count_ := e, prior_ := p,
          posterior_ := s.posterior_ } where
  alpha_pos := hs.alpha_pos
  d_nonneg := hs.d_nonneg
  d_lt_one := hs.d_lt_one
  feature_count_pos := hs.feature_count_pos
  feature_count_lt := hs.feature_count_lt
  kind_count_le := hs.kind_count_le
  likelihoods_length := hs.likelihoods_length
  row_length := hs.row_length
  assignments_length := by simpa using hs.assignments_length
  assignments_lt := by
    intro a ha
    rcases List.mem_or_eq_of_mem_set ha with h | h
    · exact hs.assignments_lt a h
    · exact h ▸ hnew
  counts_length := by simpa using hs.counts_length
  counts_eq := by
    intro k hk
    have hold : old < s.kind_count_ := hs.assignments_lt old (List.getElem?_mem hf)
    show ((s.counts_.set old co).set new cn)[k]? = some ((s.assignments_.set f new).count k)
    rw [count_set_move hf hne k, List.getElem?_set, List.getElem?_set]
    by_cases h1 : new = k
    · subst h1
      simp [hs.counts_length, hnew, hcn]
    · by_cases h2 : old = k
      · subst h2
        simp [h1, Ne.symm h1, hs.counts_length, hold, hco]
      · simp [h1, h2, Ne.symm h1, Ne.symm h2, hs.counts_eq k hk]
  empty_nodup := hnd
  mem_empty := hmem
  empty_kind_count_eq := he
  prior_length := hpl
  posterior_length := hs.posterior_length
  prior_eq := by
    intro k hk
    rw [hp k hk]
    rfl

theorem IdSet.length_insert_of_not_mem {E : List Nat} {k : Nat} (h : to_uint32 k ∉ E) :
    (IdSet.insert E k).length = E.length + 1 := by
  simp [IdSet.insert, h]

theorem IdSet.erase_nodup {E : List Nat} (h : E.Nodup) (k : Nat) :
    (IdSet.erase E k).Nodup := h.erase _

theorem IdSet.mem_erase {E : List Nat} (h : E.Nodup) {k j : Nat} :
    j ∈ IdSet.erase E k ↔ j ≠ to_uint32 k ∧ j ∈ E := h.mem_erase_iff

theorem IdSet.length_erase_of_mem {E : List Nat} {k : Nat} (h : to_uint32 k ∈ E) :
    (IdSet.erase E k).length = E.length - 1 := List.length_erase_of_mem h

/-- A move between two different kinds, from a consistent state: the code
returns, and the state it leaves is consistent again. -/
theorem reassign_spec {s : BlockPitmanYorSampler} (hs : Inv s) {f old new : Nat}
    (hf : s.assignments_[f]? = some old) (hnew : new < s.kind_count_) (hne : new ≠ old) :
    ∃ t, s.reassign f old new = .ok t ∧ Inv t ∧
      t.assignments_ = s.assignments_.set f new ∧ t.posterior_ = s.posterior_ ∧
      t.likelihoods_ = s.likelihoods_ ∧ t.feature_count_ = s.feature_count_ ∧
      t.kind_count_ = s.kind_count_ ∧ t.alpha_ = s.alpha_ ∧ t.d_ = s.d_ := by
  have hflt : f < s.assignments_.length := by
    by_contra h
    rw [List.getElem?_eq_none (by omega)] at hf
    exact Option.noConfusion hf
  have hold : old < s.kind_count_ := hs.assignments_lt old (List.getElem?_mem hf)
  have hcpos : 0 < s.assignments_.count old := List.count_pos_iff.2 (List.getElem?_mem hf)
  have hclt : ∀ k, s.assignments_.count k < 2 ^ 32 := fun k =>
    count_lt_of_length_lt (by rw [hs.assignments_length]; exact hs.feature_count_lt) k
  have hcnew : s.assignments_.count new + 1 < 2 ^ 32 := by
    have h1 := List.count_le_length new (s.assignments_.set f new)
    rw [count_set_move hf hne new, if_pos rfl, List.length_set, hs.assignments_length] at h1
    have := hs.feature_count_lt
    omega
  have hK := hs.kind_count_le
  have hEle := hs.empty_length_le
  have hu_new : to_uint32 new = new := to_uint32_of_lt (by omega)
  have hu_old : to_uint32 old = old := to_uint32_of_lt (by omega)
  have hdec : to_uint32 (s.assignments_.count old + 2 ^ 32 - 1) = s.assignments_.count old - 1 := by
    have := hclt old
    unfold to_uint32
    omega
  have hinc : to_uint32 (s.assignments_.count new + 1) = s.assignments_.count new + 1 :=
    to_uint32_of_lt hcnew
  have hc_old := hs.counts_eq old hold
  have hc_new := hs.counts_eq new hnew
  have hcl := hs.counts_length
  have hpl := hs.prior_length
  have he := hs.empty_kind_count_eq
  have hold_notin : to_uint32 old ∉ s.empty_kinds_ := by
    rw [hu_old, hs.mem_empty]
    omega
  have hmem_ins : ∀ j, j ∈ IdSet.insert s.empty_kinds_ old ↔ j ∈ s.empty_kinds_ ∨ j = old :=
    fun j => by rw [IdSet.mem_insert, hu_old]
  have hlen_ins := IdSet.length_insert_of_not_mem hold_notin
  have hnd_ins := IdSet.insert_nodup hs.empty_nodup old
  have hsz1 : to_size_t (s.empty_kinds_.length + 1) = s.empty_kinds_.length + 1 :=
    to_size_t_of_lt (by omega)
  have hsz2 : to_size_t (s.empty_kinds_.length + 1 + 2 ^ 64 - 1) = s.empty_kinds_.length := by
    unfold to_size_t
    omega
  have hprior : ∀ k, k < s.kind_count_ → s.prior_[k]? = some
      (if s.assignments_.count k ≠ 0 then ((s.assignments_.count k : Nat) : ℚ) - s.d_
        else likelihood_empty s.alpha_ s.d_ s.kind_count_ s.empty_kinds_.length) := by
    intro k hk
    rw [hs.prior_eq k hk, prior_of_count, get_likelihood_empty_eq, he]
  by_cases h1 : s.assignments_.count old - 1 = 0 <;>
    by_cases h2 : s.assignments_.count new = 0
  · -- `old` empties and `new` fills: the number of empty kinds is unchanged
    have hnew_in : to_uint32 new ∈ IdSet.insert s.empty_kinds_ old := by
      rw [hu_new, hmem_ins, hs.mem_empty]
      exact Or.inl ⟨hnew, h2⟩
    rw [h2] at hinc hc_new
    simp only [reassign, bind, Except.bind, pure, Except.pure, vec_at, hc_old, hc_new,
      vec_set_of_lt, hflt, hold, hnew, hcl, hpl, List.length_set, List.getElem?_set,
      hne, Ne.symm hne, hdec, hinc, hu_new, hu_old, he, hsz1, hsz2, h1,
      get_likelihood_empty_eq, beq_iff_eq, if_true, if_false, ne_eq, not_true_eq_false,
      not_false_eq_true]
    refine ⟨_, rfl, inv_move hs hf hnew hne _ _ _ _ _ ?_ ?_ ?_
      (IdSet.erase_nodup hnd_ins new) ?_ (by simp [hpl]) ?_, rfl, rfl, rfl, rfl, rfl, rfl, rfl⟩
    · omega
    · omega
    · rw [IdSet.length_erase_of_mem hnew_in, hlen_ins]
      omega
    · intro k
      rw [IdSet.mem_erase hnd_ins, hmem_ins, hu_new, hs.mem_empty, count_set_move hf hne k]
      by_cases hk1 : k = new
      · simp [hk1]
      · by_cases hk2 : k = old
        · subst hk2
          simp [hk1, hold, h1]
        · simp [hk1, hk2]
    · intro k hk
      rw [count_set_move hf hne k, List.getElem?_set, List.getElem?_set]
      by_cases hk1 : k = new
      · subst hk1
        simp [hpl, hnew, h2]
      · by_cases hk2 : k = old
        · subst hk2
          simp [hk1, Ne.symm hk1, hpl, hold, h1]
        · simp [hk1, hk2, Ne.symm hk1, Ne.symm hk2, hprior k hk]
  · -- `old` empties, `new` stays occupied: one more empty kind, refresh
    have hne1 : ¬ (s.empty_kinds_.length + 1 = s.empty_kinds_.length) := by omega
    obtain ⟨q, hq, hql, hqv⟩ := for_each_vec_set (IdSet.insert s.empty_kinds_ old)
      (likelihood_empty s.alpha_ s.d_ s.kind_count_ (s.empty_kinds_.length + 1))
      ((s.prior_.set old
          (likelihood_empty s.alpha_ s.d_ s.kind_count_ s.empty_kinds_.length)).set new
        (((s.assignments_.count new + 1 : Nat) : ℚ) - s.d_))
      (fun k hk => by
        rw [List.length_set, List.length_set, hpl]
        rcases (hmem_ins k).1 hk with h | h
        · exact ((hs.mem_empty k).1 h).1
        · exact h ▸ hold)
    simp only [reassign, bind, Except.bind, pure, Except.pure, vec_at, hc_old, hc_new,
      vec_set_of_lt, hflt, hold, hnew, hcl, hpl, List.length_set, List.getElem?_set,
      hne, Ne.symm hne, hdec, hinc, hu_new, hu_old, he, hsz1, hsz2, h1, h2, hne1,
      get_likelihood_empty_eq, beq_iff_eq, if_true, if_false, ne_eq, not_true_eq_false,
      not_false_eq_true, hq]
    refine ⟨_, rfl, inv_move hs hf hnew hne _ _ _ _ _ ?_ ?_ ?_
      hnd_ins ?_ (by simp [hql, hpl]) ?_, rfl, rfl, rfl, rfl, rfl, rfl, rfl⟩
    · omega
    · omega
    · rw [hlen_ins]
    · intro k
      rw [hmem_ins, hs.mem_empty, count_set_move hf hne k]
      by_cases hk1 : k = new
      · simp [hk1, h2, hne]
      · by_cases hk2 : k = old
        · subst hk2
          simp [hk1, hold, h1]
        · simp [hk1, hk2]
    · intro k hk
      rw [hqv k, count_set_move hf hne k, List.getElem?_set, List.getElem?_set]
      simp only [hmem_ins, hs.mem_empty]
      by_cases hk1 : k = new
      · subst hk1
        simp [hpl, hnew, h2, hne]
      · by_cases hk2 : k = old
        · subst hk2
          simp [hk1, h1]
        · by_cases hk3 : s.assignments_.count k = 0
          · simp [hk1, hk2, hk3, hk]
          · simp [hk1, hk2, hk3, Ne.symm hk1, Ne.symm hk2, hprior k hk]
  · -- `new` fills, `old` stays occupied: one empty kind fewer, refresh
    have hnew_in : to_uint32 new ∈ s.empty_kinds_ := by
      rw [hu_new, hs.mem_empty]
      exact ⟨hnew, h2⟩
    have hEpos : 0 < s.empty_kinds_.length := List.length_pos_of_mem hnew_in
    have hsz3 : to_size_t (s.empty_kinds_.length + 2 ^ 64 - 1) = s.empty_kinds_.length - 1 := by
      unfold to_size_t
      omega
    have hne1 : ¬ (s.empty_kinds_.length - 1 = s.empty_kinds_.length) := by omega
    rw [h2] at hinc hc_new
    obtain ⟨q, hq, hql, hqv⟩ := for_each_vec_set (IdSet.erase s.empty_kinds_ new)
      (likelihood_empty s.alpha_ s.d_ s.kind_count_ (s.empty_kinds_.length - 1))
      ((s.prior_.set old (((s.assignments_.count old - 1 : Nat) : ℚ) - s.d_)).set new
        (((0 + 1 : Nat) : ℚ) - s.d_))
      (fun k hk => by
        rw [List.length_set, List.length_set, hpl]
        exact ((hs.mem_empty k).1 ((IdSet.mem_erase hs.empty_nodup).1 hk).2).1)
    simp only [reassign, bind, Except.bind, pure, Except.pure, vec_at, hc_old, hc_new,
      vec_set_of_lt, hflt, hold, hnew, hcl, hpl, List.length_set, List.getElem?_set,
      hne, Ne.symm hne, hdec, hinc, hu_new, hu_old, he, hsz1, hsz2, hsz3, h1, hne1,
      get_likelihood_empty_eq, beq_iff_eq, if_true, if_false, ne_eq, not_true_eq_false,
      not_false_eq_true, hq]
    refine ⟨_, rfl, inv_move hs hf hnew hne _ _ _ _ _ ?_ ?_ ?_
      (IdSet.erase_nodup hs.empty_nodup new) ?_ (by simp [hql, hpl]) ?_,
      rfl, rfl, rfl, rfl, rfl, rfl, rfl⟩
    · omega
    · omega
    · rw [IdSet.length_erase_of_mem hnew_in]
    · intro k
      rw [IdSet.mem_erase hs.empty_nodup, hu_new, hs.mem_empty, count_set_move hf hne k]
      by_cases hk1 : k = new
      · simp [hk1]
      · by_cases hk2 : k = old
        · subst hk2
          simp [hk1, h1]
          omega
        · simp [hk1, hk2]
    · intro k hk
      rw [hqv k, count_set_move hf hne k, List.getElem?_set, List.getElem?_set]
      simp only [IdSet.mem_erase hs.empty_nodup, hu_new, hs.mem_empty]
      by_cases hk1 : k = new
      · subst hk1
        simp [hpl, hnew, h2]
      · by_cases hk2 : k = old
        · subst hk2
          have : ¬ s.assignments_.count k = 0 := by omega
          simp [hk1, h1, Ne.symm hk1, this, hpl, hold]
        · by_cases hk3 : s.assignments_.count k = 0
          · simp [hk1, hk2, hk3, hk]
          · simp [hk1, hk2, hk3, Ne.symm hk1, Ne.symm hk2, hprior k hk]
  · -- neither kind changes between empty and occupied
    simp only [reassign, bind, Except.bind, pure, Except.pure, vec_at, hc_old, hc_new,
      vec_set_of_lt, hflt, hold, hnew, hcl, hpl, List.length_set, List.getElem?_set,
      hne, Ne.symm hne, hdec, hinc, hu_new, hu_old, he, hsz1, hsz2, h1, h2,
      get_likelihood_empty_eq, beq_iff_eq, if_true, if_false, ne_eq, not_true_eq_false,
      not_false_eq_true]
    refine ⟨_, rfl, inv_move hs hf hnew hne _ _ _ _ _ rfl rfl rfl hs.empty_nodup ?_
      (by simp [hpl]) ?_, rfl, rfl, rfl, rfl, rfl, rfl, rfl⟩
    · intro k
      rw [hs.mem_empty, count_set_move hf hne k]
      by_cases hk1 : k = new
      · simp [hk1, h2]
      · by_cases hk2 : k = old
        · subst hk2
          simp [hk1, h1]
          omega
        · simp [hk1, hk2]
    · intro k hk
      rw [count_set_move hf hne k, List.getElem?_set, List.getElem?_set]
      by_cases hk1 : k = new
      · subst hk1
        simp [hpl, hnew]
      · by_cases hk2 : k = old
        · subst hk2
          simp [hk1, Ne.symm hk1, hpl, hold, h1]
        · simp [hk1, hk2, Ne.symm hk1, Ne.symm hk2, hprior k hk]

/-! ## The posterior kernel and the validator -/

theorem compute_posterior_ok (p l o : List ℚ) (hl : p.length ≤ l.length)
    (ho : p.length ≤ o.length) :
    ∃ total post, compute_posterior p l o = .ok (total, post) ∧
      post.length = o.length := by
  unfold compute_posterior
  obtain ⟨acc, hacc, hlen⟩ := for_loop_inv
    (fun _ (acc : ℚ × List ℚ) => acc.2.length = o.length) p.length
    (fun i (acc : ℚ × List ℚ) => do
      let p ← vec_at p i
      let l ← vec_at l i
      let posterior ← vec_set acc.2 i (p * l)
      pure (acc.1 + p * l, posterior))
    (0, o) rfl (by
      rintro i hi ⟨tot, post⟩ hpost
      simp only at hpost
      have h1 : p[i]? = some p[i] := List.getElem?_eq_getElem hi
      have hi2 : i < l.length := by omega
      have h2 : l[i]? = some l[i] := List.getElem?_eq_getElem hi2
      refine ⟨(tot + p[i] * l[i], post.set i (p[i] * l[i])), ?_, ?_⟩
      · simp only [vec_at_of_getElem? h1, vec_at_of_getElem? h2, bind, Except.bind,
          vec_set_of_lt _ (show i < post.length by omega), pure, Except.pure]
      · simpa using hpost)
  exact ⟨acc.1, acc.2, hacc, hlen⟩

theorem likelihood_empty_nonneg {alpha d : ℚ} (ha : 0 < alpha) (hd : 0 ≤ d) (K E : Nat) :
    0 ≤ likelihood_empty alpha d K E := by
  unfold likelihood_empty
  split_ifs
  · apply div_nonneg
    · have : (0 : ℚ) ≤ ((to_size_t (K + 2 ^ 64 - E) : Nat) : ℚ) := Nat.cast_nonneg _
      nlinarith
    · exact Nat.cast_nonneg _
  · exact le_refl 0

theorem Inv.prior_of_count_nonneg {s : BlockPitmanYorSampler} (hs : Inv s) (c : Nat) :
    0 ≤ prior_of_count s c := by
  unfold prior_of_count
  split_ifs with h
  · have : (1 : ℚ) ≤ (c : ℚ) := by exact_mod_cast Nat.one_le_iff_ne_zero.2 h
    have := hs.d_lt_one
    linarith
  · rw [get_likelihood_empty_eq]
    exact likelihood_empty_nonneg hs.alpha_pos hs.d_nonneg _ _

theorem LOOM_ASSERT_CLOSE_self {x : ℚ} (hx : 0 ≤ x) : LOOM_ASSERT_CLOSE x x = .ok () := by
  unfold LOOM_ASSERT_CLOSE
  rw [LOOM_ASSERT_eq_ok, decide_eq_true_eq]
  have hpos : (0 : ℚ) < x + x + 1 / 10 ^ 20 := by positivity
  refine ⟨ne_of_gt hpos, ?_⟩
  rw [sub_self, abs_zero, zero_div]
  positivity

/-- A loop of checks that all pass returns. -/
theorem for_loop_unit (n : Nat) (body : Nat → Unit → Except Fault Unit)
    (h : ∀ i, i < n → body i () = .ok ()) : for_loop n body () = .ok () := by
  obtain ⟨t, ht, -⟩ := for_loop_inv (fun _ _ => True) n body () trivial
    (fun i hi _ _ => ⟨(), h i hi, trivial⟩)
  exact ht

/-- The debug validator accepts every consistent state. -/
theorem validate_ok (lvl : Nat) {s : BlockPitmanYorSampler} (hs : Inv s) :
    s.validate lvl = .ok () := by
  obtain ⟨cs, hcs, hcl, hcv⟩ := get_counts_from_assignments_valid lvl s
    (by rw [hs.assignments_length])
    (fun f _ a ha => hs.assignments_lt a (List.getElem?_mem ha))
  have hcv' : ∀ k, k < s.kind_count_ → cs[k]? = some (s.assignments_.count k) := by
    intro k hk
    rw [hcv k hk, ← hs.assignments_length, List.take_length,
      to_uint32_of_lt (count_lt_of_length_lt
        (by rw [hs.assignments_length]; exact hs.feature_count_lt) k)]
  obtain ⟨p, hp, hpl, hpv⟩ := get_prior_from_counts_spec s (by rw [hs.counts_length])
  have hK := hs.kind_count_le
  unfold validate
  simp only [hcs, hp, bind, Except.bind]
  rw [for_loop_unit _ _ (fun k hk => by
    simp only [vec_at_of_getElem? (hs.counts_eq k hk), vec_at_of_getElem? (hcv' k hk),
      bind, Except.bind, beq_self_eq_true, LOOM_ASSERT_true])]
  simp only [hs.empty_kind_count_eq, beq_self_eq_true, LOOM_ASSERT_true]
  rw [for_loop_unit _ _ (fun k hk => by
    have hu : to_uint32 k = k := to_uint32_of_lt (by omega)
    simp only [vec_at_of_getElem? (hs.counts_eq k hk), bind, Except.bind, IdSet.contains, hu,
      hs.mem_empty k, hk, true_and]
    rw [LOOM_ASSERT_eq_ok]
    by_cases h0 : s.assignments_.count k = 0 <;> simp [h0])]
  simp only []
  exact for_loop_unit _ _ (fun k hk => by
    simp only [vec_at_of_getElem? (hs.prior_eq k hk),
      vec_at_of_getElem? (hpv k hk _ (hs.counts_eq k hk)), bind, Except.bind]
    exact LOOM_ASSERT_CLOSE_self (hs.prior_of_count_nonneg _))

/-! ## One step of `run` -/

theorem Inv.kind_count_pos {s : BlockPitmanYorSampler} (hs : Inv s) : 0 < s.kind_count_ := by
  have hF := hs.feature_count_pos
  have hlen := hs.assignments_length
  obtain ⟨a, ha⟩ := List.exists_mem_of_length_pos (by omega : 0 < s.assignments_.length)
  exact lt_of_le_of_lt (Nat.zero_le a) (hs.assignments_lt a ha)

/-- From a consistent state, the step for any feature `f < F` returns, and the
state it returns is consistent. -/
theorem run_step_spec {Rng : Type} (lvl : Nat)
    (sample : Rng → List ℚ → ℚ → Nat × Rng) (horacle : OracleInRange sample)
    {s : BlockPitmanYorSampler} (hs : Inv s) {f : Nat} (hf : f < s.feature_count_)
    (rng : Rng) :
    ∃ t rng', run_step lvl sample f (s, rng) = .ok (t, rng') ∧ Inv t ∧ SameProblem s t := by
  have hfL : f < s.likelihoods_.length := by rw [hs.likelihoods_length]; exact hf
  have hfA : f < s.assignments_.length := by rw [hs.assignments_length]; exact hf
  have hrow : s.likelihoods_[f]? = some s.likelihoods_[f] := List.getElem?_eq_getElem hfL
  have hrowlen := hs.row_length _ (List.getElem_mem hfL)
  have hold : s.assignments_[f]? = some s.assignments_[f] := List.getElem?_eq_getElem hfA
  obtain ⟨total, post, hpost, hpostlen⟩ := compute_posterior_ok s.prior_ s.likelihoods_[f]
    s.posterior_ (by rw [hs.prior_length, hrowlen])
    (by rw [hs.prior_length, hs.posterior_length])
  have hnew : (sample rng post total).1 < s.kind_count_ := by
    have := horacle rng post total (by rw [hpostlen, hs.posterior_length]; exact hs.kind_count_pos)
    rwa [hpostlen, hs.posterior_length] at this
  have hs1 : Inv { s with posterior_ := post } :=
    { hs with posterior_length := by rw [← hs.posterior_length]; exact hpostlen }
  unfold run_step
  simp only [vec_at_of_getElem? hrow, hpost, vec_at_of_getElem? hold, bind, Except.bind]
  by_cases hsame : (sample rng post total).1 = s.assignments_[f]
  · simp only [hsame, ne_eq, not_true_eq_false, if_false, pure, Except.pure]
    refine ⟨{ s with posterior_ := post }, (sample rng post total).2, ?_, hs1,
      rfl, rfl, rfl, rfl, rfl⟩
    by_cases hl : lvl ≥ 3
    · simp only [hl, if_true, validate_ok lvl hs1]
    · simp only [hl, if_false]
  · obtain ⟨t, ht, htinv, -, -, h3, h4, h5, h6, h7⟩ :=
      @reassign_spec _ hs1 f s.assignments_[f] _ hold hnew hsame
    simp only [hsame, ne_eq, not_false_eq_true, if_true, ht, pure, Except.pure]
    refine ⟨t, (sample rng post total).2, ?_, htinv, h6, h7, h4, h5, h3⟩
    by_cases hl : lvl ≥ 3
    · simp only [hl, if_true, validate_ok lvl htinv]
    · simp only [hl, if_false]

/-! ## Reachable states and `run` -/

theorem sameProblem_trans {s t u : BlockPitmanYorSampler} (h1 : SameProblem s t)
    (h2 : SameProblem t u) : SameProblem s u := by
  obtain ⟨a1, a2, a3, a4, a5⟩ := h1
  obtain ⟨b1, b2, b3, b4, b5⟩ := h2
  exact ⟨b1.trans a1, b2.trans a2, b3.trans a3, b4.trans a4, b5.trans a5⟩

theorem reachable_inv {Rng : Type} {lvl : Nat} {sample : Rng → List ℚ → ℚ → Nat × Rng}
    (horacle : OracleInRange sample) {st0 st : BlockPitmanYorSampler × Rng}
    (h0 : Inv st0.1) (h : Reachable lvl sample st0 st) :
    Inv st.1 ∧ SameProblem st0.1 st.1 := by
  induction h with
  | refl => exact ⟨h0, rfl, rfl, rfl, rfl, rfl⟩
  | @step st st' f _ hf hstep ih =>
    obtain ⟨hinv, hsame⟩ := ih
    obtain ⟨t, rng', ht, htinv, htsame⟩ := run_step_spec lvl sample horacle hinv hf st.2
    have : st' = (t, rng') := by
      have h1 : run_step lvl sample f (st.1, st.2) = .ok st' := hstep
      rw [ht] at h1
      exact (Except.ok.inj h1).symm
    subst this
    exact ⟨htinv, sameProblem_trans hsame htsame⟩

theorem reachable_trans {Rng : Type} {lvl : Nat} {sample : Rng → List ℚ → ℚ → Nat × Rng}
    {a b c : BlockPitmanYorSampler × Rng} (h1 : Reachable lvl sample a b)
    (h2 : Reachable lvl sample b c) : Reachable lvl sample a c := by
  induction h2 with
  | refl => exact h1
  | step f _ hf hstep ih => exact Reachable.step f ih hf hstep

/-- One sweep from a consistent state returns, through reachable states. -/
theorem sweep_spec {Rng : Type} (lvl : Nat) (sample : Rng → List ℚ → ℚ → Nat × Rng)
    (horacle : OracleInRange sample) {st : BlockPitmanYorSampler × Rng} (hs : Inv st.1) :
    ∃ st', for_loop st.1.feature_count_ (run_step lvl sample) st = .ok st' ∧
      Inv st'.1 ∧ Reachable lvl sample st st' := by
  obtain ⟨st', h, hinv, -, hr⟩ := for_loop_inv
    (fun _ (u : BlockPitmanYorSampler × Rng) =>
      Inv u.1 ∧ u.1.feature_count_ = st.1.feature_count_ ∧ Reachable lvl sample st u)
    st.1.feature_count_ (run_step lvl sample) st ⟨hs, rfl, Reachable.refl st⟩
    (by
      rintro i hi u ⟨hu, hF, hr⟩
      obtain ⟨t, rng', ht, htinv, htsame⟩ :=
        run_step_spec lvl sample horacle hu (by rw [hF]; exact hi) u.2
      exact ⟨(t, rng'), ht, htinv, htsame.2.2.1.trans hF,
        Reachable.step i hr (by rw [hF]; exact hi) ht⟩)
  exact ⟨st', h, hinv, hr⟩

/-- With a positive iteration count, `run` returns from a consistent state, and
its final state is reachable by per-feature steps. -/
theorem run_spec {Rng : Type} (lvl : Nat) (sample : Rng → List ℚ → ℚ → Nat × Rng)
    (horacle : OracleInRange sample) {s : BlockPitmanYorSampler} (hs : Inv s)
    {iterations : Nat} (hI : 0 < iterations) (rng : Rng) :
    ∃ st', run lvl sample s iterations rng = .ok st' ∧ Inv st'.1 ∧
      Reachable lvl sample (s, rng) st' := by
  unfold run
  simp only [hI, decide_True, LOOM_ASSERT_true, bind, Except.bind]
  exact for_loop_inv
    (fun _ (u : BlockPitmanYorSampler × Rng) => Inv u.1 ∧ Reachable lvl sample (s, rng) u)
    iterations _ (s, rng) ⟨hs, Reachable.refl _⟩
    (by
      rintro i - u ⟨hu, hr⟩
      obtain ⟨st', h, hinv, hr'⟩ := sweep_spec lvl sample horacle hu
      exact ⟨st', h, hinv, reachable_trans hr hr'⟩)

theorem sum_range_indicator (a K : Nat) :
    ((List.range K).map (fun k => if k = a then 1 else 0)).sum = if a < K then 1 else 0 := by
  induction K with
  | zero => simp
  | succ K ih =>
    rw [List.range_succ, List.map_append, List.sum_append, ih]
    by_cases h1 : a < K
    · have : K ≠ a := by omega
      simp [h1, this, Nat.lt_succ_of_lt h1]
    · by_cases h2 : K = a
      · subst h2
        simp
      · have : ¬ a < K + 1 := by omega
        simp [h1, h2, this]

/-- The occupancy counts of a vector with entries below `K` add up to its
length. -/
theorem sum_count_range (A : List Nat) (K : Nat) (h : ∀ a ∈ A, a < K) :
    ((List.range K).map (fun k => A.count k)).sum = A.length := by
  induction A with
  | nil => simp
  | cons a A ih =>
    have ha : a < K := h a (List.mem_cons_self a A)
    have ih' := ih (fun b hb => h b (List.mem_cons_of_mem a hb))
    have hsplit : ((List.range K).map (fun k => (a :: A).count k)).sum =
        ((List.range K).map (fun k => A.count k)).sum +
          ((List.range K).map (fun k => if k = a then 1 else 0)).sum := by
      rw [← List.sum_map_add]
      congr 1
      apply List.map_congr_left
      intro k _
      rw [List.count_cons]
      by_cases hk : k = a
      · simp [hk]
      · simp [hk, Ne.symm hk]
    have hind : ((List.range K).map (fun k => if k = a then 1 else 0)).sum = 1 := by
      rw [sum_range_indicator, if_pos ha]
    rw [hsplit, ih', hind, List.length_cons]

theorem Inv.counts_sum {s : BlockPitmanYorSampler} (hs : Inv s) :
    s.counts_.sum = s.feature_count_ := by
  have : s.counts_ = (List.range s.kind_count_).map (fun k => s.assignments_.count k) := by
    apply List.ext_getElem?
    intro k
    by_cases hk : k < s.kind_count_
    · rw [hs.counts_eq k hk]
      simp [hk]
    · rw [List.getElem?_eq_none (by rw [hs.counts_length]; omega),
        List.getElem?_eq_none (by simp; omega)]
  rw [this, sum_count_range _ _ hs.assignments_lt, hs.assignments_length]

/-! ## The invariants of the sampler -/

/-- A returning constructor leaves a consistent state when the matrix has fewer
than `2 ^ 32` rows and at most `2 ^ 32` columns. -/
theorem constructed_inv {lvl : Nat} {cl : PitmanYor} {L : List (List ℚ)} {A : List Nat}
    {s0 : BlockPitmanYorSampler}
    (hctor : BlockPitmanYorSampler.BlockPitmanYorSampler lvl cl L A = .ok s0)
    (hF : L.length < 2 ^ 32) (hK : ∀ row ∈ L, row.length ≤ 2 ^ 32) :
    Inv s0 ∧ s0.feature_count_ = L.length ∧ L.length = A.length := by
  obtain ⟨row0, hrow0, ⟨-, -, e3, e4, -⟩, ⟨-, -, -, -, h5, -⟩, -⟩ := constructor_ok hctor
  exact ⟨constructor_inv hctor (by rw [e3]; exact hF)
    (by rw [e4]; exact hK row0 (List.getElem?_mem hrow0)), e3, h5⟩

/-- Any property of consistent states holds in every reachable state, and every
further step returns, in a state where it holds again. -/
theorem reachable_property {Rng : Type} {lvl : Nat} {sample : Rng → List ℚ → ℚ → Nat × Rng}
    (horacle : OracleInRange sample) {cl : PitmanYor} {L : List (List ℚ)} {A : List Nat}
    {s0 : BlockPitmanYorSampler}
    (hctor : BlockPitmanYorSampler.BlockPitmanYorSampler lvl cl L A = .ok s0)
    (hF : L.length < 2 ^ 32) (hK : ∀ row ∈ L, row.length ≤ 2 ^ 32)
    {rng0 : Rng} {st : BlockPitmanYorSampler × Rng}
    (hreach : Reachable lvl sample (s0, rng0) st)
    (P : BlockPitmanYorSampler → Prop) (hP : ∀ s, Inv s → P s) :
    P st.1 ∧ ∀ f, f < st.1.feature_count_ →
      ∃ st', run_step lvl sample f st = .ok st' ∧ P st'.1 := by
  obtain ⟨hs, -⟩ := reachable_inv horacle (constructed_inv hctor hF hK).1 hreach
  refine ⟨hP _ hs, fun f hf => ?_⟩
  obtain ⟨t, rng', ht, htinv, -⟩ := run_step_spec lvl sample horacle hs hf st.2
  exact ⟨(t, rng'), ht, hP _ htinv⟩

theorem Inv.countsConsistent {s : BlockPitmanYorSampler} (hs : Inv s) : CountsConsistent s :=
  ⟨hs.counts_length, hs.counts_eq⟩

theorem Inv.card_empty {s : BlockPitmanYorSampler} (hs : Inv s) :
    s.empty_kinds_.toFinset.card = s.empty_kinds_.length :=
  List.toFinset_card_of_nodup hs.empty_nodup

theorem Inv.emptyKindsExact {s : BlockPitmanYorSampler} (hs : Inv s) : EmptyKindsExact s := by
  refine ⟨hs.empty_nodup, fun k hk => ((hs.mem_empty k).1 hk).1, fun k hk => ?_,
    by rw [hs.card_empty]; exact hs.empty_kind_count_eq⟩
  rw [hs.mem_empty k, hs.counts_eq k hk]
  simp [hk]

theorem Inv.emptyPriorCurrent {s : BlockPitmanYorSampler} (hs : Inv s) :
    EmptyPriorCurrent s := by
  intro k hk h0
  have hc : s.assignments_.count k = 0 := by
    rw [hs.counts_eq k hk] at h0
    simpa using h0
  have hmem : k ∈ s.empty_kinds_ := (hs.mem_empty k).2 ⟨hk, hc⟩
  have hpos : 0 < s.empty_kinds_.length := List.length_pos_of_mem hmem
  have hle := hs.empty_length_le
  have hK := hs.kind_count_le
  rw [hs.prior_eq k hk, hc, hs.card_empty]
  have hsz : to_size_t (s.kind_count_ + 2 ^ 64 - s.empty_kinds_.length) =
      s.kind_count_ - s.empty_kinds_.length := by
    unfold to_size_t
    omega
  simp only [prior_of_count, ne_eq, not_true_eq_false, if_false, get_likelihood_empty_eq,
    likelihood_empty, hs.empty_kind_count_eq, hsz, Nat.cast_sub hle]
  rw [if_pos (by omega)]

theorem Inv.occupiedPriorCurrent {s : BlockPitmanYorSampler} (hs : Inv s) :
    OccupiedPriorCurrent s := by
  intro k hk c hc hpos
  rw [hs.counts_eq k hk] at hc
  simp only [Option.some.injEq] at hc
  rw [hs.prior_eq k hk, hc, prior_of_count, if_pos (by omega)]

theorem Inv.assignmentsInRange {s : BlockPitmanYorSampler} (hs : Inv s) :
    AssignmentsInRange s := ⟨hs.assignments_length, hs.assignments_lt⟩

theorem example_oracle_in_range : OracleInRange example_oracle :=
  fun rng _ _ h => Nat.mod_lt rng h

theorem example_constructed :
    BlockPitmanYorSampler.BlockPitmanYorSampler 3 ⟨1, 1 / 2⟩ example_likelihoods [0, 1] =
      .ok example_initial := by
  simp [BlockPitmanYorSampler.BlockPitmanYorSampler, get_counts_from_assignments,
    get_empty_kinds_from_counts, get_prior_from_counts, get_likelihood_empty, for_loop,
    for_each, vec_at, vec_set, LOOM_ASSERT, LOOM_ASSERT1, IdSet.insert, to_uint32,
    to_size_t, bind, Except.bind, pure, Except.pure, example_likelihoods, example_initial]
  norm_num

theorem example_step :
    run_step 3 example_oracle 0 (example_initial, 2) = .ok (example_moved, 3) := by
  simp [run_step, reassign, validate, compute_posterior, get_counts_from_assignments,
    get_prior_from_counts, get_likelihood_empty, for_loop, for_each, vec_at, vec_set,
    LOOM_ASSERT, LOOM_ASSERT1, LOOM_ASSERT_CLOSE, IdSet.insert, IdSet.erase,
    IdSet.contains, to_uint32, to_size_t, bind, Except.bind, pure, Except.pure,
    example_oracle, example_likelihoods, example_initial, example_moved]
  norm_num

theorem example_reachable :
    Reachable 3 example_oracle (example_initial, 2) (example_moved, 3) :=
  Reachable.step 0 (Reachable.refl _) (by decide) example_step

theorem example_sizes :
    example_likelihoods.length < 2 ^ 32 ∧ ∀ row ∈ example_likelihoods, row.length ≤ 2 ^ 32 := by
  simp [example_likelihoods]

/-- C1. Counts stay consistent with assignments: in every state reached from a
constructed sampler by per-feature steps of `run` (the oracle returning indices
below `K`), `counts_[k]` is the number of features `f` with
`assignments_[f] = k`, for every kind `k`; and every further step returns, in a
state with the same property. The matrix has fewer than `2 ^ 32` rows and at
most `2 ^ 32` columns, the ranges of the `uint32_t` counters and kind ids. -/
theorem counts_match_assignments {Rng : Type} (lvl : Nat)
    (sample : Rng → List ℚ → ℚ → Nat × Rng) (horacle : OracleInRange sample)
    (clustering : PitmanYor) (likelihoods : List (List ℚ)) (assignments : List Nat)
    (s0 : BlockPitmanYorSampler)
    (hctor : BlockPitmanYorSampler.BlockPitmanYorSampler lvl clustering likelihoods
      assignments = .ok s0)
    (hF : likelihoods.length < 2 ^ 32) (hK : ∀ row ∈ likelihoods, row.length ≤ 2 ^ 32)
    (rng0 : Rng) (st : BlockPitmanYorSampler × Rng)
    (hreach : Reachable lvl sample (s0, rng0) st) :
    CountsConsistent st.1 ∧ ∀ f, f < st.1.feature_count_ →
      ∃ st', run_step lvl sample f st = .ok st' ∧ CountsConsistent st'.1 :=
  reachable_property horacle hctor hF hK hreach _ (fun _ h => h.countsConsistent)

theorem counts_match_assignments_witness :
    CountsConsistent example_moved ∧ ∀ f, f < example_moved.feature_count_ →
      ∃ st', run_step 3 example_oracle f (example_moved, 3) = .ok st' ∧
        CountsConsistent st'.1 :=
  counts_match_assignments 3 example_oracle example_oracle_in_range ⟨1, 1 / 2⟩
    example_likelihoods [0, 1] example_initial example_constructed example_sizes.1
    example_sizes.2 2 (example_moved, 3) example_reachable

/-- C2. The empty-kinds index stays exact: in every state reached from a
constructed sampler by per-feature steps of `run`, a kind `k` is a member of
`empty_kinds_` if and only if `counts_[k] = 0`, and `empty_kind_count_` is the
cardinality of `empty_kinds_`; every further step returns, in a state with the
same property. Sizes are within the ranges of the counters, as in C1. -/
theorem empty_kinds_exact {Rng : Type} (lvl : Nat)
    (sample : Rng → List ℚ → ℚ → Nat × Rng) (horacle : OracleInRange sample)
    (clustering : PitmanYor) (likelihoods : List (List ℚ)) (assignments : List Nat)
    (s0 : BlockPitmanYorSampler)
    (hctor : BlockPitmanYorSampler.BlockPitmanYorSampler lvl clustering likelihoods
      assignments = .ok s0)
    (hF : likelihoods.length < 2 ^ 32) (hK : ∀ row ∈ likelihoods, row.length ≤ 2 ^ 32)
    (rng0 : Rng) (st : BlockPitmanYorSampler × Rng)
    (hreach : Reachable lvl sample (s0, rng0) st) :
    EmptyKindsExact st.1 ∧ ∀ f, f < st.1.feature_count_ →
      ∃ st', run_step lvl sample f st = .ok st' ∧ EmptyKindsExact st'.1 :=
  reachable_property horacle hctor hF hK hreach _ (fun _ h => h.emptyKindsExact)

theorem empty_kinds_exact_witness :
    EmptyKindsExact example_moved ∧ ∀ f, f < example_moved.feature_count_ →
      ∃ st', run_step 3 example_oracle f (example_moved, 3) = .ok st' ∧
        EmptyKindsExact st'.1 :=
  empty_kinds_exact 3 example_oracle example_oracle_in_range ⟨1, 1 / 2⟩
    example_likelihoods [0, 1] example_initial example_constructed example_sizes.1
    example_sizes.2 2 (example_moved, 3) example_reachable

/-- C3. Empty-kind prior weights are always current: in exact arithmetic, in
every state reached from a constructed sampler by per-feature steps of `run`
(whether or not a step changed `|E|`, hence also after the move that empties
`k_old` while filling a previously empty `k_new`), every kind `k` with
`counts_[k] = 0` has `prior_[k] = (alpha + d * (K - |E|)) / |E|` for the `|E|`
of that state; every further step returns, in a state with the same property.
Sizes are within the ranges of the counters, as in C1. -/
theorem empty_prior_current {Rng : Type} (lvl : Nat)
    (sample : Rng → List ℚ → ℚ → Nat × Rng) (horacle : OracleInRange sample)
    (clustering : PitmanYor) (likelihoods : List (List ℚ)) (assignments : List Nat)
    (s0 : BlockPitmanYorSampler)
    (hctor : BlockPitmanYorSampler.BlockPitmanYorSampler lvl clustering likelihoods
      assignments = .ok s0)
    (hF : likelihoods.length < 2 ^ 32) (hK : ∀ row ∈ likelihoods, row.length ≤ 2 ^ 32)
    (rng0 : Rng) (st : BlockPitmanYorSampler × Rng)
    (hreach : Reachable lvl sample (s0, rng0) st) :
    EmptyPriorCurrent st.1 ∧ ∀ f, f < st.1.feature_count_ →
      ∃ st', run_step lvl sample f st = .ok st' ∧ EmptyPriorCurrent st'.1 :=
  reachable_property horacle hctor hF hK hreach _ (fun _ h => h.emptyPriorCurrent)

theorem empty_prior_current_witness :
    EmptyPriorCurrent example_moved ∧ ∀ f, f < example_moved.feature_count_ →
      ∃ st', run_step 3 example_oracle f (example_moved, 3) = .ok st' ∧
        EmptyPriorCurrent st'.1 :=
  empty_prior_current 3 example_oracle example_oracle_in_range ⟨1, 1 / 2⟩
    example_likelihoods [0, 1] example_initial example_constructed example_sizes.1
    example_sizes.2 2 (example_moved, 3) example_reachable

/-- C4. Occupied-kind prior weights are always current: in exact arithmetic, in
every state reached from a constructed sampler by per-feature steps of `run`,
every kind `k` with `counts_[k] > 0` has `prior_[k] = counts_[k] - d`, the
kinds no step touched included; every further step returns, in a state with the
same property. Sizes are within the ranges of the counters, as in C1. -/
theorem occupied_prior_current {Rng : Type} (lvl : Nat)
    (sample : Rng → List ℚ → ℚ → Nat × Rng) (horacle : OracleInRange sample)
    (clustering : PitmanYor) (likelihoods : List (List ℚ)) (assignments : List Nat)
    (s0 : BlockPitmanYorSampler)
    (hctor : BlockPitmanYorSampler.BlockPitmanYorSampler lvl clustering likelihoods
      assignments = .ok s0)
    (hF : likelihoods.length < 2 ^ 32) (hK : ∀ row ∈ likelihoods, row.length ≤ 2 ^ 32)
    (rng0 : Rng) (st : BlockPitmanYorSampler × Rng)
    (hreach : Reachable lvl sample (s0, rng0) st) :
    OccupiedPriorCurrent st.1 ∧ ∀ f, f < st.1.feature_count_ →
      ∃ st', run_step lvl sample f st = .ok st' ∧ OccupiedPriorCurrent st'.1 :=
  reachable_property horacle hctor hF hK hreach _ (fun _ h => h.occupiedPriorCurrent)

theorem occupied_prior_current_witness :
    OccupiedPriorCurrent example_moved ∧ ∀ f, f < example_moved.feature_count_ →
      ∃ st', run_step 3 example_oracle f (example_moved, 3) = .ok st' ∧
        OccupiedPriorCurrent st'.1 :=
  occupied_prior_current 3 example_oracle example_oracle_in_range ⟨1, 1 / 2⟩
    example_likelihoods [0, 1] example_initial example_constructed example_sizes.1
    example_sizes.2 2 (example_moved, 3) example_reachable

/-- C5. Count conservation: for a sampler constructed from `F` features, every
iteration count `I ≥ 1` and every in-range oracle, `run` returns and the sum of
`counts_` over all kinds is `F` in its final state, as in every intermediate
state. Sizes are within the ranges of the counters, as in C1. -/
theorem count_conservation {Rng : Type} (lvl : Nat)
    (sample : Rng → List ℚ → ℚ → Nat × Rng) (horacle : OracleInRange sample)
    (clustering : PitmanYor) (likelihoods : List (List ℚ)) (assignments : List Nat)
    (s0 : BlockPitmanYorSampler)
    (hctor : BlockPitmanYorSampler.BlockPitmanYorSampler lvl clustering likelihoods
      assignments = .ok s0)
    (hF : likelihoods.length < 2 ^ 32) (hK : ∀ row ∈ likelihoods, row.length ≤ 2 ^ 32)
    (rng0 : Rng) :
    (∀ iterations, 1 ≤ iterations →
      ∃ st', run lvl sample s0 iterations rng0 = .ok st' ∧
        st'.1.counts_.sum = assignments.length) ∧
    ∀ st, Reachable lvl sample (s0, rng0) st → st.1.counts_.sum = assignments.length := by
  obtain ⟨hs0, hF0, hLA⟩ := constructed_inv hctor hF hK
  have key : ∀ st, Reachable lvl sample (s0, rng0) st →
      st.1.counts_.sum = assignments.length := by
    intro st hreach
    obtain ⟨hs, hsame⟩ := reachable_inv horacle hs0 hreach
    rw [hs.counts_sum, hsame.2.2.1]
    exact hF0.trans hLA
  refine ⟨fun iterations hI => ?_, key⟩
  obtain ⟨st', hrun, -, hreach⟩ := run_spec lvl sample horacle hs0 hI rng0
  exact ⟨st', hrun, key st' hreach⟩

theorem count_conservation_witness :
    (∀ iterations, 1 ≤ iterations →
      ∃ st', run 3 example_oracle example_initial iterations 2 = .ok st' ∧
        st'.1.counts_.sum = [0, 1].length) ∧
    ∀ st, Reachable 3 example_oracle (example_initial, 2) st →
      st.1.counts_.sum = [0, 1].length :=
  count_conservation 3 example_oracle example_oracle_in_range ⟨1, 1 / 2⟩
    example_likelihoods [0, 1] example_initial example_constructed example_sizes.1
    example_sizes.2 2

/-- C7. Assignments stay in range: in every state reached from a constructed
sampler by per-feature steps of `run` with an oracle returning indices below
`K`, the assignment vector still has length `F` and every entry is below `K`
(`F` and `K` being those of the constructed sampler); every further step
returns, in a state with the same property. Sizes are within the ranges of the
counters, as in C1. -/
theorem assignments_stay_in_range {Rng : Type} (lvl : Nat)
    (sample : Rng → List ℚ → ℚ → Nat × Rng) (horacle : OracleInRange sample)
    (clustering : PitmanYor) (likelihoods : List (List ℚ)) (assignments : List Nat)
    (s0 : BlockPitmanYorSampler)
    (hctor : BlockPitmanYorSampler.BlockPitmanYorSampler lvl clustering likelihoods
      assignments = .ok s0)
    (hF : likelihoods.length < 2 ^ 32) (hK : ∀ row ∈ likelihoods, row.length ≤ 2 ^ 32)
    (rng0 : Rng) (st : BlockPitmanYorSampler × Rng)
    (hreach : Reachable lvl sample (s0, rng0) st) :
    (st.1.feature_count_ = assignments.length ∧ st.1.kind_count_ = s0.kind_count_ ∧
      AssignmentsInRange st.1) ∧
    ∀ f, f < st.1.feature_count_ →
      ∃ st', run_step lvl sample f st = .ok st' ∧ AssignmentsInRange st'.1 := by
  obtain ⟨hs0, hF0, hLA⟩ := constructed_inv hctor hF hK
  obtain ⟨-, hsame⟩ := reachable_inv horacle hs0 hreach
  obtain ⟨h1, h2⟩ := reachable_property horacle hctor hF hK hreach _
    (fun _ h => h.assignmentsInRange)
  exact ⟨⟨hsame.2.2.1.trans (hF0.trans hLA), hsame.2.2.2.1, h1⟩, h2⟩

theorem assignments_stay_in_range_witness :
    (example_moved.feature_count_ = [0, 1].length ∧
      example_moved.kind_count_ = example_initial.kind_count_ ∧
      AssignmentsInRange example_moved) ∧
    ∀ f, f < example_moved.feature_count_ →
      ∃ st', run_step 3 example_oracle f (example_moved, 3) = .ok st' ∧
        AssignmentsInRange st'.1 :=
  assignments_stay_in_range 3 example_oracle example_oracle_in_range ⟨1, 1 / 2⟩
    example_likelihoods [0, 1] example_initial example_constructed example_sizes.1
    example_sizes.2 2 (example_moved, 3) example_reachable

/-! ## Reassignment to the same kind -/

/-- C6. Reassignment to the same kind is a no-op: for every sampler state `s`
and feature `f` on which the step's reads succeed (row `f` exists and
`compute_posterior` returns `total` and the written buffer `post`), if the
oracle draws the kind `assignments_[f]`, then the step returns with `A`, `C`,
`E`, `empty_kind_count_` and `P` identical to their values before it; only the
rng and the posterior buffer were written. In a build that validates every step
(`LOOM_DEBUG_LEVEL ≥ 3`) the state is one the validator accepts. -/
theorem same_kind_is_noop {Rng : Type} (lvl : Nat)
    (sample : Rng → List ℚ → ℚ → Nat × Rng) (s : BlockPitmanYorSampler) (f : Nat)
    (rng : Rng) (row : List ℚ) (total : ℚ) (post : List ℚ)
    (hrow : s.likelihoods_[f]? = some row)
    (hpost : compute_posterior s.prior_ row s.posterior_ = .ok (total, post))
    (hdraw : s.assignments_[f]? = some (sample rng post total).1)
    (hvalid : 3 ≤ lvl → s.validate lvl = .ok ()) :
    ∃ t, run_step lvl sample f (s, rng) = .ok (t, (sample rng post total).2) ∧
      t.assignments_ = s.assignments_ ∧ t.counts_ = s.counts_ ∧
      t.empty_kinds_ = s.empty_kinds_ ∧ t.empty_kind_count_ = s.empty_kind_count_ ∧
      t.prior_ = s.prior_ ∧ t.posterior_ = post ∧ SameProblem s t := by
  refine ⟨{ s with posterior_ := post }, ?_, rfl, rfl, rfl, rfl, rfl, rfl,
    rfl, rfl, rfl, rfl, rfl⟩
  unfold run_step
  simp only [vec_at_of_getElem? hrow, hpost, vec_at_of_getElem? hdraw, bind, Except.bind,
    ne_eq, not_true_eq_false, if_false, pure, Except.pure]
  by_cases hl : lvl ≥ 3
  · have hv : validate lvl { s with posterior_ := post } = .ok () := hvalid hl
    simp only [hl, if_true, hv]
  · simp only [hl, if_false]

theorem same_kind_is_noop_witness :
    ∃ t, run_step 3 example_oracle 1 (example_initial, 1) =
        .ok (t, (example_oracle 1 [1 / 2, 1 / 2, 2] 3).2) ∧
      t.assignments_ = example_initial.assignments_ ∧ t.counts_ = example_initial.counts_ ∧
      t.empty_kinds_ = example_initial.empty_kinds_ ∧
      t.empty_kind_count_ = example_initial.empty_kind_count_ ∧
      t.prior_ = example_initial.prior_ ∧ t.posterior_ = [1 / 2, 1 / 2, 2] ∧
      SameProblem example_initial t :=
  same_kind_is_noop 3 example_oracle example_initial 1 1 [1, 1, 1] 3 [1 / 2, 1 / 2, 2]
    (by simp [example_initial, example_likelihoods])
    (by
      simp [compute_posterior, for_loop, vec_at, vec_set, bind, Except.bind, pure,
        Except.pure, example_initial]
      norm_num)
    (by simp [example_initial, example_oracle])
    (fun _ => by
      simp [validate, get_counts_from_assignments, get_prior_from_counts,
        get_likelihood_empty, for_loop, vec_at, vec_set, LOOM_ASSERT, LOOM_ASSERT1,
        LOOM_ASSERT_CLOSE, IdSet.contains, to_uint32, to_size_t, bind, Except.bind, pure,
        Except.pure, example_initial]
      norm_num)

/-! ## The likelihood matrix builder -/

/-- C8 (what the code does). With one feature and two kinds the inner loop of
the likelihood builder runs over `kindid < feature_count = 1`: only kind 0 is
scored, column 1 of the row keeps the `0` of the allocation, and the second
kind is never passed to `score_feature`. With two features and one kind the
same loop reads `kinds[1]`, past the end of `kinds`. -/
theorem likelihood_builder_scans_feature_count {Rng Kind : Type} (ext : External Rng Kind)
    (clustering : PitmanYor) (k0 k1 : Kind) (a b : Nat) (rng : Rng) :
    Algorithm8.infer_assignments_likelihoods ext ⟨clustering, [k0, k1]⟩ [a] rng =
        .ok ([ext.scores_to_likelihoods
                [(ext.score_feature k0 0 (ext.rng_seeded ((ext.rng_draw rng).1 + 0))).1, 0]],
            (ext.rng_draw rng).2) ∧
      Algorithm8.infer_assignments_likelihoods ext ⟨clustering, [k0]⟩ [a, b] rng =
        .error .out_of_range := by
  constructor <;>
    simp [Algorithm8.infer_assignments_likelihoods, for_loop, vec_at, vec_set, bind,
      Except.bind, pure, Except.pure]

/-! ## Rejections at construction -/

theorem LOOM_ASSERT_cases (c : Bool) :
    LOOM_ASSERT c = .ok () ∨ LOOM_ASSERT c = .error .abort := by
  cases c
  · exact Or.inr rfl
  · exact Or.inl rfl

theorem ok_bind {α β : Type} (a : α) (g : α → Except Fault β) :
    (Except.ok a >>= g) = g a := rfl

theorem error_bind {α β : Type} (e : Fault) (g : α → Except Fault β) :
    ((Except.error e : Except Fault α) >>= g) = .error e := rfl

/-- Four assertions followed by an abort end in an abort, whichever fails
first. -/
theorem assert_chain_abort {α : Type} (c1 c2 c3 c4 : Bool) :
    (LOOM_ASSERT c1 >>= fun _ => LOOM_ASSERT c2 >>= fun _ => LOOM_ASSERT c3 >>= fun _ =>
      LOOM_ASSERT c4 >>= fun _ => (Except.error Fault.abort : Except Fault α)) =
      .error .abort := by
  cases c1 <;> cases c2 <;> cases c3 <;> cases c4 <;> rfl

/-- A loop whose iterations either keep the invariant or abort either returns
with the invariant or aborts: it makes no out-of-range access. -/
theorem for_loop_ok_or_abort {σ : Type} (P : Nat → σ → Prop) (n : Nat)
    (body : Nat → σ → Except Fault σ) (init : σ) (h0 : P 0 init)
    (hstep : ∀ i, i < n → ∀ s, P i s →
      (∃ t, body i s = .ok t ∧ P (i + 1) t) ∨ body i s = .error .abort) :
    (∃ t, for_loop n body init = .ok t ∧ P n t) ∨
      for_loop n body init = .error .abort := by
  induction n with
  | zero => exact Or.inl ⟨init, rfl, h0⟩
  | succ n ih =>
    rcases ih (fun i hi s hs => hstep i (Nat.lt_succ_of_lt hi) s hs) with ⟨t, ht, hP⟩ | h
    · rcases hstep n (Nat.lt_succ_self n) t hP with ⟨u, hu, hQ⟩ | hu
      · exact Or.inl ⟨u, by simp [for_loop, ht, bind, Except.bind, hu], hQ⟩
      · exact Or.inr (by simp [for_loop, ht, bind, Except.bind, hu])
    · exact Or.inr (by simp [for_loop, h, bind, Except.bind])

/-- With `LOOM_ASSERT1` compiled in and an entry `≥ K` in the assignment
vector, the counting loop aborts at the first such entry it scans, or returns
having scanned only entries in range. -/
theorem get_counts_from_assignments_checked {lvl : Nat} (hlvl : 1 ≤ lvl)
    (s : BlockPitmanYorSampler) {j a : Nat} (hj : s.assignments_[j]? = some a)
    (ha : s.kind_count_ ≤ a) :
    (∃ cs : List Nat, s.get_counts_from_assignments lvl = .ok cs ∧
        cs.length = s.kind_count_ ∧ s.feature_count_ ≤ j) ∨
      s.get_counts_from_assignments lvl = .error .abort := by
  have hjlt : j < s.assignments_.length := by
    by_contra h
    rw [List.getElem?_eq_none (by omega)] at hj
    exact Option.noConfusion hj
  unfold get_counts_from_assignments
  refine for_loop_ok_or_abort (fun i (cs : List Nat) => cs.length = s.kind_count_ ∧ i ≤ j)
    _ _ _ ⟨by simp, Nat.zero_le j⟩ ?_
  rintro i - cs ⟨hlen, hij⟩
  have hi : i < s.assignments_.length := by omega
  have hai : s.assignments_[i]? = some s.assignments_[i] := List.getElem?_eq_getElem hi
  by_cases hk : s.assignments_[i] < s.kind_count_
  · left
    have hne : i ≠ j := by
      rintro rfl
      rw [hai] at hj
      simp only [Option.some.injEq] at hj
      omega
    have hcs : cs[s.assignments_[i]]? = some cs[s.assignments_[i]] :=
      List.getElem?_eq_getElem (by omega)
    refine ⟨cs.set s.assignments_[i] (to_uint32 (cs[s.assignments_[i]] + 1)), ?_,
      by simpa using hlen, by omega⟩
    simp only [vec_at_of_getElem? hai, LOOM_ASSERT1, hlvl, ge_iff_le, if_true, hk,
      decide_True, LOOM_ASSERT_true, vec_at_of_getElem? hcs, bind, Except.bind,
      vec_set_of_lt _ (show s.assignments_[i] < cs.length by omega)]
  · right
    simp only [vec_at_of_getElem? hai, LOOM_ASSERT1, hlvl, ge_iff_le, if_true, hk,
      decide_False, LOOM_ASSERT_false, bind, Except.bind]

/-- C9. Hyperparameters are validated at sampler construction. For a non-empty
likelihood matrix with equal-length rows and a matching in-range assignment
vector: when `alpha ≤ 0`, `d < 0` or `d ≥ 1` the constructor ends in the abort
of a failed assertion (and it returns no sampler whatever the matrix and the
assignment vector are); when `alpha > 0` and `0 ≤ d < 1` it returns a
sampler. -/
theorem hyperparameters_validated (lvl : Nat) (clustering : PitmanYor)
    (likelihoods : List (List ℚ)) (assignments : List Nat) (row0 : List ℚ)
    (hrow0 : likelihoods[0]? = some row0)
    (hrows : ∀ row ∈ likelihoods, row.length = row0.length)
    (hlen : likelihoods.length = assignments.length)
    (hA : ∀ a ∈ assignments, a < row0.length) :
    ((clustering.alpha ≤ 0 ∨ clustering.d < 0 ∨ 1 ≤ clustering.d) →
      BlockPitmanYorSampler.BlockPitmanYorSampler lvl clustering likelihoods
          assignments = .error .abort ∧
      ∀ (L : List (List ℚ)) (A : List Nat) (s : BlockPitmanYorSampler),
        BlockPitmanYorSampler.BlockPitmanYorSampler lvl clustering L A ≠ .ok s) ∧
    ((0 < clustering.alpha ∧ 0 ≤ clustering.d ∧ clustering.d < 1) →
      ∃ s, BlockPitmanYorSampler.BlockPitmanYorSampler lvl clustering likelihoods
        assignments = .ok s) := by
  refine ⟨fun hbad => ⟨?_, fun L A s hs => ?_⟩,
    fun ⟨h1, h2, h3⟩ =>
      constructor_valid lvl clustering likelihoods assignments row0 hrow0 h1 h2 h3 hlen
        hrows hA⟩
  · obtain ⟨counts, hcounts, hcl, -⟩ := get_counts_from_assignments_valid lvl
      { alpha_ := clustering.alpha, d_ := clustering.d, feature_count_ := likelihoods.length,
        kind_count_ := row0.length, likelihoods_ := likelihoods, assignments_ := assignments,
        counts_ := [], empty_kinds_ := [], empty_kind_count_ := 0, prior_ := [],
        posterior_ := [] }
      (by simp [hlen]) (fun f _ a ha => hA a (List.getElem?_mem ha))
    obtain ⟨E, hE, -⟩ := get_empty_kinds_from_counts_spec
      { alpha_ := clustering.alpha, d_ := clustering.d, feature_count_ := likelihoods.length,
        kind_count_ := row0.length, likelihoods_ := likelihoods, assignments_ := assignments,
        counts_ := counts, empty_kinds_ := [], empty_kind_count_ := 0, prior_ := [],
        posterior_ := [] }
      (by simp [hcl])
    obtain ⟨prior, hprior, -⟩ := get_prior_from_counts_spec
      { alpha_ := clustering.alpha, d_ := clustering.d, feature_count_ := likelihoods.length,
        kind_count_ := row0.length, likelihoods_ := likelihoods, assignments_ := assignments,
        counts_ := counts, empty_kinds_ := E, empty_kind_count_ := E.length, prior_ := [],
        posterior_ := [] }
      (by simp [hcl])
    unfold BlockPitmanYorSampler.BlockPitmanYorSampler
    simp only [vec_at_of_getElem? hrow0, hcounts, hE, hprior, bind, Except.bind]
    rcases LOOM_ASSERT_cases (decide (0 < clustering.alpha)) with h1 | h1
    · rcases LOOM_ASSERT_cases (decide (0 ≤ clustering.d)) with h2 | h2
      · rcases LOOM_ASSERT_cases (decide (clustering.d < 1)) with h3 | h3
        · exfalso
          rw [LOOM_ASSERT_eq_ok, decide_eq_true_eq] at h1 h2 h3
          rcases hbad with h | h | h
          · exact absurd h1 (not_lt.2 h)
          · exact absurd h2 (not_le.2 h)
          · exact absurd h3 (not_lt.2 h)
        · simp only [h1, h2, h3]
      · simp only [h1, h2]
    · simp only [h1]
  · obtain ⟨-, -, -, ⟨h1, h2, h3, -⟩, -⟩ := constructor_ok hs
    rcases hbad with h | h | h
    · exact absurd h1 (not_lt.2 h)
    · exact absurd h2 (not_le.2 h)
    · exact absurd h3 (not_lt.2 h)

theorem hyperparameters_validated_witness :
    (BlockPitmanYorSampler.BlockPitmanYorSampler 3 ⟨0, 1 / 2⟩ example_likelihoods [0, 1] =
        .error .abort ∧
      ∀ (L : List (List ℚ)) (A : List Nat) (s : BlockPitmanYorSampler),
        BlockPitmanYorSampler.BlockPitmanYorSampler 3 ⟨0, 1 / 2⟩ L A ≠ .ok s) ∧
    ∃ s, BlockPitmanYorSampler.BlockPitmanYorSampler 3 ⟨1, 1 / 2⟩ example_likelihoods
      [0, 1] = .ok s :=
  ⟨(hyperparameters_validated 3 ⟨0, 1 / 2⟩ example_likelihoods [0, 1] [1, 1, 1]
      (by simp [example_likelihoods]) (by simp [example_likelihoods])
      (by simp [example_likelihoods]) (by simp)).1 (Or.inl (le_refl 0)),
    (hyperparameters_validated 3 ⟨1, 1 / 2⟩ example_likelihoods [0, 1] [1, 1, 1]
      (by simp [example_likelihoods]) (by simp [example_likelihoods])
      (by simp [example_likelihoods]) (by simp)).2 ⟨by norm_num, by norm_num, by norm_num⟩⟩

/-- C10 (as the code has it). With `LOOM_ASSERT1` compiled in
(`LOOM_DEBUG_LEVEL ≥ 1`), for every non-empty likelihood matrix, of `K`
columns, and every initial assignment vector that contains an entry `≥ K`,
the constructor ends in the abort of a failed assertion: it returns no sampler
and makes no out-of-range access. -/
theorem bad_assignment_rejected_when_checked (lvl : Nat) (hlvl : 1 ≤ lvl)
    (clustering : PitmanYor) (likelihoods : List (List ℚ)) (assignments : List Nat)
    (row0 : List ℚ) (hrow0 : likelihoods[0]? = some row0) (j a : Nat)
    (hj : assignments[j]? = some a) (ha : row0.length ≤ a) :
    BlockPitmanYorSampler.BlockPitmanYorSampler lvl clustering likelihoods assignments =
      .error .abort := by
  have hjlt : j < assignments.length := by
    by_contra h
    rw [List.getElem?_eq_none (by omega)] at hj
    exact Option.noConfusion hj
  unfold BlockPitmanYorSampler.BlockPitmanYorSampler
  rcases get_counts_from_assignments_checked hlvl
      { alpha_ := clustering.alpha, d_ := clustering.d, feature_count_ := likelihoods.length,
        kind_count_ := row0.length, likelihoods_ := likelihoods, assignments_ := assignments,
        counts_ := [], empty_kinds_ := [], empty_kind_count_ := 0, prior_ := [],
        posterior_ := [] } (j := j) (a := a) hj ha with ⟨counts, hcounts, hcl, hFj⟩ | habort
  · obtain ⟨E, hE, -⟩ := get_empty_kinds_from_counts_spec
      { alpha_ := clustering.alpha, d_ := clustering.d, feature_count_ := likelihoods.length,
        kind_count_ := row0.length, likelihoods_ := likelihoods, assignments_ := assignments,
        counts_ := counts, empty_kinds_ := [], empty_kind_count_ := 0, prior_ := [],
        posterior_ := [] }
      (by simp [hcl])
    obtain ⟨prior, hprior, -⟩ := get_prior_from_counts_spec
      { alpha_ := clustering.alpha, d_ := clustering.d, feature_count_ := likelihoods.length,
        kind_count_ := row0.length, likelihoods_ := likelihoods, assignments_ := assignments,
        counts_ := counts, empty_kinds_ := E, empty_kind_count_ := E.length, prior_ := [],
        posterior_ := [] }
      (by simp [hcl])
    have hsize : (likelihoods.length == assignments.length) = false := by
      have : likelihoods.length ≠ assignments.length := by
        have : likelihoods.length ≤ j := hFj
        omega
      simpa using this
    simp only [vec_at_of_getElem? hrow0, hcounts, hE, hprior, hsize, LOOM_ASSERT_false,
      ok_bind, error_bind]
    exact assert_chain_abort _ _ _ _
  · simp only [vec_at_of_getElem? hrow0, habort, ok_bind, error_bind]

theorem bad_assignment_rejected_when_checked_witness :
    BlockPitmanYorSampler.BlockPitmanYorSampler 1 ⟨1, 1 / 2⟩ [[1]] [1] = .error .abort :=
  bad_assignment_rejected_when_checked 1 (le_refl 1) ⟨1, 1 / 2⟩ [[1]] [1] [1] rfl 0 1 rfl
    (by decide)

/-- C10 (where the claim fails). In a build without `LOOM_ASSERT1`
(`LOOM_DEBUG_LEVEL = 0`), a one-column matrix with the assignment vector `[1]`
is not rejected by an assertion: `get_counts_from_assignments` executes
`++counts[1]` on a counts vector of length 1, an out-of-range increment. -/
theorem bad_assignment_unchecked_at_level_zero :
    BlockPitmanYorSampler.BlockPitmanYorSampler 0 ⟨1, 1 / 2⟩ [[1]] [1] =
        .error .out_of_range ∧
      get_counts_from_assignments 0 ⟨1, 1 / 2, 1, 1, [[1]], [1], [], [], 0, [], []⟩ =
        .error .out_of_range := by
  constructor <;>
    simp [BlockPitmanYorSampler.BlockPitmanYorSampler, get_counts_from_assignments,
      for_loop, vec_at, vec_set, LOOM_ASSERT1, bind, Except.bind]

/-! ## The feature-type registry -/

/-- C15. Feature-type iteration order is fixed: `for_each_feature_type` invokes
the callback exactly five times, once per tag, in the order `DD16`, `DD256`,
`DPD`, `GP`, `NICH` (it is the ordered iteration over that list, and a callback
that logs its tag leaves that list); `for_some_feature_type` tries the tags in
the same order, stops at the first tag for which the callback returns true, and
returns true if and only if the callback returned true for some tag (it is the
short-circuit search over that list; for a callback that logs its tag and
answers by a predicate `p`, the answer is true exactly when `p` holds of some
tag, and the log is the list of tags up to and including the first one
satisfying `p`). -/
theorem feature_type_order_fixed :
    (∀ (σ : Type) (fn : FeatureType → σ → σ) (s : σ),
      for_each_feature_type fn s = visit_each feature_type_order fn s) ∧
    for_each_feature_type (fun t (log : List FeatureType) => log ++ [t]) [] =
      [.DD16, .DD256, .DPD, .GP, .NICH] ∧
    (∀ (σ : Type) (fn : FeatureType → σ → Bool × σ) (s : σ),
      for_some_feature_type fn s = search_some feature_type_order fn s) ∧
    ∀ p : FeatureType → Bool,
      ((for_some_feature_type (fun t (log : List FeatureType) => (p t, log ++ [t])) []).1 = true ↔
        ∃ t, p t = true) ∧
      (for_some_feature_type (fun t (log : List FeatureType) => (p t, log ++ [t])) []).2 =
        feature_type_order.takeWhile (fun t => !p t) ++
          (feature_type_order.dropWhile (fun t => !p t)).take 1 := by
  refine ⟨fun σ fn s => rfl, rfl, fun σ fn s => ?_, fun p => ⟨?_, ?_⟩⟩
  · simp only [for_some_feature_type, search_some, feature_type_order]
    split_ifs <;> first | rfl | (apply Prod.ext <;> simp_all)
  · constructor
    · intro h
      simp only [for_some_feature_type] at h
      by_cases h1 : p .DD16 = true
      · exact ⟨_, h1⟩
      · by_cases h2 : p .DD256 = true
        · exact ⟨_, h2⟩
        · by_cases h3 : p .DPD = true
          · exact ⟨_, h3⟩
          · by_cases h4 : p .GP = true
            · exact ⟨_, h4⟩
            · simp only [h1, h2, h3, h4, if_false] at h
              exact ⟨_, h⟩
    · rintro ⟨t, ht⟩
      simp only [for_some_feature_type]
      cases t <;> split_ifs <;> simp_all
  · simp only [for_some_feature_type, feature_type_order]
    cases h1 : p .DD16 <;> cases h2 : p .DD256 <;> cases h3 : p .DPD <;>
      cases h4 : p .GP <;> cases h5 : p .NICH <;>
      simp [List.takeWhile, List.dropWhile, h1, h2, h3, h4, h5]

/-! ## The posterior kernel, in full -/

/-- What `compute_posterior` returns when the likelihood row and the output
buffer are at least as long as the prior: the sum of the products, and the
buffer with its first `prior_in.size()` entries overwritten by the products. -/
theorem compute_posterior_spec (p l o : List ℚ) (hl : p.length ≤ l.length)
    (ho : p.length ≤ o.length) :
    ∃ post, compute_posterior p l o = .ok ((List.zipWith (· * ·) p l).sum, post) ∧
      post.length = o.length ∧
      (∀ k, k < p.length → post[k]? = (List.zipWith (· * ·) p l)[k]?) ∧
      ∀ k, p.length ≤ k → post[k]? = o[k]? := by
  have hzl : (List.zipWith (· * ·) p l).length = p.length := by
    rw [List.length_zipWith]
    exact min_eq_left hl
  unfold compute_posterior
  obtain ⟨acc, hacc, htot, hlen, hlow, hhigh⟩ := for_loop_inv
    (fun i (acc : ℚ × List ℚ) =>
      acc.1 = ((List.zipWith (· * ·) p l).take i).sum ∧ acc.2.length = o.length ∧
      (∀ k, k < i → acc.2[k]? = (List.zipWith (· * ·) p l)[k]?) ∧
      ∀ k, i ≤ k → acc.2[k]? = o[k]?) p.length
    (fun i (acc : ℚ × List ℚ) => do
      let p ← vec_at p i
      let l ← vec_at l i
      let posterior ← vec_set acc.2 i (p * l)
      pure (acc.1 + p * l, posterior))
    (0, o) ⟨by simp, rfl, fun k hk => absurd hk (Nat.not_lt_zero k), fun _ _ => rfl⟩ (by
      rintro i hi ⟨tot, post⟩ ⟨htot, hpost, hlow, hhigh⟩
      simp only at htot hpost hlow hhigh
      have h1 : p[i]? = some p[i] := List.getElem?_eq_getElem hi
      have hi2 : i < l.length := by omega
      have h2 : l[i]? = some l[i] := List.getElem?_eq_getElem hi2
      have hz : (List.zipWith (· * ·) p l)[i]? = some (p[i] * l[i]) := by
        rw [List.getElem?_zipWith, h1, h2]
      refine ⟨(tot + p[i] * l[i], post.set i (p[i] * l[i])), ?_, ?_, ?_, ?_, ?_⟩
      · simp only [vec_at_of_getElem? h1, vec_at_of_getElem? h2, bind, Except.bind,
          vec_set_of_lt _ (show i < post.length by omega), pure, Except.pure]
      · simp only
        rw [take_succ_of_getElem? hz, List.sum_append, htot]
        simp
      · simpa using hpost
      · intro k hk
        simp only
        rw [List.getElem?_set]
        by_cases hik : i = k
        · subst hik
          simp [hz, show i < post.length by omega]
        · simp only [hik, if_false]
          exact hlow k (by omega)
      · intro k hk
        simp only
        rw [List.getElem?_set_ne (by omega)]
        exact hhigh k (by omega))
  refine ⟨acc.2, ?_, hlen, hlow, hhigh⟩
  rw [List.take_of_length_le (by rw [hzl])] at htot
  rw [hacc, ← htot]

/-- C17. The posterior kernel is the element-wise product and its sum, in
exact arithmetic: for every prior vector `P` and likelihood row `L` of the same
length `K`, and an output buffer of that length (as `posterior_` is),
`compute_posterior` returns; the buffer it leaves holds `P[k] * L[k]` at every
`k < K`, and the total it returns is the sum of those `K` products. `P` and `L`
are read-only arguments. -/
theorem posterior_is_product_and_sum (P L posterior_out : List ℚ)
    (hL : L.length = P.length) (ho : posterior_out.length = P.length) :
    compute_posterior P L posterior_out =
        .ok ((List.zipWith (· * ·) P L).sum, List.zipWith (· * ·) P L) ∧
      (List.zipWith (· * ·) P L).length = P.length ∧
      ∀ k, k < P.length → ∃ x y, P[k]? = some x ∧ L[k]? = some y ∧
        (List.zipWith (· * ·) P L)[k]? = some (x * y) := by
  have hzl : (List.zipWith (· * ·) P L).length = P.length := by
    rw [List.length_zipWith, hL]
    exact min_self _
  obtain ⟨post, hpost, hlen, hlow, -⟩ := compute_posterior_spec P L posterior_out
    (by omega) (by omega)
  have : post = List.zipWith (· * ·) P L := by
    apply List.ext_getElem?
    intro k
    by_cases hk : k < P.length
    · exact hlow k hk
    · rw [List.getElem?_eq_none (by omega), List.getElem?_eq_none (by omega)]
  subst this
  refine ⟨hpost, hzl, fun k hk => ?_⟩
  have hk2 : k < L.length := by omega
  exact ⟨P[k], L[k], List.getElem?_eq_getElem hk, List.getElem?_eq_getElem hk2, by
    rw [List.getElem?_zipWith, List.getElem?_eq_getElem hk, List.getElem?_eq_getElem hk2]⟩

theorem posterior_is_product_and_sum_witness :
    compute_posterior [1 / 2, 1 / 2, 2] [1, 2, 3] [0, 0, 0] =
        .ok ((List.zipWith (· * ·) [1 / 2, 1 / 2, 2] [1, 2, 3]).sum,
          List.zipWith (· * ·) [1 / 2, 1 / 2, 2] [1, 2, 3]) ∧
      (List.zipWith (· * ·) ([1 / 2, 1 / 2, 2] : List ℚ) [1, 2, 3]).length =
        ([1 / 2, 1 / 2, 2] : List ℚ).length ∧
      ∀ k, k < ([1 / 2, 1 / 2, 2] : List ℚ).length → ∃ x y,
        ([1 / 2, 1 / 2, 2] : List ℚ)[k]? = some x ∧ ([1, 2, 3] : List ℚ)[k]? = some y ∧
        (List.zipWith (· * ·) ([1 / 2, 1 / 2, 2] : List ℚ) [1, 2, 3])[k]? = some (x * y) :=
  posterior_is_product_and_sum [1 / 2, 1 / 2, 2] [1, 2, 3] [0, 0, 0] rfl rfl

/-! ## One step of `run`, in detail -/

theorem set_same {α : Type} {xs : List α} {i : Nat} {x : α} (h : xs[i]? = some x) :
    xs.set i x = xs := by
  apply List.ext_getElem?
  intro k
  rw [List.getElem?_set]
  by_cases hik : i = k
  · subst hik
    have hlt : i < xs.length := by
      by_contra hn
      rw [List.getElem?_eq_none (by omega)] at h
      exact Option.noConfusion h
    simp [hlt, h]
  · simp [hik]

/-- From a consistent state, the step for feature `f < F` computes the
posterior and its total, hands both to the oracle whatever the total is, and
returns with feature `f` assigned the kind the oracle drew. -/
theorem run_step_detail {Rng : Type} (lvl : Nat)
    (sample : Rng → List ℚ → ℚ → Nat × Rng) (horacle : OracleInRange sample)
    {s : BlockPitmanYorSampler} (hs : Inv s) {f : Nat} (hf : f < s.feature_count_)
    (rng : Rng) :
    ∃ row post old t,
      s.likelihoods_[f]? = some row ∧ row.length = s.kind_count_ ∧
      s.assignments_[f]? = some old ∧
      compute_posterior s.prior_ row s.posterior_ =
        .ok ((List.zipWith (· * ·) s.prior_ row).sum, post) ∧
      (sample rng post (List.zipWith (· * ·) s.prior_ row).sum).1 < s.kind_count_ ∧
      run_step lvl sample f (s, rng) =
        .ok (t, (sample rng post (List.zipWith (· * ·) s.prior_ row).sum).2) ∧
      Inv t ∧ SameProblem s t ∧
      t.assignments_ =
        s.assignments_.set f (sample rng post (List.zipWith (· * ·) s.prior_ row).sum).1 ∧
      t.posterior_ = post ∧
      ((sample rng post (List.zipWith (· * ·) s.prior_ row).sum).1 = old →
        t.counts_ = s.counts_ ∧ t.empty_kinds_ = s.empty_kinds_ ∧
        t.empty_kind_count_ = s.empty_kind_count_ ∧ t.prior_ = s.prior_) := by
  have hfL : f < s.likelihoods_.length := by rw [hs.likelihoods_length]; exact hf
  have hfA : f < s.assignments_.length := by rw [hs.assignments_length]; exact hf
  have hrow : s.likelihoods_[f]? = some s.likelihoods_[f] := List.getElem?_eq_getElem hfL
  have hrowlen := hs.row_length _ (List.getElem_mem hfL)
  have hold : s.assignments_[f]? = some s.assignments_[f] := List.getElem?_eq_getElem hfA
  obtain ⟨post, hpost, hpostlen, -, -⟩ := compute_posterior_spec s.prior_ s.likelihoods_[f]
    s.posterior_ (by rw [hs.prior_length, hrowlen])
    (by rw [hs.prior_length, hs.posterior_length])
  suffices key : ∀ total, compute_posterior s.prior_ s.likelihoods_[f] s.posterior_ =
      .ok (total, post) → ∃ t, (sample rng post total).1 < s.kind_count_ ∧
        run_step lvl sample f (s, rng) = .ok (t, (sample rng post total).2) ∧
        Inv t ∧ SameProblem s t ∧
        t.assignments_ = s.assignments_.set f (sample rng post total).1 ∧
        t.posterior_ = post ∧
        ((sample rng post total).1 = s.assignments_[f] →
          t.counts_ = s.counts_ ∧ t.empty_kinds_ = s.empty_kinds_ ∧
          t.empty_kind_count_ = s.empty_kind_count_ ∧ t.prior_ = s.prior_) by
    obtain ⟨t, h1, h2, h3, h4, h5, h6, h7⟩ := key _ hpost
    exact ⟨_, post, _, t, hrow, hrowlen, hold, hpost, h1, h2, h3, h4, h5, h6, h7⟩
  intro total hpost
  have hnew : (sample rng post total).1 < s.kind_count_ := by
    have := horacle rng post total (by rw [hpostlen, hs.posterior_length]; exact hs.kind_count_pos)
    rwa [hpostlen, hs.posterior_length] at this
  have hs1 : Inv { s with posterior_ := post } :=
    { hs with posterior_length := by rw [← hs.posterior_length]; exact hpostlen }
  by_cases hsame : (sample rng post total).1 = s.assignments_[f]
  · refine ⟨{ s with posterior_ := post }, hnew, ?_,
      hs1, ⟨rfl, rfl, rfl, rfl, rfl⟩, ?_, rfl, fun _ => ⟨rfl, rfl, rfl, rfl⟩⟩
    · unfold run_step
      simp only [vec_at_of_getElem? hrow, hpost, vec_at_of_getElem? hold, bind, Except.bind]
      simp only [hsame, ne_eq, not_true_eq_false, if_false, pure, Except.pure]
      by_cases hl : lvl ≥ 3
      · simp only [hl, if_true, validate_ok lvl hs1]
      · simp only [hl, if_false]
    · rw [hsame]
      exact (set_same hold).symm
  · obtain ⟨t, ht, htinv, hA, hP, h3, h4, h5, h6, h7⟩ :=
      @reassign_spec _ hs1 f s.assignments_[f] _ hold hnew hsame
    refine ⟨t, hnew, ?_, htinv, ⟨h6, h7, h4, h5, h3⟩, hA, hP, fun h => absurd h hsame⟩
    unfold run_step
    simp only [vec_at_of_getElem? hrow, hpost, vec_at_of_getElem? hold, bind, Except.bind]
    simp only [hsame, ne_eq, not_false_eq_true, if_true, ht, pure, Except.pure]
    by_cases hl : lvl ≥ 3
    · simp only [hl, if_true, validate_ok lvl htinv]
    · simp only [hl, if_false]

/-! ## The posterior total is not checked -/

theorem example_zero_row_constructed :
    BlockPitmanYorSampler.BlockPitmanYorSampler 3 ⟨1, 1 / 2⟩ [[0, 0]] [0] =
      .ok example_zero_row := by
  simp [BlockPitmanYorSampler.BlockPitmanYorSampler, get_counts_from_assignments,
    get_empty_kinds_from_counts, get_prior_from_counts, get_likelihood_empty, for_loop,
    for_each, vec_at, vec_set, LOOM_ASSERT, LOOM_ASSERT1, IdSet.insert, to_uint32,
    to_size_t, bind, Except.bind, pure, Except.pure, example_zero_row]
  norm_num

/-- C13 (as the code has it). The step makes no check of the posterior total:
in every state reached from a constructed sampler, for every feature `f < F`,
whatever the total is (hence also when it is `≤ 0`), the step computes the
posterior and its total, passes both to the sampling oracle, and returns with
feature `f` assigned the kind the oracle drew. Sizes are within the ranges of
the counters, as in C1. -/
theorem total_is_passed_to_oracle_unchecked {Rng : Type} (lvl : Nat)
    (sample : Rng → List ℚ → ℚ → Nat × Rng) (horacle : OracleInRange sample)
    (clustering : PitmanYor) (likelihoods : List (List ℚ)) (assignments : List Nat)
    (s0 : BlockPitmanYorSampler)
    (hctor : BlockPitmanYorSampler.BlockPitmanYorSampler lvl clustering likelihoods
      assignments = .ok s0)
    (hF : likelihoods.length < 2 ^ 32) (hK : ∀ row ∈ likelihoods, row.length ≤ 2 ^ 32)
    (rng0 : Rng) (st : BlockPitmanYorSampler × Rng)
    (hreach : Reachable lvl sample (s0, rng0) st) (f : Nat) (hf : f < st.1.feature_count_) :
    ∃ row post t,
      st.1.likelihoods_[f]? = some row ∧
      compute_posterior st.1.prior_ row st.1.posterior_ =
        .ok ((List.zipWith (· * ·) st.1.prior_ row).sum, post) ∧
      run_step lvl sample f st =
        .ok (t, (sample st.2 post (List.zipWith (· * ·) st.1.prior_ row).sum).2) ∧
      t.assignments_ = st.1.assignments_.set f
        (sample st.2 post (List.zipWith (· * ·) st.1.prior_ row).sum).1 := by
  obtain ⟨hs, -⟩ := reachable_inv horacle (constructed_inv hctor hF hK).1 hreach
  obtain ⟨row, post, old, t, h1, -, -, h4, -, h6, -, -, h9, -⟩ :=
    run_step_detail lvl sample horacle hs hf st.2
  exact ⟨row, post, t, h1, h4, h6, h9⟩

theorem total_is_passed_to_oracle_unchecked_witness :
    ∃ row post t,
      example_zero_row.likelihoods_[0]? = some row ∧
      compute_posterior example_zero_row.prior_ row example_zero_row.posterior_ =
        .ok ((List.zipWith (· * ·) example_zero_row.prior_ row).sum, post) ∧
      run_step 3 example_oracle 0 (example_zero_row, 1) =
        .ok (t, (example_oracle 1 post
          (List.zipWith (· * ·) example_zero_row.prior_ row).sum).2) ∧
      t.assignments_ = example_zero_row.assignments_.set 0
        (example_oracle 1 post (List.zipWith (· * ·) example_zero_row.prior_ row).sum).1 :=
  total_is_passed_to_oracle_unchecked 3 example_oracle example_oracle_in_range ⟨1, 1 / 2⟩
    [[0, 0]] [0] example_zero_row example_zero_row_constructed (by simp) (by simp) 1
    (example_zero_row, 1) (Reachable.refl _) 0 (by decide)

/-- C13 (where the claim fails). In `example_zero_row` the posterior of feature
0 is `[0, 0]` and its total is `0`; the step does not fail: it calls the oracle
(the rng advances from 1 to 2) and moves feature 0 from kind 0 to kind 1. -/
theorem zero_total_step_returns :
    compute_posterior example_zero_row.prior_ [0, 0] example_zero_row.posterior_ =
        .ok (0, [0, 0]) ∧
      run_step 3 example_oracle 0 (example_zero_row, 1) = .ok (example_zero_row_moved, 2) ∧
      example_zero_row.assignments_ = [0] ∧ example_zero_row_moved.assignments_ = [1] := by
  refine ⟨?_, ?_, rfl, rfl⟩
  · simp [compute_posterior, for_loop, vec_at, vec_set, bind, Except.bind, pure,
      Except.pure, example_zero_row]
  · simp [run_step, reassign, validate, compute_posterior, get_counts_from_assignments,
      get_prior_from_counts, get_likelihood_empty, for_loop, for_each, vec_at, vec_set,
      LOOM_ASSERT, LOOM_ASSERT1, LOOM_ASSERT_CLOSE, IdSet.insert, IdSet.erase,
      IdSet.contains, to_uint32, to_size_t, bind, Except.bind, pure, Except.pure,
      example_oracle, example_zero_row, example_zero_row_moved]
    norm_num

/-! ## Positivity of the prior and of the total -/

theorem Inv.priorPositive {s : BlockPitmanYorSampler} (hs : Inv s) : PriorPositive s := by
  intro k hk
  refine ⟨s.assignments_.count k, prior_of_count s (s.assignments_.count k),
    hs.counts_eq k hk, hs.prior_eq k hk, ?_⟩
  have hd := hs.d_lt_one
  have ha := hs.alpha_pos
  have hd0 := hs.d_nonneg
  by_cases hc : s.assignments_.count k = 0
  · have hmem : k ∈ s.empty_kinds_ := (hs.mem_empty k).2 ⟨hk, hc⟩
    have hpos : 0 < s.empty_kinds_.length := List.length_pos_of_mem hmem
    have hle := hs.empty_length_le
    have hK := hs.kind_count_le
    have hsz : to_size_t (s.kind_count_ + 2 ^ 64 - s.empty_kinds_.length) =
        s.kind_count_ - s.empty_kinds_.length := by
      unfold to_size_t
      omega
    have hval : prior_of_count s (s.assignments_.count k) =
        (s.alpha_ + s.d_ * ((s.kind_count_ - s.empty_kinds_.length : Nat) : ℚ)) /
          (s.empty_kinds_.length : ℚ) := by
      simp only [hc, prior_of_count, ne_eq, not_true_eq_false, if_false,
        get_likelihood_empty_eq, likelihood_empty, hs.empty_kind_count_eq, hsz]
      rw [if_pos (by omega)]
    have hEpos : (0 : ℚ) < (s.empty_kinds_.length : ℚ) := by exact_mod_cast hpos
    have hnn : (0 : ℚ) ≤ s.d_ * ((s.kind_count_ - s.empty_kinds_.length : Nat) : ℚ) :=
      mul_nonneg hd0 (Nat.cast_nonneg _)
    have hbound : s.alpha_ / (s.empty_kinds_.length : ℚ) ≤
        prior_of_count s (s.assignments_.count k) := by
      rw [hval]
      exact div_le_div_of_nonneg_right (by linarith) (le_of_lt hEpos)
    have hq : 0 < s.alpha_ / (s.empty_kinds_.length : ℚ) := div_pos ha hEpos
    rw [hs.card_empty]
    exact ⟨lt_of_lt_of_le hq hbound, fun h => absurd hc (by omega),
      fun _ => ⟨hpos, hbound, hq⟩⟩
  · have h1 : (1 : ℚ) ≤ (s.assignments_.count k : ℚ) := by
      exact_mod_cast Nat.one_le_iff_ne_zero.2 hc
    have hval : prior_of_count s (s.assignments_.count k) =
        (s.assignments_.count k : ℚ) - s.d_ := by
      simp only [prior_of_count, ne_eq, hc, not_false_eq_true, if_true]
    rw [hval]
    exact ⟨by linarith, fun _ => ⟨by linarith, by linarith⟩, fun h => absurd h hc⟩

theorem Inv.totalPositive {s : BlockPitmanYorSampler} (hs : Inv s) : TotalPositive s := by
  intro row hrow hnn ⟨x, hx, hxpos⟩
  obtain ⟨post, hpost, -⟩ := compute_posterior_spec s.prior_ row s.posterior_
    (by rw [hs.prior_length, hrow]) (by rw [hs.prior_length, hs.posterior_length])
  refine ⟨_, post, hpost, ?_⟩
  have hP := hs.priorPositive
  have hall : ∀ y ∈ List.zipWith (· * ·) s.prior_ row, 0 ≤ y := by
    intro y hy
    obtain ⟨k, hk⟩ := List.mem_iff_getElem?.1 hy
    rw [List.getElem?_zipWith] at hk
    cases hp : s.prior_[k]? with
    | none => simp [hp] at hk
    | some p =>
      cases hr : row[k]? with
      | none => simp [hp, hr] at hk
      | some r =>
        simp only [hp, hr, Option.some.injEq] at hk
        have hklt : k < s.kind_count_ := by
          rw [← hs.prior_length]
          by_contra hn
          rw [List.getElem?_eq_none (by omega)] at hp
          exact Option.noConfusion hp
        obtain ⟨c, p', -, hp', hpos, -⟩ := hP k hklt
        rw [hp] at hp'
        simp only [Option.some.injEq] at hp'
        subst hp'
        rw [← hk]
        exact mul_nonneg (le_of_lt hpos) (hnn r (List.getElem?_mem hr))
  obtain ⟨k, hk⟩ := List.mem_iff_getElem?.1 hx
  have hklt : k < s.kind_count_ := by
    rw [← hrow]
    by_contra hn
    rw [List.getElem?_eq_none (by omega)] at hk
    exact Option.noConfusion hk
  obtain ⟨c, p, -, hp, hpos, -⟩ := hP k hklt
  have hmem : p * x ∈ List.zipWith (· * ·) s.prior_ row := by
    apply List.getElem?_mem (n := k)
    rw [List.getElem?_zipWith, hp, hk]
  exact lt_of_lt_of_le (mul_pos hpos hxpos) (List.single_le_sum hall _ hmem)

/-- C18 (in exact arithmetic). With the `float` operations read as operations
on exact numbers, every prior weight is strictly positive: in every state
reached from a constructed sampler (so `alpha > 0`, `0 ≤ d < 1`, `F ≥ 1`) by per-feature
steps of `run`, `prior_[k] > 0` for every kind `k`, with
`prior_[k] ≥ 1 - d > 0` for an occupied kind and `prior_[k] ≥ alpha / |E| > 0`
for an empty one; consequently, for every likelihood row of length `K` with
non-negative entries and at least one positive entry, the posterior total that
`compute_posterior` returns is `> 0`. Every further step returns, in a state
with the same properties. Sizes are within the ranges of the counters, as in
C1. -/
theorem prior_weights_positive {Rng : Type} (lvl : Nat)
    (sample : Rng → List ℚ → ℚ → Nat × Rng) (horacle : OracleInRange sample)
    (clustering : PitmanYor) (likelihoods : List (List ℚ)) (assignments : List Nat)
    (s0 : BlockPitmanYorSampler)
    (hctor : BlockPitmanYorSampler.BlockPitmanYorSampler lvl clustering likelihoods
      assignments = .ok s0)
    (hF : likelihoods.length < 2 ^ 32) (hK : ∀ row ∈ likelihoods, row.length ≤ 2 ^ 32)
    (rng0 : Rng) (st : BlockPitmanYorSampler × Rng)
    (hreach : Reachable lvl sample (s0, rng0) st) :
    (PriorPositive st.1 ∧ TotalPositive st.1) ∧ ∀ f, f < st.1.feature_count_ →
      ∃ st', run_step lvl sample f st = .ok st' ∧ PriorPositive st'.1 ∧ TotalPositive st'.1 :=
  reachable_property horacle hctor hF hK hreach (fun s => PriorPositive s ∧ TotalPositive s)
    (fun _ h => ⟨h.priorPositive, h.totalPositive⟩)

theorem prior_weights_positive_witness :
    (PriorPositive example_moved ∧ TotalPositive example_moved) ∧
    ∀ f, f < example_moved.feature_count_ →
      ∃ st', run_step 3 example_oracle f (example_moved, 3) = .ok st' ∧
        PriorPositive st'.1 ∧ TotalPositive st'.1 :=
  prior_weights_positive 3 example_oracle example_oracle_in_range ⟨1, 1 / 2⟩
    example_likelihoods [0, 1] example_initial example_constructed example_sizes.1
    example_sizes.2 2 (example_moved, 3) example_reachable

/-! ## Rounding to binary32: what underflow does to the prior and the total -/

theorem round_half_even_intCast (n : ℤ) : round_half_even (n : ℚ) = n := by
  simp [round_half_even]

theorem round_half_even_half : round_half_even (1 / 2) = 0 := by
  have h : ⌊(1 / 2 : ℚ)⌋ = 0 := by
    rw [Int.floor_eq_iff]; norm_num
  rw [round_half_even, h]
  norm_num

theorem round_binary32_zero : round_binary32 0 = 0 := by
  have h := round_half_even_intCast 0
  rw [Int.cast_zero] at h
  simp [round_binary32, h]

theorem binary32_spacing_of_log {x : ℚ} {k : ℤ} (hk : -126 ≤ k)
    (h1 : (2 : ℚ) ^ k ≤ |x|) (h2 : |x| < 2 ^ (k + 1)) :
    binary32_spacing x = 2 ^ (k - 23) := by
  have hpos : 0 < |x| := lt_of_lt_of_le (by positivity) h1
  have hlog : Int.log 2 |x| = k := by
    apply le_antisymm
    · have := (Int.lt_zpow_iff_log_lt (by norm_num : 1 < 2) hpos).1 (by exact_mod_cast h2)
      omega
    · exact (Int.zpow_le_iff_le_log (by norm_num : 1 < 2) hpos).1 (by exact_mod_cast h1)
  have hnot : ¬ |x| < 2 ^ (-126 : ℤ) := by
    rw [not_lt]
    exact le_trans (zpow_le_zpow_right₀ (by norm_num) hk) h1
  rw [binary32_spacing, if_neg hnot, hlog]

/-- A multiple of the spacing of its own binade is a binary32 value. -/
theorem round_binary32_exact {x : ℚ} {k : ℤ} (hk : -126 ≤ k)
    (h1 : (2 : ℚ) ^ k ≤ |x|) (h2 : |x| < 2 ^ (k + 1)) (n : ℤ)
    (hn : x = n * 2 ^ (k - 23)) : round_binary32 x = x := by
  have hne : (2 : ℚ) ^ (k - 23) ≠ 0 := by positivity
  rw [round_binary32, binary32_spacing_of_log hk h1 h2]
  have hq : x / 2 ^ (k - 23) = (n : ℚ) := by
    rw [hn]; field_simp
  rw [hq, round_half_even_intCast, ← hn]

theorem binary32_spacing_subnormal {x : ℚ} (h : |x| < 2 ^ (-126 : ℤ)) :
    binary32_spacing x = 2 ^ (-149 : ℤ) := by
  rw [binary32_spacing, if_pos h]

theorem round_binary32_one : round_binary32 1 = 1 :=
  round_binary32_exact (k := 0) (by norm_num) (by norm_num) (by norm_num) (2 ^ 23)
    (by norm_num)

theorem round_binary32_two : round_binary32 2 = 2 :=
  round_binary32_exact (k := 1) (by norm_num) (by norm_num) (by norm_num) (2 ^ 23)
    (by norm_num)

theorem round_binary32_half : round_binary32 (1 / 2) = 1 / 2 :=
  round_binary32_exact (k := -1) (by norm_num) (by norm_num [abs_of_pos])
    (by norm_num [abs_of_pos]) (2 ^ 23) (by norm_num)

theorem round_binary32_three_halves : round_binary32 (3 / 2) = 3 / 2 :=
  round_binary32_exact (k := 0) (by norm_num) (by norm_num [abs_of_pos])
    (by norm_num [abs_of_pos]) (3 * 2 ^ 22) (by norm_num)

theorem binary32_least_pos : 0 < binary32_least := by
  unfold binary32_least
  positivity

theorem binary32_least_subnormal {x : ℚ} (h0 : 0 ≤ x) (h : x ≤ binary32_least) :
    |x| < 2 ^ (-126 : ℤ) := by
  rw [abs_of_nonneg h0]
  refine lt_of_le_of_lt h ?_
  unfold binary32_least
  exact zpow_lt_zpow_right₀ (by norm_num) (by norm_num)

/-- The least positive binary32 value is a binary32 value. -/
theorem round_binary32_least : round_binary32 binary32_least = binary32_least := by
  have h1 := round_half_even_intCast 1
  rw [Int.cast_one] at h1
  rw [round_binary32,
    binary32_spacing_subnormal (binary32_least_subnormal binary32_least_pos.le le_rfl)]
  unfold binary32_least
  rw [div_self (by positivity), h1, Int.cast_one, one_mul]

/-- Half of the least positive binary32 value is a tie between `0` and
`2 ^ (-149)`; it rounds to the even one, `0`. -/
theorem round_binary32_least_div_two : round_binary32 (binary32_least / 2) = 0 := by
  have hq : binary32_least / 2 / 2 ^ (-149 : ℤ) = 1 / 2 := by
    unfold binary32_least
    field_simp
  rw [round_binary32,
    binary32_spacing_subnormal (binary32_least_subnormal
      (by have := binary32_least_pos; positivity)
      (by have := binary32_least_pos; linarith)),
    hq, round_half_even_half, Int.cast_zero, zero_mul]

/-! ### The rounded functions are the exact ones when nothing is rounded -/

theorem get_likelihood_empty_rounded_id (s : BlockPitmanYorSampler) :
    s.get_likelihood_empty_rounded id = s.get_likelihood_empty := rfl

theorem get_prior_from_counts_rounded_id (s : BlockPitmanYorSampler) :
    s.get_prior_from_counts_rounded id = s.get_prior_from_counts := rfl

theorem compute_posterior_rounded_id (p l o : List ℚ) :
    compute_posterior_rounded id p l o = compute_posterior p l o := rfl

theorem constructor_rounded_id (lvl : Nat) (clustering : PitmanYor)
    (likelihoods : List (List ℚ)) (assignments : List Nat) :
    BlockPitmanYorSampler.BlockPitmanYorSampler_rounded id lvl clustering likelihoods
        assignments =
      BlockPitmanYorSampler.BlockPitmanYorSampler lvl clustering likelihoods assignments :=
  rfl

/-! ### Two binary32 samplers -/

theorem example_underflow_constructed :
    BlockPitmanYorSampler.BlockPitmanYorSampler_rounded round_binary32 3
      ⟨binary32_least, 0⟩ [[1, 1, 1]] [0] = .ok example_underflow := by
  simp [BlockPitmanYorSampler.BlockPitmanYorSampler_rounded, get_counts_from_assignments,
    get_empty_kinds_from_counts, get_prior_from_counts_rounded, get_likelihood_empty_rounded,
    for_loop, for_each, vec_at, vec_set, LOOM_ASSERT, LOOM_ASSERT1, IdSet.insert, to_uint32,
    to_size_t, bind, Except.bind, pure, Except.pure, example_underflow, round_binary32_zero,
    round_binary32_one, round_binary32_two, round_binary32_least,
    round_binary32_least_div_two, binary32_least_pos]

theorem round_binary32_inv_two : round_binary32 2⁻¹ = 2⁻¹ := by
  have h := round_binary32_half
  rwa [one_div] at h

theorem round_binary32_one_sub_inv_two : round_binary32 (1 - 2⁻¹) = 2⁻¹ := by
  have h : (1 : ℚ) - 2⁻¹ = 2⁻¹ := by norm_num
  rw [h, round_binary32_inv_two]

theorem example_tiny_row_constructed :
    BlockPitmanYorSampler.BlockPitmanYorSampler_rounded round_binary32 3
      ⟨1, 1 / 2⟩ [[binary32_least]] [0] = .ok example_tiny_row := by
  simp [BlockPitmanYorSampler.BlockPitmanYorSampler_rounded, get_counts_from_assignments,
    get_empty_kinds_from_counts, get_prior_from_counts_rounded, get_likelihood_empty_rounded,
    for_loop, for_each, vec_at, vec_set, LOOM_ASSERT, LOOM_ASSERT1, IdSet.insert, to_uint32,
    to_size_t, bind, Except.bind, pure, Except.pure, example_tiny_row, round_binary32_zero,
    round_binary32_one, round_binary32_inv_two, round_binary32_one_sub_inv_two]
  norm_num

theorem round_binary32_half_mul_least : round_binary32 (1 / 2 * binary32_least) = 0 := by
  have h : (1 / 2 : ℚ) * binary32_least = binary32_least / 2 := by ring
  rw [h, round_binary32_least_div_two]

theorem compute_posterior_rounded_tiny_row :
    compute_posterior_rounded round_binary32 [1 / 2] [binary32_least] [0] = .ok (0, [0]) := by
  simp only [compute_posterior_rounded, List.length_singleton, for_loop, vec_at, vec_set,
    ok_bind, List.getElem?_cons_zero, round_binary32_half_mul_least, zero_add,
    round_binary32_zero, List.length_cons, List.length_nil, Nat.zero_lt_one, if_true,
    List.set_cons_zero, pure, Except.pure, zero_lt_one, Nat.lt_add_one, reduceIte]

/-- C18 (where the claim fails). With every `float` operation rounded to
binary32, as the code computes. (1) `alpha = 2 ^ (-149) > 0`, `d = 0`, one
feature in kind 0 of three kinds: the constructor's assertions pass, and
`get_likelihood_empty` returns `(alpha + 0 * 1) / 2` rounded, which is `0`, so
in the constructed state the empty kinds 1 and 2 have prior weight `0`.
(2) `alpha = 1`, `d = 1/2`, one feature, one kind, likelihood row
`[2 ^ (-149)]` (non-negative, with a positive entry): the constructed state has
prior `[1/2]`, and `compute_posterior` on that prior and that row stores the
product `2 ^ (-150)` rounded, which is `0`, and returns the total `0`. -/
theorem prior_weight_underflows_in_binary32 :
    (0 < binary32_least ∧
      BlockPitmanYorSampler.BlockPitmanYorSampler_rounded round_binary32 3
        ⟨binary32_least, 0⟩ [[1, 1, 1]] [0] = .ok example_underflow ∧
      example_underflow.counts_ = [1, 0, 0] ∧ example_underflow.prior_ = [1, 0, 0]) ∧
    (0 < binary32_least ∧
      BlockPitmanYorSampler.BlockPitmanYorSampler_rounded round_binary32 3
        ⟨1, 1 / 2⟩ [[binary32_least]] [0] = .ok example_tiny_row ∧
      example_tiny_row.likelihoods_ = [[binary32_least]] ∧
      example_tiny_row.prior_ = [1 / 2] ∧ example_tiny_row.posterior_ = [0] ∧
      compute_posterior_rounded round_binary32 [1 / 2] [binary32_least] [0] = .ok (0, [0])) :=
  ⟨⟨binary32_least_pos, example_underflow_constructed, rfl, rfl⟩,
    binary32_least_pos, example_tiny_row_constructed, rfl, rfl, rfl,
    compute_posterior_rounded_tiny_row⟩

/-! ## What a move changes -/

/-- With at least one feature, at least one kind is occupied: the set of empty
kinds has fewer than `K` members. -/
theorem Inv.empty_length_lt {s : BlockPitmanYorSampler} (hs : Inv s) :
    s.empty_kinds_.length < s.kind_count_ := by
  have hF := hs.feature_count_pos
  obtain ⟨a, ha⟩ := List.exists_mem_of_length_pos
    (by rw [hs.assignments_length]; exact hF : 0 < s.assignments_.length)
  have haK := hs.assignments_lt a ha
  have hnot : a ∉ s.empty_kinds_ := by
    intro h
    have := ((hs.mem_empty a).1 h).2
    have hpos : 0 < s.assignments_.count a := List.count_pos_iff.2 ha
    omega
  rw [← List.toFinset_card_of_nodup hs.empty_nodup]
  have hsub : s.empty_kinds_.toFinset ⊆ (Finset.range s.kind_count_).erase a := by
    intro k hk
    rw [List.mem_toFinset] at hk
    rw [Finset.mem_erase, Finset.mem_range]
    exact ⟨fun h => hnot (h ▸ hk), ((hs.mem_empty k).1 hk).1⟩
  have hcard := Finset.card_le_card hsub
  rw [Finset.card_erase_of_mem (Finset.mem_range.2 haK), Finset.card_range] at hcard
  omega

/-- Two consistent states whose assignment vectors differ by writing position
`f` have sets of empty kinds whose sizes differ by at most one. -/
theorem empty_length_change {s t : BlockPitmanYorSampler} (hs : Inv s) (ht : Inv t)
    (hK : t.kind_count_ = s.kind_count_) {f old new : Nat}
    (hold : s.assignments_[f]? = some old)
    (hA : t.assignments_ = s.assignments_.set f new) :
    t.empty_kinds_.length ≤ s.empty_kinds_.length + 1 ∧
      s.empty_kinds_.length ≤ t.empty_kinds_.length + 1 := by
  by_cases hne : new = old
  · have hAA : t.assignments_ = s.assignments_ := by rw [hA, hne, set_same hold]
    have hperm : t.empty_kinds_.Perm s.empty_kinds_ :=
      (List.perm_ext_iff_of_nodup ht.empty_nodup hs.empty_nodup).2 (fun k => by
        rw [ht.mem_empty, hs.mem_empty, hK, hAA])
    rw [hperm.length_eq]
    omega
  · rw [← List.toFinset_card_of_nodup hs.empty_nodup,
      ← List.toFinset_card_of_nodup ht.empty_nodup]
    constructor
    · have hsub : t.empty_kinds_.toFinset ⊆ insert old s.empty_kinds_.toFinset := by
        intro k hk
        rw [List.mem_toFinset, ht.mem_empty, hK, hA, count_set_move hold hne k] at hk
        rw [Finset.mem_insert, List.mem_toFinset, hs.mem_empty]
        obtain ⟨hk1, hk2⟩ := hk
        by_cases h1 : k = new
        · rw [if_pos h1] at hk2
          omega
        · by_cases h2 : k = old
          · exact Or.inl h2
          · rw [if_neg h1, if_neg h2] at hk2
            exact Or.inr ⟨hk1, hk2⟩
      exact le_trans (Finset.card_le_card hsub) (Finset.card_insert_le _ _)
    · have hsub : s.empty_kinds_.toFinset ⊆ insert new t.empty_kinds_.toFinset := by
        intro k hk
        rw [List.mem_toFinset, hs.mem_empty] at hk
        rw [Finset.mem_insert, List.mem_toFinset, ht.mem_empty, hK, hA,
          count_set_move hold hne k]
        obtain ⟨hk1, hk2⟩ := hk
        by_cases h1 : k = new
        · exact Or.inl h1
        · by_cases h2 : k = old
          · have : 0 < s.assignments_.count old :=
              List.count_pos_iff.2 (List.getElem?_mem hold)
            rw [h2] at hk2
            omega
          · rw [if_neg h1, if_neg h2]
            exact Or.inr ⟨hk1, hk2⟩
      exact le_trans (Finset.card_le_card hsub) (Finset.card_insert_le _ _)

theorem Inv.countersSafe {s : BlockPitmanYorSampler} (hs : Inv s) {f : Nat}
    (hf : f < s.feature_count_) : CountersSafe s f := by
  have hfA : f < s.assignments_.length := by rw [hs.assignments_length]; exact hf
  have hold : s.assignments_[f]? = some s.assignments_[f] := List.getElem?_eq_getElem hfA
  have holdK : s.assignments_[f] < s.kind_count_ := hs.assignments_lt _ (List.getElem_mem hfA)
  have hcpos : 0 < s.assignments_.count s.assignments_[f] :=
    List.count_pos_iff.2 (List.getElem_mem hfA)
  have hFlt := hs.feature_count_lt
  have hlen := hs.assignments_length
  have hclt : ∀ k, s.assignments_.count k < 2 ^ 32 := fun k =>
    count_lt_of_length_lt (by rw [hlen]; exact hFlt) k
  refine ⟨⟨s.assignments_[f], _, hold, hs.counts_eq _ holdK, hcpos, ?_, fun new hnew hne => ?_⟩,
    by rw [hs.card_empty]; exact hs.empty_kind_count_eq,
    by rw [hs.card_empty]; exact hs.empty_length_lt⟩
  · have := hclt s.assignments_[f]
    unfold to_uint32
    omega
  · refine ⟨_, hs.counts_eq new hnew, ?_, fun h0 => ?_⟩
    · have h1 := List.count_le_length new (s.assignments_.set f new)
      rw [count_set_move hold hne new, if_pos rfl, List.length_set, hlen] at h1
      omega
    · have hmem : new ∈ s.empty_kinds_ := (hs.mem_empty new).2 ⟨hnew, h0⟩
      rw [hs.empty_kind_count_eq]
      exact List.length_pos_of_mem hmem

/-- The frame of a move, from the consistency of the states before and after
it. -/
theorem move_frame {s t : BlockPitmanYorSampler} (hs : Inv s) (ht : Inv t)
    (hsame : SameProblem s t) {f old new : Nat} (hold : s.assignments_[f]? = some old)
    (hne : new ≠ old) (hnew : new < s.kind_count_)
    (hA : t.assignments_ = s.assignments_.set f new) : MoveFrame s t f old new := by
  obtain ⟨-, hd, -, hK, -⟩ := hsame
  have holdK : old < s.kind_count_ := hs.assignments_lt old (List.getElem?_mem hold)
  have hcpos : 0 < s.assignments_.count old := List.count_pos_iff.2 (List.getElem?_mem hold)
  have hcount := fun k => count_set_move hold hne k
  refine ⟨fun g hg => ?_, ⟨_, hs.counts_eq old holdK, hcpos, ?_⟩,
    ⟨_, hs.counts_eq new hnew, ?_⟩, fun k hk1 hk2 => ?_, fun k hk1 hk2 c hc hpos => ?_⟩
  · rw [hA, List.getElem?_set_ne (Ne.symm hg)]
  · rw [ht.counts_eq old (by rw [hK]; exact holdK), hA, hcount old, if_neg (Ne.symm hne),
      if_pos rfl]
  · rw [ht.counts_eq new (by rw [hK]; exact hnew), hA, hcount new, if_pos rfl]
  · by_cases hk : k < s.kind_count_
    · rw [ht.counts_eq k (by rw [hK]; exact hk), hs.counts_eq k hk, hA, hcount k,
        if_neg hk2, if_neg hk1]
    · rw [List.getElem?_eq_none (by rw [ht.counts_length, hK]; omega),
        List.getElem?_eq_none (by rw [hs.counts_length]; omega)]
  · have hk : k < s.kind_count_ := by
      rw [← hs.counts_length]
      by_contra hn
      rw [List.getElem?_eq_none (by omega)] at hc
      exact Option.noConfusion hc
    rw [hs.counts_eq k hk] at hc
    simp only [Option.some.injEq] at hc
    have hcne : s.assignments_.count k ≠ 0 := by omega
    rw [ht.prior_eq k (by rw [hK]; exact hk), hs.prior_eq k hk, hA, hcount k, if_neg hk2,
      if_neg hk1, prior_of_count, prior_of_count, if_pos hcne, if_pos hcne, hd]

/-- C19. The unsigned counters never wrap: in every state reached from a
constructed sampler by per-feature steps of `run`, for every feature `f` with
kind `old_k`, `counts_[old_k] ≥ 1` (so `--counts_[old_k]` does not wrap modulo
`2 ^ 32`), `counts_[new_k] + 1 < 2 ^ 32` for every other kind, and
`empty_kind_count_ ≥ 1` whenever `counts_[new_k]` is 0; `|E| ≤ K - 1` always;
and the step for `f` returns in a state where `|E|` has changed by at most 1.
Sizes are within the ranges of the counters, as in C1. -/
theorem counters_never_wrap {Rng : Type} (lvl : Nat)
    (sample : Rng → List ℚ → ℚ → Nat × Rng) (horacle : OracleInRange sample)
    (clustering : PitmanYor) (likelihoods : List (List ℚ)) (assignments : List Nat)
    (s0 : BlockPitmanYorSampler)
    (hctor : BlockPitmanYorSampler.BlockPitmanYorSampler lvl clustering likelihoods
      assignments = .ok s0)
    (hF : likelihoods.length < 2 ^ 32) (hK : ∀ row ∈ likelihoods, row.length ≤ 2 ^ 32)
    (rng0 : Rng) (st : BlockPitmanYorSampler × Rng)
    (hreach : Reachable lvl sample (s0, rng0) st) (f : Nat) (hf : f < st.1.feature_count_) :
    CountersSafe st.1 f ∧
    ∃ st', run_step lvl sample f st = .ok st' ∧
      st'.1.empty_kinds_.toFinset.card ≤ st.1.empty_kinds_.toFinset.card + 1 ∧
      st.1.empty_kinds_.toFinset.card ≤ st'.1.empty_kinds_.toFinset.card + 1 ∧
      st'.1.empty_kinds_.toFinset.card + 1 ≤ st'.1.kind_count_ := by
  obtain ⟨hs, -⟩ := reachable_inv horacle (constructed_inv hctor hF hK).1 hreach
  refine ⟨hs.countersSafe hf, ?_⟩
  obtain ⟨row, post, old, t, -, -, hold, -, -, hstep, htinv, hsame, hA, -⟩ :=
    run_step_detail lvl sample horacle hs hf st.2
  obtain ⟨h1, h2⟩ := empty_length_change hs htinv hsame.2.2.2.1 hold hA
  refine ⟨_, hstep, ?_, ?_, ?_⟩
  · rw [htinv.card_empty, hs.card_empty]
    exact h1
  · rw [htinv.card_empty, hs.card_empty]
    exact h2
  · rw [htinv.card_empty]
    exact htinv.empty_length_lt

theorem counters_never_wrap_witness :
    CountersSafe example_initial 0 ∧
    ∃ st', run_step 3 example_oracle 0 (example_initial, 2) = .ok st' ∧
      st'.1.empty_kinds_.toFinset.card ≤ example_initial.empty_kinds_.toFinset.card + 1 ∧
      example_initial.empty_kinds_.toFinset.card ≤ st'.1.empty_kinds_.toFinset.card + 1 ∧
      st'.1.empty_kinds_.toFinset.card + 1 ≤ st'.1.kind_count_ :=
  counters_never_wrap 3 example_oracle example_oracle_in_range ⟨1, 1 / 2⟩
    example_likelihoods [0, 1] example_initial example_constructed example_sizes.1
    example_sizes.2 2 (example_initial, 2) (Reachable.refl _) 0 (by decide)

/-- C20. A move touches only the two kinds and the one feature involved: when,
in a state reached from a constructed sampler, the step for feature `f` moves
it from `old_k` to `new_k ≠ old_k`, afterwards `A[g]` is unchanged for every
`g ≠ f`, `C[old_k]` has decreased by exactly 1, `C[new_k]` has increased by
exactly 1, `C[k]` is unchanged for every other `k`, and `P[k]` is unchanged for
every occupied kind `k` other than `old_k` and `new_k`. Sizes are within the
ranges of the counters, as in C1. -/
theorem move_touches_two_kinds {Rng : Type} (lvl : Nat)
    (sample : Rng → List ℚ → ℚ → Nat × Rng) (horacle : OracleInRange sample)
    (clustering : PitmanYor) (likelihoods : List (List ℚ)) (assignments : List Nat)
    (s0 : BlockPitmanYorSampler)
    (hctor : BlockPitmanYorSampler.BlockPitmanYorSampler lvl clustering likelihoods
      assignments = .ok s0)
    (hF : likelihoods.length < 2 ^ 32) (hK : ∀ row ∈ likelihoods, row.length ≤ 2 ^ 32)
    (rng0 : Rng) (st : BlockPitmanYorSampler × Rng)
    (hreach : Reachable lvl sample (s0, rng0) st) (f : Nat) (hf : f < st.1.feature_count_)
    (st' : BlockPitmanYorSampler × Rng) (hstep : run_step lvl sample f st = .ok st')
    (old new : Nat) (hold : st.1.assignments_[f]? = some old)
    (hnew : st'.1.assignments_[f]? = some new) (hne : new ≠ old) :
    MoveFrame st.1 st'.1 f old new := by
  obtain ⟨hs, -⟩ := reachable_inv horacle (constructed_inv hctor hF hK).1 hreach
  obtain ⟨row, post, old', t, -, -, hold', -, hlt, hstep', htinv, hsame, hA, -⟩ :=
    run_step_detail lvl sample horacle hs hf st.2
  have hst : st'.1 = t := by
    have h1 : run_step lvl sample f (st.1, st.2) = .ok st' := hstep
    rw [hstep'] at h1
    exact (congrArg Prod.fst (Except.ok.inj h1)).symm
  rw [hst] at hnew ⊢
  have hfA : f < st.1.assignments_.length := by rw [hs.assignments_length]; exact hf
  have hdrawn : (sample st.2 post (List.zipWith (· * ·) st.1.prior_ row).sum).1 = new := by
    have h2 : t.assignments_[f]? = some new := hnew
    rw [hA, List.getElem?_set_self hfA] at h2
    simpa using h2
  rw [hdrawn] at hA hlt
  exact move_frame hs htinv hsame hold hne hlt hA

theorem move_touches_two_kinds_witness :
    MoveFrame example_initial example_moved 0 0 2 :=
  move_touches_two_kinds 3 example_oracle example_oracle_in_range ⟨1, 1 / 2⟩
    example_likelihoods [0, 1] example_initial example_constructed example_sizes.1
    example_sizes.2 2 (example_initial, 2) (Reachable.refl _) 0 (by decide)
    (example_moved, 3) example_step 0 2 rfl rfl (by decide)

/-! ## The state the constructor establishes -/

theorem Inv.priorFromCounts {s : BlockPitmanYorSampler} (hs : Inv s) : PriorFromCounts s := by
  have hle := hs.empty_length_le
  have hK := hs.kind_count_le
  have hsz : to_size_t (s.kind_count_ + 2 ^ 64 - s.empty_kinds_.length) =
      s.kind_count_ - s.empty_kinds_.length := by
    unfold to_size_t
    omega
  refine ⟨?_, fun k hk c hc => ?_⟩
  · rw [hs.card_empty, get_likelihood_empty_eq, likelihood_empty, hs.empty_kind_count_eq, hsz,
      Nat.cast_sub hle]
    by_cases h0 : s.empty_kinds_.length = 0
    · simp [h0]
    · rw [if_pos h0, if_pos (Nat.pos_of_ne_zero h0)]
  · rw [hs.counts_eq k hk] at hc
    simp only [Option.some.injEq] at hc
    rw [hs.prior_eq k hk, hc, prior_of_count]
    by_cases h0 : c = 0
    · simp [h0]
    · rw [if_pos h0, if_pos (Nat.pos_of_ne_zero h0)]

/-- C16. Construction establishes the derived state: for every non-empty
`F × K` likelihood matrix and every length-`F` assignment vector with entries
below `K` (and hyperparameters the constructor accepts), the constructor returns
a sampler over that matrix and vector with `C[k] = #{f : A[f] = k}`,
`E = {k : C[k] = 0}`, `empty_kind_count_ = |E|`, and `P[k] = C[k] - d` when
`C[k] > 0` and `P[k] = likelihood_empty` otherwise, where `likelihood_empty` is
`(alpha + d * (K - |E|)) / |E|` if `|E| > 0` and `0` if `|E| = 0`. Sizes are
within the ranges of the counters, as in C1. -/
theorem constructor_establishes_state (lvl : Nat) (clustering : PitmanYor)
    (likelihoods : List (List ℚ)) (assignments : List Nat) (row0 : List ℚ)
    (halpha : 0 < clustering.alpha) (hd0 : 0 ≤ clustering.d) (hd1 : clustering.d < 1)
    (hrow0 : likelihoods[0]? = some row0)
    (hrows : ∀ row ∈ likelihoods, row.length = row0.length)
    (hlen : assignments.length = likelihoods.length)
    (hA : ∀ a ∈ assignments, a < row0.length)
    (hF : likelihoods.length < 2 ^ 32) (hK : row0.length ≤ 2 ^ 32) :
    ∃ s, BlockPitmanYorSampler.BlockPitmanYorSampler lvl clustering likelihoods
        assignments = .ok s ∧
      (s.alpha_ = clustering.alpha ∧ s.d_ = clustering.d ∧
        s.feature_count_ = likelihoods.length ∧ s.kind_count_ = row0.length ∧
        s.likelihoods_ = likelihoods ∧ s.assignments_ = assignments) ∧
      CountsConsistent s ∧ EmptyKindsExact s ∧ PriorFromCounts s := by
  obtain ⟨s, hs⟩ := constructor_valid lvl clustering likelihoods assignments row0 hrow0
    halpha hd0 hd1 hlen.symm hrows hA
  obtain ⟨r, hr, ⟨e1, e2, e3, e4, e5, e6, -, -⟩, -, -⟩ := constructor_ok hs
  have hrr : r = row0 := by
    rw [hrow0] at hr
    exact (Option.some.inj hr).symm
  subst hrr
  have hinv : Inv s := constructor_inv hs (by rw [e3]; exact hF) (by rw [e4]; exact hK)
  exact ⟨s, hs, ⟨e1, e2, e3, e4, e5, e6⟩, hinv.countsConsistent, hinv.emptyKindsExact,
    hinv.priorFromCounts⟩

theorem constructor_establishes_state_witness :
    ∃ s, BlockPitmanYorSampler.BlockPitmanYorSampler 3 ⟨1, 1 / 2⟩ example_likelihoods
        [0, 1] = .ok s ∧
      (s.alpha_ = 1 ∧ s.d_ = 1 / 2 ∧
        s.feature_count_ = example_likelihoods.length ∧
        s.kind_count_ = ([1, 1, 1] : List ℚ).length ∧
        s.likelihoods_ = example_likelihoods ∧ s.assignments_ = [0, 1]) ∧
      CountsConsistent s ∧ EmptyKindsExact s ∧ PriorFromCounts s :=
  constructor_establishes_state 3 ⟨1, 1 / 2⟩ example_likelihoods [0, 1] [1, 1, 1]
    (by norm_num) (by norm_num) (by norm_num) (by simp [example_likelihoods])
    (by simp [example_likelihoods]) (by simp [example_likelihoods]) (by simp)
    (by simp [example_likelihoods]) (by simp)

/-! ## Scenario S4 -/

theorem eq_singleton_of_nodup {E : List Nat} {a : Nat} (hnd : E.Nodup)
    (h : ∀ k, k ∈ E ↔ k = a) : E = [a] :=
  List.perm_singleton.1
    ((List.perm_ext_iff_of_nodup hnd (List.nodup_singleton a)).2 (fun k => by
      rw [h k, List.mem_singleton]))

/-- C14. Scenario S4 (empty-refresh): with `F = 3`, `K = 3`, initial
`A = [0, 1, 2]`, `alpha = 1`, `d = 0`, when the first step moves feature 0 from
kind 0 to kind 1 (whatever the likelihood matrix and the in-range oracle that
make it do so), the state after that step has `A = [1, 1, 2]`,
`C = [0, 2, 1]`, `E = {0}` with `empty_kind_count_ = 1`, and
`P = [1, 2, 1]`: `P[0] = (alpha + d * 2) / 1 = 1`, `P[1] = 2`, `P[2] = 1`. -/
theorem scenario_s4_empty_refresh {Rng : Type} (lvl : Nat)
    (sample : Rng → List ℚ → ℚ → Nat × Rng) (horacle : OracleInRange sample)
    (likelihoods : List (List ℚ)) (s0 : BlockPitmanYorSampler)
    (hctor : BlockPitmanYorSampler.BlockPitmanYorSampler lvl ⟨1, 0⟩ likelihoods
      [0, 1, 2] = .ok s0)
    (hK3 : s0.kind_count_ = 3) (rng : Rng) (st1 : BlockPitmanYorSampler × Rng)
    (hstep : run_step lvl sample 0 (s0, rng) = .ok st1)
    (hmove : st1.1.assignments_[0]? = some 1) :
    st1.1.assignments_ = [1, 1, 2] ∧ st1.1.counts_ = [0, 2, 1] ∧
      st1.1.empty_kinds_ = [0] ∧ st1.1.empty_kind_count_ = 1 ∧
      st1.1.prior_ = [1, 2, 1] := by
  obtain ⟨r, hr, ⟨e1, e2, e3, e4, e5, e6, -, -⟩, ⟨-, -, -, -, h5, -⟩, -⟩ := constructor_ok hctor
  have hF3 : s0.feature_count_ = 3 := by rw [e3, h5]; rfl
  have hs : Inv s0 := constructor_inv hctor (by rw [hF3]; norm_num) (by rw [hK3]; norm_num)
  obtain ⟨row, post, old, t, -, -, -, -, -, hstep', ht, hsame, hA, -⟩ :=
    run_step_detail lvl sample horacle hs (by rw [hF3]; norm_num : 0 < s0.feature_count_) rng
  have hst : st1.1 = t := by
    rw [hstep'] at hstep
    exact (congrArg Prod.fst (Except.ok.inj hstep)).symm
  rw [hst] at hmove ⊢
  rw [e6] at hA
  have hdrawn : (sample rng post (List.zipWith (· * ·) s0.prior_ row).sum).1 = 1 := by
    rw [hA] at hmove
    simpa using hmove
  rw [hdrawn] at hA
  have hA' : t.assignments_ = [1, 1, 2] := by rw [hA]; rfl
  obtain ⟨ha, hd, -, hK, -⟩ := hsame
  have hKt : t.kind_count_ = 3 := by rw [hK, hK3]
  have hat : t.alpha_ = 1 := by rw [ha, e1]
  have hdt : t.d_ = 0 := by rw [hd, e2]
  have hE : t.empty_kinds_ = [0] := by
    apply eq_singleton_of_nodup ht.empty_nodup
    intro k
    rw [ht.mem_empty, hKt, hA']
    constructor
    · rintro ⟨hk, h0⟩
      interval_cases k
      · rfl
      · simp at h0
      · simp at h0
    · rintro rfl
      exact ⟨by norm_num, by simp⟩
  have hcount : t.empty_kind_count_ = 1 := by rw [ht.empty_kind_count_eq, hE]; rfl
  refine ⟨hA', ?_, hE, hcount, ?_⟩
  · apply List.ext_getElem?
    intro k
    by_cases hk : k < 3
    · rw [ht.counts_eq k (by rw [hKt]; exact hk), hA']
      interval_cases k <;> simp
    · rw [List.getElem?_eq_none (by rw [ht.counts_length, hKt]; omega),
        List.getElem?_eq_none (by simp; omega)]
  · apply List.ext_getElem?
    intro k
    by_cases hk : k < 3
    · rw [ht.prior_eq k (by rw [hKt]; exact hk), hA']
      interval_cases k <;>
        simp [prior_of_count, get_likelihood_empty_eq, likelihood_empty, hat, hdt, hKt, hcount]
    · rw [List.getElem?_eq_none (by rw [ht.prior_length, hKt]; omega),
        List.getElem?_eq_none (by simp; omega)]

theorem scenario_s4_empty_refresh_witness :
    scenario_s4_moved.assignments_ = [1, 1, 2] ∧ scenario_s4_moved.counts_ = [0, 2, 1] ∧
      scenario_s4_moved.empty_kinds_ = [0] ∧ scenario_s4_moved.empty_kind_count_ = 1 ∧
      scenario_s4_moved.prior_ = [1, 2, 1] :=
  scenario_s4_empty_refresh 3 example_oracle example_oracle_in_range
    scenario_s4_likelihoods scenario_s4_initial
    (by
      simp [BlockPitmanYorSampler.BlockPitmanYorSampler, get_counts_from_assignments,
        get_empty_kinds_from_counts, get_prior_from_counts, get_likelihood_empty, for_loop,
        for_each, vec_at, vec_set, LOOM_ASSERT, LOOM_ASSERT1, IdSet.insert, to_uint32,
        to_size_t, bind, Except.bind, pure, Except.pure, scenario_s4_likelihoods,
        scenario_s4_initial])
    rfl 1 (scenario_s4_moved, 2)
    (by
      simp [run_step, reassign, validate, compute_posterior, get_counts_from_assignments,
        get_prior_from_counts, get_likelihood_empty, for_loop, for_each, vec_at, vec_set,
        LOOM_ASSERT, LOOM_ASSERT1, LOOM_ASSERT_CLOSE, IdSet.insert, IdSet.erase,
        IdSet.contains, to_uint32, to_size_t, bind, Except.bind, pure, Except.pure,
        example_oracle, scenario_s4_likelihoods, scenario_s4_initial, scenario_s4_moved]
      norm_num)
    rfl

/-! ## Iteration counts and empty domains -/

/-- A counted loop is the left fold of its body over `0, 1, ..., n - 1`. -/
theorem for_loop_eq_foldlM {σ : Type} (n : Nat) (body : Nat → σ → Except Fault σ) (s : σ) :
    for_loop n body s = (List.range n).foldlM (fun s i => body i s) s := by
  induction n with
  | zero => rfl
  | succ n ih =>
    rw [for_loop, ih, List.range_succ, List.foldlM_append]
    cases (List.range n).foldlM (fun s i => body i s) s with
    | error e => rfl
    | ok a =>
      simp only [ok_bind, List.foldlM_cons, List.foldlM_nil]
      cases body n a <;> rfl

/-- A loop whose first iteration fails, fails with that fault. -/
theorem for_loop_first_error {σ : Type} (n : Nat) (body : Nat → σ → Except Fault σ)
    (s : σ) (e : Fault) (h : body 0 s = .error e) : for_loop (n + 1) body s = .error e := by
  induction n with
  | zero => simpa [for_loop, bind, Except.bind] using h
  | succ n ih => rw [for_loop, ih]; rfl

/-- The outer loop of `run`, from a consistent state: it returns, and it is the
step folded over the sweep schedule. -/
theorem sweeps_eq_schedule {Rng : Type} (lvl : Nat) (sample : Rng → List ℚ → ℚ → Nat × Rng)
    (horacle : OracleInRange sample) {s : BlockPitmanYorSampler} (hs : Inv s) (rng : Rng)
    (iterations : Nat) :
    ∃ st', for_loop iterations (fun _ state =>
          for_loop state.1.feature_count_ (run_step lvl sample) state) (s, rng) = .ok st' ∧
      (sweep_schedule iterations s.feature_count_).foldlM
          (fun st f => run_step lvl sample f st) (s, rng) = .ok st' ∧
      Reachable lvl sample (s, rng) st' := by
  obtain ⟨st', h, -, -, hsched, hreach⟩ := for_loop_inv
    (fun i (u : BlockPitmanYorSampler × Rng) =>
      Inv u.1 ∧ u.1.feature_count_ = s.feature_count_ ∧
      (sweep_schedule i s.feature_count_).foldlM
        (fun st f => run_step lvl sample f st) (s, rng) = .ok u ∧
      Reachable lvl sample (s, rng) u)
    iterations
    (fun _ state => for_loop state.1.feature_count_ (run_step lvl sample) state)
    (s, rng) ⟨hs, rfl, rfl, Reachable.refl _⟩
    (by
      rintro i - u ⟨hu, hF, hsched, hreach⟩
      obtain ⟨st', h, hinv, hr⟩ := sweep_spec lvl sample horacle hu
      obtain ⟨-, hsame⟩ := reachable_inv horacle hu hr
      refine ⟨st', h, hinv, hsame.2.2.1.trans hF, ?_, reachable_trans hreach hr⟩
      rw [sweep_schedule, List.foldlM_append, hsched]
      rw [hF, for_loop_eq_foldlM] at h
      exact h)
  exact ⟨st', h, hsched, hreach⟩

/-- C12. A zero iteration count is rejected, a positive one is honoured: for
every sampler state `run(0)` ends in the abort of its first statement, before
any member is written, and `infer_assignments` with `iterations = 0` ends in
the abort of its first statement whatever the rng, the scorer and the engine
are (no seed is drawn, no feature scored); for every `I ≥ 1`, on a constructed
sampler, the check passes and `run` returns the state obtained by `I` sweeps,
each applying the per-feature step to the features `0, 1, ..., F - 1` in
ascending order. Sizes are within the ranges of the counters, as in C1. -/
theorem iteration_count_checked {Rng : Type} (lvl : Nat)
    (sample : Rng → List ℚ → ℚ → Nat × Rng) (horacle : OracleInRange sample)
    (clustering : PitmanYor) (likelihoods : List (List ℚ)) (assignments : List Nat)
    (s0 : BlockPitmanYorSampler)
    (hctor : BlockPitmanYorSampler.BlockPitmanYorSampler lvl clustering likelihoods
      assignments = .ok s0)
    (hF : likelihoods.length < 2 ^ 32) (hK : ∀ row ∈ likelihoods, row.length ≤ 2 ^ 32)
    (rng0 : Rng) (iterations : Nat) (hI : 1 ≤ iterations) :
    (∀ (s : BlockPitmanYorSampler) (rng : Rng), run lvl sample s 0 rng = .error .abort) ∧
    (∀ (Kind : Type) (ext : External Rng Kind) (self : Algorithm8 Kind)
        (featureid_to_kindid : List Nat) (rng : Rng),
      Algorithm8.infer_assignments lvl ext self featureid_to_kindid 0 rng = .error .abort) ∧
    ∃ st', run lvl sample s0 iterations rng0 = .ok st' ∧
      (sweep_schedule iterations s0.feature_count_).foldlM
        (fun st f => run_step lvl sample f st) (s0, rng0) = .ok st' := by
  refine ⟨fun s rng => rfl, fun Kind ext self A rng => rfl, ?_⟩
  obtain ⟨st', h1, h2, -⟩ := sweeps_eq_schedule lvl sample horacle
    (constructed_inv hctor hF hK).1 rng0 iterations
  refine ⟨st', ?_, h2⟩
  unfold run
  have hpos : 0 < iterations := hI
  simp only [hpos, decide_True, LOOM_ASSERT_true, ok_bind]
  exact h1

theorem iteration_count_checked_witness :
    (∀ (s : BlockPitmanYorSampler) (rng : Nat),
      run 3 example_oracle s 0 rng = .error .abort) ∧
    (∀ (Kind : Type) (ext : External Nat Kind) (self : Algorithm8 Kind)
        (featureid_to_kindid : List Nat) (rng : Nat),
      Algorithm8.infer_assignments 3 ext self featureid_to_kindid 0 rng = .error .abort) ∧
    ∃ st', run 3 example_oracle example_initial 2 2 = .ok st' ∧
      (sweep_schedule 2 example_initial.feature_count_).foldlM
        (fun st f => run_step 3 example_oracle f st) (example_initial, 2) = .ok st' :=
  iteration_count_checked 3 example_oracle example_oracle_in_range ⟨1, 1 / 2⟩
    example_likelihoods [0, 1] example_initial example_constructed example_sizes.1
    example_sizes.2 2 2 (by decide)

/-- C11 (what the code does). With an empty assignment vector (`F = 0`) and a
positive iteration count, `infer_assignments` builds an empty matrix and the
constructor's initialiser `kind_count_(likelihoods[0].size())` reads
`likelihoods[0]` before the body can assert `0 < likelihoods.size()`; on an
engine with no kinds (`K = 0`) and at least one feature, the likelihood builder
reads `kinds[0]`. Both calls end in an out-of-range access, not in the abort of
an assertion. -/
theorem empty_domain_reaches_out_of_range {Rng Kind : Type} (lvl : Nat)
    (ext : External Rng Kind) (clustering : PitmanYor) (kinds : List Kind)
    (a : Nat) (A : List Nat) (iterations : Nat) (rng : Rng) :
    Algorithm8.infer_assignments lvl ext ⟨clustering, kinds⟩ [] (iterations + 1) rng =
        .error .out_of_range ∧
      BlockPitmanYorSampler.BlockPitmanYorSampler lvl clustering [] [] =
        .error .out_of_range ∧
      Algorithm8.infer_assignments lvl ext ⟨clustering, []⟩ (a :: A) (iterations + 1) rng =
        .error .out_of_range := by
  refine ⟨?_, rfl, ?_⟩
  · simp [Algorithm8.infer_assignments, Algorithm8.infer_assignments_likelihoods, for_loop,
      LOOM_ASSERT, BlockPitmanYorSampler.BlockPitmanYorSampler, vec_at, bind, Except.bind,
      pure, Except.pure]
  · have hb : Algorithm8.infer_assignments_likelihoods ext ⟨clustering, []⟩ (a :: A) rng =
        .error .out_of_range := by
      unfold Algorithm8.infer_assignments_likelihoods
      simp only [List.length_cons, List.length_nil]
      rw [for_loop_first_error _ _ _ .out_of_range]
      · rfl
      · simp only [List.replicate_succ, vec_at, List.getElem?_cons_zero, ok_bind]
        rw [for_loop_first_error _ _ _ .out_of_range]
        · rfl
        · rfl
    simp [Algorithm8.infer_assignments, hb, LOOM_ASSERT, bind, Except.bind]

end loom
